import Mathlib

/-!
# tudocomp: the data structure dependency graph

A shallow embedding of `include/tudocomp/ds/DSDependencyGraph.hpp`, followed by
smaller ones of `IntVector.hpp`, `LCPFromPLCP.hpp` and `lz78/Lz78DebugCoder.hpp`.

The C++ class is a template over a manager type and the pack `m_construct` of
requested data structures. Everything the templates read from the manager's
provider types (the `requirements` and `provides` index sequences) is gathered
in a `Registry`. The calls issued to the manager are recorded, in order, in the
`calls` component of the `State`; the `std::map` `m_degree` is a partial
function from identifiers to counters. The `events` component holds the history
of the object, the manager calls together with the writes to `m_degree`. The
object changes through these two operations only, so a state of a run is
determined by its history: the state at the moment of a call is the one the
history up to that call leads to (`State.replay`).

Template recursion is modelled with a depth budget (`fuel`): one unit is used
each time the recursion enters the provider of a data structure. A budget that
is used up yields `none` (compile time computations) or `Fault.depth`
(run time computations). The `size_t` sums of the compile time cost are taken
modulo `2 ^ SIZE_BITS`, and the loop counter of `LCPFromPLCP` modulo
`2 ^ LEN_BITS`; the counters in `m_degree`, which grow by one with each
`ensure_provider` call, are natural numbers.
-/

namespace tdc

/-- Identifier of a data structure (`dsid_t`). -/
abbrev dsid_t := Nat

/-- Modelled from the spec: `CompressMode` of `tudocomp/ds/CompressMode.hpp`,
which is not part of the sources at hand; the three modes of section 3. -/
inductive CompressMode
  | plain
  | compressed
  | delayed
deriving DecidableEq, Repr

/-- The static provider metadata: `provider_t<ds>::requirements` and
`provider_t<ds>::provides` for every data structure `ds`. -/
structure Registry where
  requirements : dsid_t → List dsid_t
  provides : dsid_t → List dsid_t

/-- One call to the data structure manager. -/
inductive Call
  | ensure_provider (ds : dsid_t)
  | protect (ds : dsid_t)
  | unprotect (ds : dsid_t)
  | construct (ds : dsid_t) (compressed_space : Bool)
  | discard (ds : dsid_t) (flag : Bool)
  | compress (ds : dsid_t)
deriving DecidableEq, Repr

/-- One entry of the history of a `DSDependencyGraph`: a call to the manager, or
the write of `d` to the entry of `ds` in `m_degree`. -/
inductive Event
  | call (c : Call)
  | store (ds : dsid_t) (d : Nat)
deriving DecidableEq, Repr

/-- The mutable part of a `DSDependencyGraph` together with the log of the
manager calls issued so far (oldest first) and the history of all that has
happened to the object: every manager call and every write to `m_degree`, in
order. No function reads `calls` or `events`; they record what was done. -/
structure State where
  m_degree : dsid_t → Option Nat
  calls : List Call
  events : List Event

/-- The state at the start of the constructor: empty map, nothing called. -/
def State.init : State := ⟨fun _ => none, [], []⟩

/-- Issue a manager call. -/
def State.call (s : State) (c : Call) : State :=
  { s with calls := s.calls ++ [c], events := s.events ++ [Event.call c] }

/-- Write `d` to the map entry of `ds` (creating it when absent). -/
def State.store (s : State) (ds : dsid_t) (d : Nat) : State :=
  { s with m_degree := fun x => if x = ds then some d else s.m_degree x,
           events := s.events ++ [Event.store ds d] }

/-- What stops a run: the two `std::logic_error`s of `decrease_degree`, and the
exhaustion of the recursion depth budget. -/
inductive Fault
  | orphan (ds : dsid_t)
  | already_zero (ds : dsid_t)
  | depth
deriving DecidableEq, Repr

/-- Outcome of a run time function: the new state, or a fault together with
the state at the moment it was raised. -/
abbrev Run := Except (Fault × State) State

/-- Run `f` on each element of an index sequence, from left to right: the
"process `Head`, then recurse on `Tail...`" scheme shared by the recursive
member functions. -/
def forSeq (f : dsid_t → State → Run) : List dsid_t → State → Run
  | [], s => .ok s
  | Head :: Tail, s =>
    match f Head s with
    | .ok s1 => forSeq f Tail s1
    | .error e => .error e

/-- `in_degree<ds>()`: the size of the requirement list. -/
def in_degree (reg : Registry) (ds : dsid_t) : Nat :=
  (reg.requirements ds).length

/-- Width of `size_t` in bits (64 on the platforms tudocomp is built for). -/
def SIZE_BITS : Nat := 64

/-- `_cost<ds, req>`: walks the remaining requirements `req` of `ds`; `costOf`
stands for `_cost<req_head, provider_t<req_head>::requirements>`. The members
`value` are `size_t` constants: the sum is taken modulo `2 ^ SIZE_BITS`. -/
def _cost (reg : Registry) (costOf : dsid_t → Option Nat) (ds : dsid_t) :
    List dsid_t → Option Nat
  | [] => some (in_degree reg ds % 2 ^ SIZE_BITS)
  | req_head :: req_tail =>
    match costOf req_head, _cost reg costOf ds req_tail with
    | some a, some b => some ((a + b) % 2 ^ SIZE_BITS)
    | _, _ => none

/-- `cost<ds>()`. -/
def cost (reg : Registry) : Nat → dsid_t → Option Nat
  | 0, _ => none
  | fuel + 1, ds => _cost reg (cost reg fuel) ds (reg.requirements ds)

/-- `_cost_compare::compare<T, A, B>()`: `cost<A>() >= cost<B>()`. -/
def _cost_compare (reg : Registry) (fuel : Nat) (A B : dsid_t) : Option Bool :=
  match cost reg fuel A, cost reg fuel B with
  | some a, some b => some (decide (a ≥ b))
  | _, _ => none

/-- Modelled from the spec: insertion step of `is::sort_idx`
(`tudocomp/util/integer_sequence.hpp`, not part of the sources at hand).
`Value` is placed in front of the first element it compares true with. -/
def _insert (compare : dsid_t → dsid_t → Option Bool) (Value : dsid_t) :
    List dsid_t → Option (List dsid_t)
  | [] => some [Value]
  | Head :: Tail =>
    match compare Value Head with
    | none => none
    | some true => some (Value :: Head :: Tail)
    | some false =>
      match _insert compare Value Tail with
      | some rest => some (Head :: rest)
      | none => none

/-- Modelled from the spec: `is::sort_idx<Seq, Compare>`
(`tudocomp/util/integer_sequence.hpp`, not part of the sources at hand):
"a stable sort of the sibling requirement set by descending cost; ties keep
original declaration order" (section 4.2), as an insertion sort. -/
def sort_idx (compare : dsid_t → dsid_t → Option Bool) :
    List dsid_t → Option (List dsid_t)
  | [] => some []
  | Head :: Tail =>
    match sort_idx compare Tail with
    | some sorted => _insert compare Head sorted
    | none => none

/-- `_construction_order<Seq>::seq`. -/
def _construction_order (reg : Registry) (fuel : Nat) (Seq : List dsid_t) :
    Option (List dsid_t) :=
  sort_idx (_cost_compare reg fuel) Seq

/-- `dependency_order<ds>`. -/
def dependency_order (reg : Registry) (fuel : Nat) (ds : dsid_t) :
    Option (List dsid_t) :=
  _construction_order reg fuel (reg.requirements ds)

/-- `construction_order<ds...>`. -/
def construction_order (reg : Registry) (fuel : Nat) (ds : List dsid_t) :
    Option (List dsid_t) :=
  _construction_order reg fuel ds

/-- `degree(ds)`: the map entry, or zero when there is none. -/
def degree (s : State) (ds : dsid_t) : Nat :=
  match s.m_degree ds with
  | some d => d
  | none => 0

/-- Modelled from the spec: `is::contains_idx<ds, Seq>()` of
`tudocomp/util/integer_sequence.hpp`, which is not part of the sources at hand:
whether `ds` occurs in the sequence ("is in the requested set"). -/
def contains_idx (ds : dsid_t) (Seq : List dsid_t) : Bool :=
  decide (ds ∈ Seq)

/-- `is_requested<ds>()`. -/
def is_requested (m_construct : List dsid_t) (ds : dsid_t) : Bool :=
  contains_idx ds m_construct

/-- Body of `init_degree` for `Head` (all but the final step to `Tail...`). -/
def init_degree_head (reg : Registry) : Nat → dsid_t → State → Run
  | 0, _, s => .error (Fault.depth, s)
  | fuel + 1, Head, s =>
    match forSeq (init_degree_head reg fuel) (reg.requirements Head)
        (s.call (.ensure_provider Head)) with
    | .error e => .error e
    | .ok s1 =>
      match s1.m_degree Head with
      | none => .ok (s1.store Head 1)
      | some d => .ok ((s1.store Head (d + 1)).call (.protect Head))

/-- `init_degree(std::index_sequence<Head, Tail...>)`. -/
def init_degree (reg : Registry) (fuel : Nat) (seq : List dsid_t) (s : State) : Run :=
  forSeq (init_degree_head reg fuel) seq s

/-- `possibly_compress<ds>()`. -/
def possibly_compress (m_construct : List dsid_t) (ds : dsid_t) (s : State) : State :=
  if is_requested m_construct ds = true ∧ degree s ds = 1 then s.call (.compress ds) else s

/-- `decrease_degree(std::index_sequence<Head, Tail...>)`. -/
def decrease_degree (m_cm : CompressMode) (m_construct : List dsid_t) :
    List dsid_t → State → Run
  | [], s => .ok s
  | Head :: Tail, s =>
    match s.m_degree Head with
    | none => .error (Fault.orphan Head, s)
    | some 0 => .error (Fault.already_zero Head, s)
    | some (d + 1) =>
      let s1 := s.store Head d
      let s2 :=
        if d = 0 then s1.call (.discard Head true)
        else if m_cm = CompressMode.delayed then possibly_compress m_construct Head s1
        else s1
      let s3 :=
        if d = 1 ∧ is_requested m_construct Head = false then s2.call (.unprotect Head)
        else s2
      decrease_degree m_cm m_construct Tail s3

/-- `discard_byproducts(std::index_sequence<Head, Tail...>)`. -/
def discard_byproducts : List dsid_t → State → State
  | [], s => s
  | Head :: Tail, s =>
    discard_byproducts Tail
      (if degree s Head = 0 then s.call (.discard Head true) else s)

/-- Body of `construct_recursive` for `Head` (all but the final step to
`Tail...`). -/
def construct_head (reg : Registry) (m_cm : CompressMode) (m_construct : List dsid_t) :
    Nat → Bool → dsid_t → State → Run
  | 0, _, _, s => .error (Fault.depth, s)
  | fuel + 1, top_level, Head, s =>
    match dependency_order reg fuel Head with
    | none => .error (Fault.depth, s)
    | some order =>
      match forSeq (construct_head reg m_cm m_construct fuel false) order s with
      | .error e => .error e
      | .ok s1 =>
        let s2 := s1.call (.construct Head (decide (m_cm = CompressMode.compressed)))
        let s3 := discard_byproducts (reg.provides Head) s2
        match decrease_degree m_cm m_construct (reg.requirements Head) s3 with
        | .error e => .error e
        | .ok s4 =>
          .ok (if m_cm = CompressMode.delayed ∧ top_level = true
               then possibly_compress m_construct Head s4 else s4)

/-- `construct_recursive(top_level, std::index_sequence<Head, Tail...>)`. -/
def construct_recursive (reg : Registry) (m_cm : CompressMode) (m_construct : List dsid_t)
    (fuel : Nat) (top_level : Bool) (seq : List dsid_t) (s : State) : Run :=
  forSeq (construct_head reg m_cm m_construct fuel top_level) seq s

/-- The constructor `DSDependencyGraph(manager, cm)`: the request phase followed
by the evaluation phase. -/
def DSDependencyGraph (reg : Registry) (m_construct : List dsid_t) (cm : CompressMode)
    (fuel : Nat) : Run :=
  match init_degree reg fuel m_construct State.init with
  | .error e => .error e
  | .ok s =>
    match construction_order reg fuel m_construct with
    | none => .error (Fault.depth, s)
    | some order => construct_recursive reg cm m_construct fuel true order s

/-- Example registry of section 8: `A = 0` requires nothing, `B = 1` and
`C = 2` require `A`. -/
def regABC : Registry where
  requirements := fun ds => if ds = 1 ∨ ds = 2 then [0] else []
  provides := fun _ => []

/-- Number of requirement paths from `ds` to `target` that follow at most `fuel`
edges (the empty path counts when `ds = target`; a requirement listed twice
gives two edges). -/
def num_paths (reg : Registry) : Nat → dsid_t → dsid_t → Nat
  | 0, ds, target => if ds = target then 1 else 0
  | fuel + 1, ds, target =>
    (if ds = target then 1 else 0) +
      ((reg.requirements ds).map (fun r => num_paths reg fuel r target)).sum

/-- Number of requirement paths from the members of `seq` to `target`. -/
def paths_from (reg : Registry) (fuel : Nat) (seq : List dsid_t) (target : dsid_t) : Nat :=
  (seq.map (fun ds => num_paths reg fuel ds target)).sum

/-- A topological numbering of the registry: every requirement has a smaller
rank than the data structure requiring it. -/
def Registry.RankedBy (reg : Registry) (rank : dsid_t → Nat) : Prop :=
  ∀ k r, r ∈ reg.requirements k → rank r < rank k

/-- The requirement relation has no cycle: it admits a topological numbering
(for the finitely many data structures of a program the two say the same). -/
def Registry.Acyclic (reg : Registry) : Prop :=
  ∃ rank : dsid_t → Nat, reg.RankedBy rank

/-- No map entry holds zero. -/
def NoZero (s : State) : Prop := ∀ x, s.m_degree x ≠ some 0

/-- Effect of a walk of the request phase that visits every `x` exactly `P x`
times: the degree grows by `P x`, `ensure_provider` is called at every visit and
`protect` at every visit but the first. -/
def InitRel (P : dsid_t → Nat) (s s' : State) : Prop :=
  (∀ x, degree s' x = degree s x + P x) ∧ NoZero s' ∧
  ∃ t, s'.calls = s.calls ++ t ∧
    (∀ x, t.count (Call.ensure_provider x) = P x) ∧
    (∀ x, t.count (Call.protect x) + (degree s x - 1) = degree s' x - 1) ∧
    (∀ c ∈ t, (∃ x, c = Call.ensure_provider x) ∨ (∃ x, c = Call.protect x))

/-- The state after `decrease_degree` has handled `Head`, whose entry was
`d + 1`, and before it goes on with `Tail...`. -/
def dec_step (m_cm : CompressMode) (m_construct : List dsid_t) (Head : dsid_t) (d : Nat)
    (s : State) : State :=
  let s1 := s.store Head d
  let s2 :=
    if d = 0 then s1.call (.discard Head true)
    else if m_cm = CompressMode.delayed then possibly_compress m_construct Head s1
    else s1
  if d = 1 ∧ is_requested m_construct Head = false then s2.call (.unprotect Head) else s2

/-- Number of decrements of `target` caused by constructing the members of
`seq` with all they require: the paths to `target` that are not empty. -/
def dec_from (reg : Registry) (fuel : Nat) (seq : List dsid_t) (target : dsid_t) : Nat :=
  paths_from reg fuel seq target - seq.count target

/-- Effect of a part of the evaluation phase that decrements every `x` exactly
`D x` times: entries are neither created nor removed, calls are only added. -/
def DecRel (D : dsid_t → Nat) (s s' : State) : Prop :=
  (∀ x, degree s x = degree s' x + D x) ∧
  (∀ x, s'.m_degree x = none ↔ s.m_degree x = none) ∧
  ∃ t, s'.calls = s.calls ++ t

/-- The calls `decrease_degree` may issue, told by the state `s` it returns:
a discard of a data structure whose degree is zero, a compression of a requested
one in delayed mode, an unprotect of one that is not requested. -/
def DecCall (m_cm : CompressMode) (m_construct : List dsid_t) (s : State) (c : Call) : Prop :=
  (∃ r, c = Call.discard r true ∧ degree s r = 0) ∨
  (∃ r, c = Call.compress r ∧ m_cm = CompressMode.delayed ∧ r ∈ m_construct) ∨
  (∃ r, c = Call.unprotect r ∧ r ∉ m_construct)

/-- The calls of `discard_byproducts(provides)` when run in state `s`. -/
def byproduct_calls (provides : List dsid_t) (s : State) : List Call :=
  (provides.filter (fun b => decide (degree s b = 0))).map (fun b => Call.discard b true)

/-- Whether a call is `construct<ds>(..)`. -/
def is_construct_of (ds : dsid_t) : Call → Bool
  | .construct x _ => decide (x = ds)
  | _ => false

/-- Number of `construct<ds>(..)` calls in a log. -/
def construct_count (ds : dsid_t) (calls : List Call) : Nat :=
  calls.countP (is_construct_of ds)

/-- A topological numbering of `regABC`. -/
def rankABC (ds : dsid_t) : Nat := if ds = 0 then 0 else 1

/-- Whether a call is `discard<ds>(..)`. -/
def is_discard_of (ds : dsid_t) : Call → Bool
  | .discard x _ => decide (x = ds)
  | _ => false

/-- In the log `pre` the data structure `r` has been constructed, and since its
most recent construction it has not been discarded. -/
def ConstructedAndKept (r : dsid_t) (pre : List Call) : Prop :=
  ∃ p1 c p2, pre = p1 ++ Call.construct r c :: p2 ∧
    ∀ x ∈ p2, is_construct_of r x = false ∧ is_discard_of r x = false

/-- Every `construct` call of the log finds each direct requirement constructed
and kept. -/
def RequirementsReady (reg : Registry) (t : List Call) : Prop :=
  ∀ pre c post k, t = pre ++ Call.construct k c :: post →
    ∀ r ∈ reg.requirements k, ConstructedAndKept r pre

/-- A registry with byproducts: `A = 0` requires nothing, `B = 1` requires `A`,
and `C = 2` requires nothing and provides `A` and `3` on the side. -/
def regBy : Registry where
  requirements := fun ds => if ds = 1 then [0] else []
  provides := fun ds => if ds = 2 then [0, 3] else []

/-- The retained set, one call further: `construct<k>` materialises `k` and all
that `k` provides, `discard<k>` releases `k`. -/
def retained_step (reg : Registry) (x : dsid_t) (b : Bool) : Call → Bool
  | .construct k _ => b || decide (x = k) || decide (x ∈ reg.provides k)
  | .discard k _ => b && !decide (x = k)
  | _ => b

/-- Whether `x` is in the retained set after the calls of a log. -/
def retained_after (reg : Registry) (calls : List Call) (x : dsid_t) : Bool :=
  calls.foldl (retained_step reg x) false

/-- Whatever is retained still has a consumer. -/
def RetainedHaveDegree (reg : Registry) (s : State) : Prop :=
  ∀ x, retained_after reg s.calls x = true → 1 ≤ degree s x

/-- The data structures reachable from the members of `seq` along at most
`fuel` requirement edges (members and end points of the edges, with
repetitions). -/
def reachable (reg : Registry) : Nat → List dsid_t → List dsid_t
  | 0, seq => seq
  | fuel + 1, seq => seq ++ reachable reg fuel (seq.flatMap reg.requirements)

/-- The degree as the specification describes it: the number of distinct
requirement edges that point at `k` and start at a data structure reachable from
the requested ones, plus one if `k` is requested itself. -/
def edge_degree (reg : Registry) (fuel : Nat) (m_construct : List dsid_t) (k : dsid_t) : Nat :=
  (((reachable reg fuel m_construct).dedup.filter
      (fun p => decide (k ∈ reg.requirements p))).length) +
    (if k ∈ m_construct then 1 else 0)

/-- A registry in which a shared requirement has a requirement of its own:
`A = 0` requires nothing, `B = 1` requires `A`, `C = 2` and `D = 3` require `B`. -/
def regChain : Registry where
  requirements := fun ds => if ds = 1 then [0] else if ds = 2 ∨ ds = 3 then [1] else []
  provides := fun _ => []

/-- A topological numbering of `regChain`. -/
def rankChain (ds : dsid_t) : Nat := if ds = 0 then 0 else if ds = 1 then 1 else 2

/-- The value of `cost<ds>()` as a number (zero when the depth budget is too
small for it to be computed). -/
def costN (reg : Registry) (fuel : Nat) (ds : dsid_t) : Nat :=
  (cost reg fuel ds).getD 0

/-- The two states have the same data structures in their degree maps. -/
def SameKeys (s s' : State) : Prop :=
  ∀ x, s'.m_degree x = none ↔ s.m_degree x = none

/-- Every `construct` call in the part `t` of the log, issued after the state
`s`, is directly followed by the calls of `discard_byproducts`, taken in the
state `sd` in which the `construct` call was issued. -/
def ByproductsFollow (reg : Registry) (s : State) (t : List Call) : Prop :=
  ∀ pre c post k, t = pre ++ Call.construct k c :: post →
    ∃ sd rest, sd.calls = s.calls ++ pre ∧ SameKeys s sd ∧
      post = byproduct_calls (reg.provides k) sd ++ rest

/-- The `discard` calls for the members of `provides` that have no entry in the
degree map of `s0`, in the order of `provides`. -/
def absent_byproduct_calls (provides : List dsid_t) (s0 : State) : List Call :=
  (provides.filter (fun b => (s0.m_degree b).isNone)).map (fun b => Call.discard b true)

/-- The protection flag of `ds`, one call further. -/
def protected_step (ds : dsid_t) (b : Bool) : Call → Bool
  | .protect x => if x = ds then true else b
  | .unprotect x => if x = ds then false else b
  | _ => b

/-- Whether `ds` is protected after the calls of a log: its last `protect` or
`unprotect` call, if there is one, is a `protect`. -/
def protected_after (ds : dsid_t) (calls : List Call) : Bool :=
  calls.foldl (protected_step ds) false

/-- The calls the evaluation phase may issue. -/
def EvalCall (m_cm : CompressMode) (m_construct : List dsid_t) (c : Call) : Prop :=
  (∃ k, c = Call.construct k (decide (m_cm = CompressMode.compressed))) ∨
  (∃ k, c = Call.discard k true) ∨
  (∃ k, c = Call.compress k ∧ m_cm = CompressMode.delayed ∧ k ∈ m_construct) ∨
  (∃ k, c = Call.unprotect k ∧ k ∉ m_construct)

/-- One step of the evaluation phase: the `construct` call for a data structure
that still has a consumer, the discard of one byproduct of degree zero, the
handling of one requirement by `decrease_degree` (`dec_step`), or the
compression of a requested data structure of degree one in delayed mode. -/
inductive SchedStep (m_cm : CompressMode) (m_construct : List dsid_t) : State → State → Prop
  | construct (s : State) (h : dsid_t) : 1 ≤ degree s h →
      SchedStep m_cm m_construct s
        (s.call (.construct h (decide (m_cm = CompressMode.compressed))))
  | byproduct (s : State) (b : dsid_t) : degree s b = 0 →
      SchedStep m_cm m_construct s (s.call (.discard b true))
  | decrement (s : State) (r : dsid_t) (d : Nat) : s.m_degree r = some (d + 1) →
      SchedStep m_cm m_construct s (dec_step m_cm m_construct r d s)
  | compress (s : State) (h : dsid_t) : m_cm = CompressMode.delayed → h ∈ m_construct →
      degree s h = 1 → SchedStep m_cm m_construct s (s.call (.compress h))

/-- The state `s'` is reached from `s` by steps of the evaluation phase. -/
def SchedSteps (m_cm : CompressMode) (m_construct : List dsid_t) (s s' : State) : Prop :=
  Relation.ReflTransGen (SchedStep m_cm m_construct) s s'

/-- A data structure that is not requested is protected exactly if its degree
is at least two. -/
def ProtectedIffShared (m_construct : List dsid_t) (s : State) : Prop :=
  ∀ k, k ∉ m_construct → (protected_after k s.calls = true ↔ 2 ≤ degree s k)

/-- Since the state `s0` no degree has grown, and `unprotect` has been called
once more for exactly the data structures that are not requested and whose
degree has dropped from at least two to at most one. -/
def UnprotectedOnce (m_construct : List dsid_t) (s0 s : State) : Prop :=
  (∀ x, degree s x ≤ degree s0 x) ∧
  ∀ k, s.calls.count (Call.unprotect k) = s0.calls.count (Call.unprotect k) +
    (if k ∉ m_construct ∧ 2 ≤ degree s0 k ∧ degree s k ≤ 1 then 1 else 0)

/-- The message of the `std::logic_error` raised by `decrease_degree`;
`name_for` stands for `ds::name_for` of `tudocomp/ds/DSDef.hpp`, which is not
part of the sources at hand. -/
def Fault.what (name_for : dsid_t → String) : Fault → String
  | .orphan ds => "decrease degree for orphan node " ++ name_for ds
  | .already_zero ds => "degree already zero for node " ++ name_for ds
  | .depth => ""

/-- A registry with a requirement cycle: `X = 0` requires itself. -/
def regSelf : Registry where
  requirements := fun ds => if ds = 0 then [0] else []
  provides := fun _ => []

/-- The data structure `b` is reachable from `a` along requirement edges. -/
inductive Reaches (reg : Registry) : dsid_t → dsid_t → Prop
  | here (a : dsid_t) : Reaches reg a a
  | step (a r b : dsid_t) : r ∈ reg.requirements a → Reaches reg r b → Reaches reg a b

/-- A registry with a requirement list of two: `A = 0` requires nothing,
`B = 1` requires `A`, `C = 2` requires `A` and `B`. -/
def regFan : Registry where
  requirements := fun ds => if ds = 1 then [0] else if ds = 2 then [0, 1] else []
  provides := fun _ => []

/-- The registry `regFan` with the requirements of `C` listed the other way
round. -/
def regFanSwapped : Registry where
  requirements := fun ds => if ds = 1 then [0] else if ds = 2 then [1, 0] else []
  provides := fun _ => []

/-- The requirement paths that start at `ds` and follow at most `fuel` edges,
each as the list of the data structures it passes (a requirement that is listed
twice gives two paths). -/
def requirement_paths (reg : Registry) : Nat → dsid_t → List (List dsid_t)
  | 0, ds => [[ds]]
  | fuel + 1, ds =>
    [ds] :: (reg.requirements ds).flatMap
      (fun r => (requirement_paths reg fuel r).map (fun p => ds :: p))

/-- Whether a path ends at `target`. -/
def path_ends_at (target : dsid_t) (p : List dsid_t) : Bool :=
  decide (p.getLast? = some target)

/-! ## `IntVector` over a directly stored element type -/

/-- The number of bits of a byte (`CHAR_BIT`). -/
def CHAR_BIT : Nat := 8

/-- `IntVectorStdVectorRepr<T>::width(const backing_data&)`: the width is that
of the element type, `sizeof(T) * CHAR_BIT`, returned as a `uint8_t`. -/
def IntVectorStdVectorRepr.width (sizeof_T : Nat) (_self : List Nat) : Nat :=
  (sizeof_T * CHAR_BIT) % 2 ^ 8

/-- `IntVectorStdVectorRepr<T>::width(backing_data& self, uint8_t w)`: the body
is empty. The result is the vector afterwards, or the exception thrown. -/
def IntVectorStdVectorRepr.set_width (self : List Nat) (_w : Nat) : Except String (List Nat) :=
  .ok self

/-- `IntVector<T>` for an element type `T` that is stored directly (the general
case of `IntVectorTrait`, for instance `uint32_t`): `m_data` is a
`std::vector<T>`. -/
structure IntVector where
  sizeof_T : Nat
  m_data : List Nat
deriving DecidableEq, Repr

/-- `IntVector<T>::width() const`. -/
def IntVector.width (v : IntVector) : Nat :=
  IntVectorStdVectorRepr.width v.sizeof_T v.m_data

/-- `IntVector<T>::width(uint8_t w)`. -/
def IntVector.set_width (v : IntVector) (w : Nat) : Except String IntVector :=
  match IntVectorStdVectorRepr.set_width v.m_data w with
  | .ok d => .ok { v with m_data := d }
  | .error e => .error e

/-! ## The LCP array from the PLCP array -/

/-- Modelled from the spec: `iv_t`, the `DynamicIntVector` held by `ArrayDS`
(`tudocomp/ds/ArrayDS.hpp` and `BitPackingVector.hpp` are not part of the
sources at hand), as the documentation of `IntVector` describes the `dynamic_t`
case: the elements are packed with `width` bits each, and the width can be
changed at run time. An element keeps the low `width` bits of what is stored. -/
structure iv_t where
  width : Nat
  data : List Nat
deriving DecidableEq, Repr

/-- `iv_t(n, val, width)`. -/
def iv_t.with_width (n val width : Nat) : iv_t :=
  ⟨width, List.replicate n (val % 2 ^ width)⟩

/-- `(*this)[i] = x`; there is no result when `i` is out of bounds. -/
def iv_t.set (v : iv_t) (i x : Nat) : Option iv_t :=
  if i < v.data.length then some ⟨v.width, v.data.set i (x % 2 ^ v.width)⟩ else none

/-- `width(w)`: repack the elements with `w` bits each. -/
def iv_t.set_width (v : iv_t) (w : Nat) : iv_t :=
  ⟨w, v.data.map (fun x => x % 2 ^ w)⟩

/-- The PLCP array as `require_plcp` hands it out: its elements and the value of
`max_lcp()`. -/
structure PLCP where
  data : List Nat
  max_lcp : Nat

/-- An object of the class `LCPFromPLCP`: `m_max` and the array of `ArrayDS`. -/
structure LCPFromPLCP where
  m_max : Nat
  array : iv_t
deriving DecidableEq, Repr

/-- The loop `for(len_t i = 1; i < n; i++) { const len_t x = plcp[sa[i]];
(*this)[i] = x; }`, from the value `i` of the counter on. The counter is a
`len_t`, which has `LEN_BITS` bits, and `n` is a `size_t`: `i++` wraps to zero
at `2 ^ LEN_BITS`. `fuel` bounds the number of times the condition is tested;
there is no result when it runs out, or when an index is out of bounds. -/
def LCPFromPLCP.fill (LEN_BITS : Nat) (n : Nat) (sa plcp : List Nat) :
    Nat → Nat → iv_t → Option iv_t
  | 0, _, _ => none
  | fuel + 1, i, a =>
    if i < n then
      match sa[i]? with
      | none => none
      | some p =>
        match plcp[p]? with
        | none => none
        | some x =>
          match a.set i (x % 2 ^ LEN_BITS) with
          | none => none
          | some a1 => LCPFromPLCP.fill LEN_BITS n sa plcp fuel ((i + 1) % 2 ^ LEN_BITS) a1
    else some a

/-- `LCPFromPLCP::compress()`: `width(bits_for(m_max)); shrink_to_fit();`, of
which the second changes the capacity only. -/
def LCPFromPLCP.compress (bits_for : Nat → Nat) (self : LCPFromPLCP) : LCPFromPLCP :=
  { self with array := self.array.set_width (bits_for self.m_max) }

/-- The constructor `LCPFromPLCP(env, t, cm)` for a text of size `n` with
suffix array `sa` and PLCP array `plcp`; `m_max` is a `len_t`. The function
`bits_for` and the constant `LEN_BITS` are not part of the sources at hand and
are parameters; `fuel` bounds the number of rounds of the loop. -/
def LCPFromPLCP.construct (bits_for : Nat → Nat) (LEN_BITS : Nat) (fuel : Nat) (n : Nat)
    (sa : List Nat) (plcp : PLCP) (cm : CompressMode) : Option LCPFromPLCP :=
  let m_max := plcp.max_lcp % 2 ^ LEN_BITS
  let w := bits_for m_max
  let a0 := iv_t.with_width n 0 (if cm = CompressMode.compressed then w else LEN_BITS)
  match a0.set 0 0 with
  | none => none
  | some a1 =>
    match LCPFromPLCP.fill LEN_BITS n sa plcp.data fuel (1 % 2 ^ LEN_BITS) a1 with
    | none => none
    | some a2 =>
      let self : LCPFromPLCP := ⟨m_max, a2⟩
      some (if cm = CompressMode.delayed then self.compress bits_for else self)

/-- `LCPFromPLCP::max_lcp()`. -/
def LCPFromPLCP.max_lcp (self : LCPFromPLCP) : Nat :=
  self.m_max

/-- Length of the longest common prefix of two strings. -/
def lcp_len : List Nat → List Nat → Nat
  | a :: as, b :: bs => if a = b then lcp_len as bs + 1 else 0
  | _, _ => 0

/-- A `bits_for` for examples: the number of binary digits, one for zero. -/
def bits_for_example (m : Nat) : Nat :=
  if m = 0 then 1 else Nat.size m


/-- A registry in which a data structure is reached along two paths: `E = 4`
requires nothing, `A = 0` requires `E`, `B = 1` and `C = 2` require `A`, and
`D = 3` requires `B` and `C`. -/
def regDiamond : Registry where
  requirements := fun ds =>
    if ds = 0 then [4] else if ds = 1 ∨ ds = 2 then [0] else if ds = 3 then [1, 2] else []
  provides := fun _ => []

/-- A topological numbering of `regDiamond`. -/
def rankDiamond (ds : dsid_t) : Nat :=
  if ds = 0 then 1 else if ds = 1 ∨ ds = 2 then 2 else if ds = 3 then 3 else 0

/-- Number of the enumerated requirement paths from `ds` that have at least one
edge. -/
def nonempty_paths (reg : Registry) (fuel : Nat) (ds : dsid_t) : Nat :=
  (requirement_paths reg fuel ds).countP (fun p => decide (2 ≤ p.length))


/-- Modelled from the spec: `Factor` of `tudocomp/lz78/Factor.hpp`, which is not
part of the sources at hand: an `index` of type `CodeType` and a `chr` of type
`uint8_t`. -/
structure Factor where
  index : Nat
  chr : Nat
deriving DecidableEq, Repr

/-- The decimal digits of `n`, most significant first; `fuel` bounds their
number. -/
def decimal_digits : Nat → Nat → List Nat
  | 0, _ => []
  | fuel + 1, n => if n < 10 then [n] else decimal_digits fuel (n / 10) ++ [n % 10]

/-- What `operator<<` writes for an unsigned integer: its decimal digits as
characters (`'0'` is 48). -/
def decimal (n : Nat) : List Nat :=
  (decimal_digits (n + 1) n).map (fun d => d + 48)

/-- An object of the class `Lz78DebugCoder`: the bytes written to `m_out`. -/
structure Lz78DebugCoder where
  m_out : List Nat
deriving DecidableEq, Repr

/-- `Lz78DebugCoder::encode_fact`:
`*m_out << "(" << fact.index << "," << char(fact.chr) << ")"`
(`'('` is 40, `','` is 44, `')'` is 41). -/
def Lz78DebugCoder.encode_fact (self : Lz78DebugCoder) (fact : Factor) : Lz78DebugCoder :=
  ⟨self.m_out ++ ([40] ++ decimal fact.index ++ [44] ++ [fact.chr % 256] ++ [41])⟩

/-- `inp.get(c)`: whether a byte was read, the value of `c` afterwards (left as
it was at the end of the stream), and the rest of the stream. -/
def istream_get : List Nat → Nat → Bool × Nat × List Nat
  | [], c => (false, c, [])
  | b :: rest, _ => (true, b, rest)

/-- Modelled from the spec: `parse_number_until_other(inp, c, index)`, which is
not part of the sources at hand: it "reads decimal digits up to the first
non-digit and reports that character" in `c`. The result is whether such a
character was found, `c`, the number read and the rest of the stream. -/
def parse_number_until_other : List Nat → Nat → Nat → Bool × Nat × Nat × List Nat
  | [], c, index => (false, c, index, [])
  | b :: rest, _, index =>
    if 48 ≤ b ∧ b ≤ 57 then parse_number_until_other rest b (index * 10 + (b - 48))
    else (true, b, index, rest)

/-- `DCHECK(cond)`: whether execution goes on; in a debug build a check that
fails aborts, in a release build the check is not compiled. -/
def DCHECK (debug cond : Bool) : Bool :=
  !debug || cond

/-- The loop of `Lz78DebugCoder::decode`, for at most `fuel` rounds: the factors
handed to `buf.decode`, in order, or `none` when a `DCHECK` aborts. `CodeType`
has `CODE_BITS` bits. -/
def decode_loop (CODE_BITS : Nat) (debug : Bool) : Nat → List Nat → Nat → Option (List Factor)
  | 0, _, _ => some []
  | fuel + 1, inp, c =>
    match istream_get inp c with
    | (false, _, _) => some []
    | (true, c1, inp1) =>
      if DCHECK debug (decide (c1 = 40)) = false then none else
      match parse_number_until_other inp1 c1 0 with
      | (false, _, _, _) => some []
      | (true, c2, index, inp2) =>
        if DCHECK debug (decide (index ≤ 2 ^ CODE_BITS - 1)) = false then none else
        if DCHECK debug (decide (c2 = 44)) = false then none else
        match istream_get inp2 c2 with
        | (_, c3, inp3) =>
          let chr := c3
          match istream_get inp3 c3 with
          | (_, c4, inp4) =>
            if DCHECK debug (decide (c4 = 41)) = false then none else
            match decode_loop CODE_BITS debug fuel inp4 c4 with
            | none => none
            | some facts => some (⟨index % 2 ^ CODE_BITS, chr % 256⟩ :: facts)

/-- `Lz78DebugCoder::decode(in, ou)`: every round of the loop reads at least
one byte, so as many rounds as the input has bytes are enough. -/
def Lz78DebugCoder.decode (CODE_BITS : Nat) (debug : Bool) (inp : List Nat) :
    Option (List Factor) :=
  decode_loop CODE_BITS debug inp.length inp 0


/-- From `s` to `s'` calls have been added, none of them a `construct(k)`, the
degree of `k` has not grown, and if it has dropped and is still at least one,
then it is at least two or `compress(k)` is among the added calls. -/
def CompressPending (k : dsid_t) (s s' : State) : Prop :=
  ∃ t, s'.calls = s.calls ++ t ∧ (∀ c ∈ t, is_construct_of k c = false) ∧
    degree s' k ≤ degree s k ∧
    (degree s' k < degree s k → 1 ≤ degree s' k → 2 ≤ degree s' k ∨ Call.compress k ∈ t)

/-- What the construction of the sequence `L`, from `s` to `s'`, does for `k`:
the degree of `k` has not grown, it has changed only if `k` was constructed, `k`
was constructed if it is a member of `L`, and, when `k` was constructed and
still has a degree of at least one, then a `compress(k)` follows its last
`construct(k)`, or its degree is at least two, or it is a member of `L`. -/
def CompressFollows (k : dsid_t) (L : List dsid_t) (s s' : State) : Prop :=
  ∃ t, s'.calls = s.calls ++ t ∧ degree s' k ≤ degree s k ∧
    (construct_count k t = 0 → degree s' k = degree s k) ∧
    (k ∈ L → 0 < construct_count k t) ∧
    (1 ≤ degree s' k → 0 < construct_count k t →
      (∃ pre post, t = pre ++ Call.compress k :: post ∧ construct_count k post = 0) ∨
      2 ≤ degree s' k ∨ k ∈ L)


/-- A registry in which the number of paths doubles at every level: `0` requires
nothing, and every other `ds` requires `ds - 1` twice. -/
def regDouble : Registry where
  requirements := fun ds => if ds = 0 then [] else [ds - 1, ds - 1]
  provides := fun _ => []


/-- The state one entry of the history later: the manager is called, or an
entry of the degree map is written. -/
def State.apply (s : State) : Event → State
  | .call c => s.call c
  | .store ds d => s.store ds d

/-- The state `s`, the entries `t` of a history later. -/
def State.extend (s : State) (t : List Event) : State :=
  t.foldl State.apply s

/-- The state of the object at the moment its history was `es`: the initial
state, every entry of `es` later. -/
def State.replay (es : List Event) : State :=
  State.init.extend es

/-- The history of `s` is complete: it leads from the initial state to `s`.
Every state of a run is of this kind (the object changes through
`State.call` and `State.store` only), so the state of the run at the moment
its history was the part `p` of the final history is `State.replay p`. -/
def State.Recorded (s : State) : Prop :=
  State.replay s.events = s

/-- The manager call of an entry of the history, if it is one. -/
def Event.as_call : Event → Option Call
  | .call c => some c
  | .store _ _ => none

/-- The manager call `decrease_degree` issues after it has written `d` to the
entry of `Head`, if it issues one. -/
def dec_call (m_cm : CompressMode) (m_construct : List dsid_t) (Head : dsid_t) (d : Nat) :
    Option Call :=
  if d = 0 then some (.discard Head true)
  else if m_cm = CompressMode.delayed ∧ is_requested m_construct Head = true ∧ d = 1 then
    some (.compress Head)
  else if d = 1 ∧ is_requested m_construct Head = false then some (.unprotect Head)
  else none

/-- The entries `decrease_degree` adds to the history for `Head`, whose entry
was `d + 1`. -/
def dec_events (m_cm : CompressMode) (m_construct : List dsid_t) (Head : dsid_t) (d : Nat) :
    List Event :=
  Event.store Head d :: (dec_call m_cm m_construct Head d).toList.map Event.call

/-- What holds of the entry `e` the evaluation adds to the history in the state
`st`, after it has added the entries `q` since the state `a`: an `unprotect` of
`k` is for a `k` that is not requested and directly follows the write of one to
the entry of `k`, which held two; after such a write for a `k` that is not
requested nothing but `unprotect` of `k` follows; a write is a decrement by one;
and unless `e` is an `unprotect`, the data structures that are not requested are
protected in `st` exactly if their degree is at least two. -/
def UnprotectTimed (m_construct : List dsid_t) (a : State) (q : List Event) (st : State)
    (e : Event) : Prop :=
  (∀ k, e = Event.call (Call.unprotect k) →
    k ∉ m_construct ∧ ∃ q', q = q' ++ [Event.store k 1] ∧ degree (a.extend q') k = 2) ∧
  (∀ q' k, q = q' ++ [Event.store k 1] → k ∉ m_construct →
    e = Event.call (Call.unprotect k)) ∧
  (∀ k d, e = Event.store k d → st.m_degree k = some (d + 1)) ∧
  ((∀ k, e ≠ Event.call (Call.unprotect k)) → ProtectedIffShared m_construct st)

/-! ## Basic facts -/

theorem forSeq_append (f : dsid_t → State → Run) (l1 l2 : List dsid_t) (s : State) :
    forSeq f (l1 ++ l2) s =
      match forSeq f l1 s with
      | .ok s1 => forSeq f l2 s1
      | .error e => .error e := by
  induction l1 generalizing s with
  | nil => simp [forSeq]
  | cons h t ih =>
    simp only [List.cons_append, forSeq]
    cases f h s with
    | ok s1 => simpa using ih s1
    | error e => rfl

theorem num_paths_fuel (reg : Registry) (rank : dsid_t → Nat) (hr : reg.RankedBy rank)
    (x : dsid_t) : ∀ f1 f2 ds, rank ds ≤ f1 → rank ds ≤ f2 →
      num_paths reg f1 ds x = num_paths reg f2 ds x := by
  have hnil : ∀ ds, rank ds = 0 → reg.requirements ds = [] := by
    intro ds h0
    cases hreq : reg.requirements ds with
    | nil => rfl
    | cons r t =>
      have := hr ds r (by simp [hreq])
      omega
  intro f1
  induction f1 with
  | zero =>
    intro f2 ds h1 _
    have h0 : rank ds = 0 := by omega
    cases f2 with
    | zero => rfl
    | succ f2 => simp [num_paths, hnil ds h0]
  | succ f1 ih =>
    intro f2 ds h1 h2
    cases f2 with
    | zero =>
      have h0 : rank ds = 0 := by omega
      simp [num_paths, hnil ds h0]
    | succ f2 =>
      simp only [num_paths]
      congr 2
      apply List.map_congr_left
      intro r hmem
      have := hr ds r hmem
      exact ih f2 r (by omega) (by omega)

theorem paths_from_fuel (reg : Registry) (rank : dsid_t → Nat) (hr : reg.RankedBy rank)
    (x : dsid_t) (f1 f2 : Nat) (seq : List dsid_t)
    (h1 : ∀ k ∈ seq, rank k ≤ f1) (h2 : ∀ k ∈ seq, rank k ≤ f2) :
    paths_from reg f1 seq x = paths_from reg f2 seq x := by
  unfold paths_from
  congr 1
  apply List.map_congr_left
  intro k hk
  exact num_paths_fuel reg rank hr x f1 f2 k (h1 k hk) (h2 k hk)

theorem num_paths_succ (reg : Registry) (fuel : Nat) (ds x : dsid_t) :
    num_paths reg (fuel + 1) ds x =
      (if ds = x then 1 else 0) + paths_from reg fuel (reg.requirements ds) x := rfl

theorem paths_from_nil (reg : Registry) (fuel : Nat) (x : dsid_t) :
    paths_from reg fuel [] x = 0 := rfl

theorem paths_from_cons (reg : Registry) (fuel : Nat) (h : dsid_t) (t : List dsid_t)
    (x : dsid_t) :
    paths_from reg fuel (h :: t) x = num_paths reg fuel h x + paths_from reg fuel t x := by
  simp [paths_from]

theorem paths_from_perm (reg : Registry) (fuel : Nat) {l1 l2 : List dsid_t}
    (hp : l1.Perm l2) (x : dsid_t) :
    paths_from reg fuel l1 x = paths_from reg fuel l2 x := by
  unfold paths_from
  exact (hp.map _).sum_eq

theorem count_le_paths_from (reg : Registry) (fuel : Nat) (seq : List dsid_t) (x : dsid_t) :
    seq.count x ≤ paths_from reg fuel seq x := by
  induction seq with
  | nil => simp [paths_from]
  | cons h t ih =>
    rw [paths_from_cons, List.count_cons]
    have : (if h == x then 1 else 0) ≤ num_paths reg fuel h x := by
      cases fuel <;> by_cases hx : h = x <;> simp [num_paths, hx]
    omega

/-! ## Cost and construction order -/

theorem _cost_isSome (reg : Registry) (costOf : dsid_t → Option Nat) (ds : dsid_t)
    (req : List dsid_t) (h : ∀ r ∈ req, ∃ c, costOf r = some c) :
    ∃ c, _cost reg costOf ds req = some c := by
  induction req with
  | nil => exact ⟨_, rfl⟩
  | cons r t ih =>
    obtain ⟨a, ha⟩ := h r (by simp)
    obtain ⟨b, hb⟩ := ih (fun r hr => h r (by simp [hr]))
    exact ⟨(a + b) % 2 ^ SIZE_BITS, by simp [_cost, ha, hb]⟩

theorem cost_isSome (reg : Registry) (rank : dsid_t → Nat) (hr : reg.RankedBy rank) :
    ∀ fuel ds, rank ds < fuel → ∃ c, cost reg fuel ds = some c := by
  intro fuel
  induction fuel with
  | zero => intro ds h; omega
  | succ fuel ih =>
    intro ds h
    simp only [cost]
    apply _cost_isSome
    intro r hmem
    have := hr ds r hmem
    exact ih r (by omega)

theorem _insert_eq (compare : dsid_t → dsid_t → Option Bool) (cmp : dsid_t → dsid_t → Bool)
    (v : dsid_t) (l : List dsid_t) (h : ∀ b ∈ l, compare v b = some (cmp v b)) :
    _insert compare v l = some (l.orderedInsert (fun a b => cmp a b = true) v) := by
  induction l with
  | nil => rfl
  | cons b t ih =>
    have hb := h b (by simp)
    have ht := ih (fun b hb => h b (by simp [hb]))
    cases hc : cmp v b
    · rw [hc] at hb
      simp [_insert, hb, List.orderedInsert, hc, ht]
    · rw [hc] at hb
      simp [_insert, hb, List.orderedInsert, hc]

theorem sort_idx_eq (compare : dsid_t → dsid_t → Option Bool) (cmp : dsid_t → dsid_t → Bool)
    (l : List dsid_t) (h : ∀ a ∈ l, ∀ b ∈ l, compare a b = some (cmp a b)) :
    sort_idx compare l = some (l.insertionSort (fun a b => cmp a b = true)) := by
  induction l with
  | nil => rfl
  | cons a t ih =>
    have ht := ih (fun x hx y hy => h x (by simp [hx]) y (by simp [hy]))
    simp only [sort_idx, ht, List.insertionSort]
    apply _insert_eq
    intro b hb
    exact h a (by simp) b (by simp [(List.mem_insertionSort _).1 hb])

theorem _cost_compare_eq (reg : Registry) (rank : dsid_t → Nat) (hr : reg.RankedBy rank)
    (fuel : Nat) (a b : dsid_t) (ha : rank a < fuel) (hb : rank b < fuel) :
    _cost_compare reg fuel a b =
      some (decide ((cost reg fuel a).getD 0 ≥ (cost reg fuel b).getD 0)) := by
  obtain ⟨ca, hca⟩ := cost_isSome reg rank hr fuel a ha
  obtain ⟨cb, hcb⟩ := cost_isSome reg rank hr fuel b hb
  simp [_cost_compare, hca, hcb]

theorem _construction_order_eq (reg : Registry) (rank : dsid_t → Nat) (hr : reg.RankedBy rank)
    (fuel : Nat) (seq : List dsid_t) (h : ∀ k ∈ seq, rank k < fuel) :
    _construction_order reg fuel seq =
      some (seq.insertionSort
        (fun a b => decide ((cost reg fuel a).getD 0 ≥ (cost reg fuel b).getD 0) = true)) := by
  unfold _construction_order
  apply sort_idx_eq
  intro a ha b hb
  exact _cost_compare_eq reg rank hr fuel a b (h a ha) (h b hb)

theorem _construction_order_perm (reg : Registry) (rank : dsid_t → Nat)
    (hr : reg.RankedBy rank) (fuel : Nat) (seq : List dsid_t) (h : ∀ k ∈ seq, rank k < fuel) :
    ∃ order, _construction_order reg fuel seq = some order ∧ order.Perm seq :=
  ⟨_, _construction_order_eq reg rank hr fuel seq h, List.perm_insertionSort _ _⟩

theorem dependency_order_perm (reg : Registry) (rank : dsid_t → Nat)
    (hr : reg.RankedBy rank) (fuel : Nat) (ds : dsid_t) (h : rank ds < fuel + 1) :
    ∃ order, dependency_order reg fuel ds = some order ∧
      order.Perm (reg.requirements ds) := by
  apply _construction_order_perm reg rank hr
  intro k hk
  have := hr ds k hk
  omega

/-! ## State bookkeeping -/

@[simp] theorem State.call_m_degree (s : State) (c : Call) :
    (s.call c).m_degree = s.m_degree := rfl

@[simp] theorem State.call_calls (s : State) (c : Call) :
    (s.call c).calls = s.calls ++ [c] := rfl

@[simp] theorem State.store_calls (s : State) (ds : dsid_t) (d : Nat) :
    (s.store ds d).calls = s.calls := rfl

@[simp] theorem State.call_events (s : State) (c : Call) :
    (s.call c).events = s.events ++ [Event.call c] := rfl

@[simp] theorem State.store_events (s : State) (ds : dsid_t) (d : Nat) :
    (s.store ds d).events = s.events ++ [Event.store ds d] := rfl

@[simp] theorem State.store_m_degree (s : State) (ds : dsid_t) (d : Nat) (x : dsid_t) :
    (s.store ds d).m_degree x = if x = ds then some d else s.m_degree x := rfl

@[simp] theorem degree_call (s : State) (c : Call) (x : dsid_t) :
    degree (s.call c) x = degree s x := rfl

theorem degree_store (s : State) (ds : dsid_t) (d : Nat) (x : dsid_t) :
    degree (s.store ds d) x = if x = ds then d else degree s x := by
  unfold degree
  by_cases hx : x = ds <;> simp [hx]

theorem degree_of_some {s : State} {x : dsid_t} {d : Nat} (h : s.m_degree x = some d) :
    degree s x = d := by
  simp [degree, h]

theorem degree_of_none {s : State} {x : dsid_t} (h : s.m_degree x = none) :
    degree s x = 0 := by
  simp [degree, h]

/-! ## The request phase -/

theorem InitRel.init_refl (s : State) (hz : NoZero s) : InitRel (fun _ => 0) s s :=
  ⟨fun _ => rfl, hz, [], by simp, by simp, by simp, by simp⟩

theorem InitRel.init_trans {P1 P2 : dsid_t → Nat} {s s1 s2 : State}
    (h1 : InitRel P1 s s1) (h2 : InitRel P2 s1 s2) :
    InitRel (fun x => P1 x + P2 x) s s2 := by
  obtain ⟨hd1, _, t1, hc1, he1, hp1, ha1⟩ := h1
  obtain ⟨hd2, hz2, t2, hc2, he2, hp2, ha2⟩ := h2
  refine ⟨fun x => by show degree s2 x = degree s x + (P1 x + P2 x); rw [hd2, hd1]; omega, hz2, t1 ++ t2, by simp [hc2, hc1], ?_, ?_, ?_⟩
  · intro x
    simp [List.count_append, he1, he2]
  · intro x
    have a := hp1 x
    have b := hp2 x
    rw [List.count_append]
    omega
  · intro c hc
    rcases List.mem_append.1 hc with h | h
    · exact ha1 c h
    · exact ha2 c h

theorem InitRel.init_congr {P1 P2 : dsid_t → Nat} {s s' : State} (h : InitRel P1 s s')
    (hP : ∀ x, P1 x = P2 x) : InitRel P2 s s' := by
  have : P1 = P2 := funext hP
  rwa [← this]

theorem init_seq_of_head (reg : Registry) (fuel : Nat) (f : dsid_t → State → Run)
    (L : List dsid_t)
    (hf : ∀ h ∈ L, ∀ s, NoZero s → ∃ s', f h s = .ok s' ∧ InitRel (num_paths reg fuel h) s s') :
    ∀ s, NoZero s → ∃ s', forSeq f L s = .ok s' ∧ InitRel (paths_from reg fuel L) s s' := by
  induction L with
  | nil =>
    intro s hz
    exact ⟨s, rfl, (InitRel.init_refl s hz).init_congr (fun x => by simp [paths_from])⟩
  | cons h t ih =>
    intro s hz
    obtain ⟨s1, hs1, hr1⟩ := hf h (by simp) s hz
    obtain ⟨s2, hs2, hr2⟩ := ih (fun k hk => hf k (by simp [hk])) s1 hr1.2.1
    refine ⟨s2, by simp [forSeq, hs1, hs2], (hr1.init_trans hr2).init_congr ?_⟩
    intro x
    simp [paths_from_cons]

theorem init_degree_head_spec (reg : Registry) (rank : dsid_t → Nat) (hr : reg.RankedBy rank) :
    ∀ fuel h s, rank h < fuel → NoZero s →
      ∃ s', init_degree_head reg fuel h s = .ok s' ∧ InitRel (num_paths reg fuel h) s s' := by
  intro fuel
  induction fuel with
  | zero => intro h s hlt; omega
  | succ fuel ih =>
    intro h s hlt hz
    have hz0 : NoZero (s.call (.ensure_provider h)) := hz
    obtain ⟨s1, hs1, hd1, hz1, t1, hc1, he1, hp1, ha1⟩ :=
      init_seq_of_head reg fuel (init_degree_head reg fuel) (reg.requirements h)
        (fun r hmem s hs => ih r s (by have := hr h r hmem; omega) hs)
        (s.call (.ensure_provider h)) hz0
    simp only [degree_call] at hd1 hp1
    simp only [State.call_calls] at hc1
    cases hm : s1.m_degree h with
    | none =>
      refine ⟨s1.store h 1, by simp [init_degree_head, hs1, hm], ?_, ?_, ?_⟩
      · intro x
        rw [degree_store, num_paths_succ]
        by_cases hx : x = h
        · subst hx
          have := hd1 x
          rw [degree_of_none hm] at this
          simp
          omega
        · have : ¬ h = x := fun e => hx e.symm
          simp [hx, this, hd1]
      · intro x
        by_cases hx : x = h
        · simp [hx]
        · simpa [hx] using hz1 x
      · refine ⟨Call.ensure_provider h :: t1, by simp [hc1], ?_, ?_, ?_⟩
        · intro x
          rw [num_paths_succ, List.count_cons, he1]
          by_cases hx : h = x <;> simp [hx, Nat.add_comm]
        · intro x
          rw [List.count_cons, degree_store]
          have a := hp1 x
          have b := hd1 x
          by_cases hx : x = h
          · subst hx
            rw [degree_of_none hm] at a b
            simp
            omega
          · simp [hx]
            omega
        · intro c hc
          rcases List.mem_cons.1 hc with h1 | h1
          · exact Or.inl ⟨h, h1⟩
          · exact ha1 c h1
    | some d =>
      have hdpos : d ≠ 0 := fun e => hz1 h (by rw [hm, e])
      refine ⟨(s1.store h (d + 1)).call (.protect h),
        by simp [init_degree_head, hs1, hm], ?_, ?_, ?_⟩
      · intro x
        rw [degree_call, degree_store, num_paths_succ]
        by_cases hx : x = h
        · subst hx
          have := hd1 x
          rw [degree_of_some hm] at this
          simp
          omega
        · have : ¬ h = x := fun e => hx e.symm
          simp [hx, this, hd1]
      · intro x
        by_cases hx : x = h
        · simp [hx]
        · simpa [hx] using hz1 x
      · refine ⟨Call.ensure_provider h :: (t1 ++ [Call.protect h]), by simp [hc1], ?_, ?_, ?_⟩
        · intro x
          rw [num_paths_succ, List.count_cons, List.count_append, he1]
          by_cases hx : h = x <;> simp [hx, Nat.add_comm]
        · intro x
          rw [List.count_cons, List.count_append, degree_call, degree_store]
          have a := hp1 x
          have b := hd1 x
          by_cases hx : x = h
          · subst hx
            rw [degree_of_some hm] at a b
            simp
            omega
          · have : ¬ h = x := fun e => hx e.symm
            simp [hx, this]
            omega
        · intro c hc
          rcases List.mem_cons.1 hc with h1 | h1
          · exact Or.inl ⟨h, h1⟩
          · rcases List.mem_append.1 h1 with h2 | h2
            · exact ha1 c h2
            · exact Or.inr ⟨h, by simpa using h2⟩

theorem init_degree_spec (reg : Registry) (rank : dsid_t → Nat) (hr : reg.RankedBy rank)
    (fuel : Nat) (seq : List dsid_t) (hfuel : ∀ k ∈ seq, rank k < fuel)
    (s : State) (hz : NoZero s) :
    ∃ s', init_degree reg fuel seq s = .ok s' ∧ InitRel (paths_from reg fuel seq) s s' :=
  init_seq_of_head reg fuel (init_degree_head reg fuel) seq
    (fun h hmem s hs => init_degree_head_spec reg rank hr fuel h s (hfuel h hmem) hs) s hz

/-! ## The evaluation phase: it returns, and what it does to the degrees -/

theorem DecRel.dec_refl (s : State) : DecRel (fun _ => 0) s s :=
  ⟨fun _ => rfl, fun _ => Iff.rfl, [], by simp⟩

theorem DecRel.dec_trans {D1 D2 : dsid_t → Nat} {s s1 s2 : State}
    (h1 : DecRel D1 s s1) (h2 : DecRel D2 s1 s2) :
    DecRel (fun x => D1 x + D2 x) s s2 := by
  obtain ⟨hd1, hk1, t1, hc1⟩ := h1
  obtain ⟨hd2, hk2, t2, hc2⟩ := h2
  refine ⟨fun x => ?_, fun x => (hk2 x).trans (hk1 x), t1 ++ t2, by simp [hc2, hc1]⟩
  show degree s x = degree s2 x + (D1 x + D2 x)
  rw [hd1, hd2]
  omega

theorem DecRel.dec_congr {D1 D2 : dsid_t → Nat} {s s' : State} (h : DecRel D1 s s')
    (hD : ∀ x, D1 x = D2 x) : DecRel D2 s s' := by
  have : D1 = D2 := funext hD
  rwa [← this]

theorem decrease_degree_cons (cm : CompressMode) (mc : List dsid_t) (r : dsid_t)
    (t : List dsid_t) (s : State) (d : Nat) (h : s.m_degree r = some (d + 1)) :
    decrease_degree cm mc (r :: t) s = decrease_degree cm mc t (dec_step cm mc r d s) := by
  simp only [decrease_degree, h]
  rfl

theorem possibly_compress_m_degree (mc : List dsid_t) (ds : dsid_t) (s : State) :
    (possibly_compress mc ds s).m_degree = s.m_degree := by
  unfold possibly_compress
  split <;> rfl

theorem possibly_compress_calls (mc : List dsid_t) (ds : dsid_t) (s : State) :
    ∃ t, (possibly_compress mc ds s).calls = s.calls ++ t ∧
      (t = [] ∨ (t = [Call.compress ds] ∧ ds ∈ mc ∧ degree s ds = 1)) := by
  unfold possibly_compress
  split
  · rename_i h
    exact ⟨[Call.compress ds], rfl, Or.inr ⟨rfl, by simpa [is_requested, contains_idx] using h.1, h.2⟩⟩
  · exact ⟨[], by simp, Or.inl rfl⟩

theorem dec_step_m_degree (cm : CompressMode) (mc : List dsid_t) (r : dsid_t) (d : Nat)
    (s : State) : (dec_step cm mc r d s).m_degree = (s.store r d).m_degree := by
  unfold dec_step
  simp only
  split <;> split <;> try split
  all_goals simp [possibly_compress_m_degree]

theorem dec_step_calls (cm : CompressMode) (mc : List dsid_t) (r : dsid_t) (d : Nat)
    (s : State) : ∃ t, (dec_step cm mc r d s).calls = s.calls ++ t := by
  unfold dec_step
  simp only
  obtain ⟨tc, htc, _⟩ := possibly_compress_calls mc r (s.store r d)
  split <;> split <;> try split
  all_goals simp [htc]

theorem dec_step_rel (cm : CompressMode) (mc : List dsid_t) (r : dsid_t) (d : Nat)
    (s : State) (h : s.m_degree r = some (d + 1)) :
    DecRel (fun x => if r = x then 1 else 0) s (dec_step cm mc r d s) := by
  refine ⟨fun x => ?_, fun x => ?_, dec_step_calls cm mc r d s⟩
  · have : degree (dec_step cm mc r d s) x = degree (s.store r d) x := by
      unfold degree; rw [dec_step_m_degree]
    rw [this, degree_store]
    by_cases hx : x = r
    · subst hx; simp [degree_of_some h]
    · have : ¬ r = x := fun e => hx e.symm
      simp [hx, this]
  · rw [dec_step_m_degree, State.store_m_degree]
    by_cases hx : x = r
    · subst hx; simp [h]
    · simp [hx]

theorem decrease_degree_ok (cm : CompressMode) (mc : List dsid_t) :
    ∀ (L : List dsid_t) (s : State), (∀ x, L.count x ≤ degree s x) →
      ∃ s', decrease_degree cm mc L s = .ok s' ∧ DecRel (fun x => L.count x) s s' := by
  intro L
  induction L with
  | nil =>
    intro s _
    exact ⟨s, rfl, (DecRel.dec_refl s).dec_congr (by simp)⟩
  | cons r t ih =>
    intro s hpre
    have hr := hpre r
    rw [List.count_cons_self] at hr
    obtain ⟨d, hd⟩ : ∃ d, s.m_degree r = some (d + 1) := by
      cases hm : s.m_degree r with
      | none => rw [degree_of_none hm] at hr; omega
      | some v =>
        rw [degree_of_some hm] at hr
        exact ⟨v - 1, by congr 1; omega⟩
    have hrel := dec_step_rel cm mc r d s hd
    obtain ⟨s', hs', hrel'⟩ := ih (dec_step cm mc r d s) (by
      intro x
      have a := hpre x
      have b := hrel.1 x
      rw [List.count_cons] at a
      by_cases hx : r = x
      · simp [hx] at a b ⊢; omega
      · simp [hx] at a b ⊢; omega)
    refine ⟨s', by rw [decrease_degree_cons cm mc r t s d hd, hs'], (hrel.dec_trans hrel').dec_congr ?_⟩
    intro x
    rw [List.count_cons]
    by_cases hx : r = x <;> simp [hx, Nat.add_comm]

theorem discard_byproducts_eq : ∀ (L : List dsid_t) (s : State),
    discard_byproducts L s =
      ⟨s.m_degree, s.calls ++ (L.filter (fun b => decide (degree s b = 0))).map
        (fun b => Call.discard b true),
        s.events ++ (L.filter (fun b => decide (degree s b = 0))).map
          (fun b => Event.call (Call.discard b true))⟩ := by
  intro L
  induction L with
  | nil => intro s; simp [discard_byproducts]
  | cons b t ih =>
    intro s
    rw [discard_byproducts, ih]
    by_cases hb : degree s b = 0
    · rw [if_pos hb]
      have hdeg : ∀ x, degree (s.call (Call.discard b true)) x = degree s x := fun _ => rfl
      simp [hb, List.filter_cons, hdeg]
    · rw [if_neg hb]
      simp [hb, List.filter_cons]

theorem discard_byproducts_rel (L : List dsid_t) (s : State) :
    DecRel (fun _ => 0) s (discard_byproducts L s) := by
  rw [discard_byproducts_eq]
  exact ⟨fun _ => rfl, fun _ => Iff.rfl, _, rfl⟩

theorem delta_le_num_paths (reg : Registry) (fuel : Nat) (h x : dsid_t) :
    (if h = x then 1 else 0) ≤ num_paths reg fuel h x := by
  cases fuel <;> by_cases hx : h = x <;> simp [num_paths, hx]

theorem dec_from_perm (reg : Registry) (fuel : Nat) {l1 l2 : List dsid_t}
    (hp : l1.Perm l2) (x : dsid_t) : dec_from reg fuel l1 x = dec_from reg fuel l2 x := by
  unfold dec_from
  rw [paths_from_perm reg fuel hp x, hp.count_eq]

theorem DecRel.dec_call (s : State) (c : Call) : DecRel (fun _ => 0) s (s.call c) :=
  ⟨fun _ => rfl, fun _ => Iff.rfl, [c], rfl⟩

theorem possibly_compress_rel (mc : List dsid_t) (ds : dsid_t) (s : State) :
    DecRel (fun _ => 0) s (possibly_compress mc ds s) := by
  obtain ⟨t, ht, _⟩ := possibly_compress_calls mc ds s
  refine ⟨fun x => ?_, fun x => by rw [possibly_compress_m_degree], t, ht⟩
  unfold degree
  rw [possibly_compress_m_degree]
  rfl

theorem construct_head_succ (reg : Registry) (cm : CompressMode) (mc : List dsid_t)
    (fuel : Nat) (top : Bool) (h : dsid_t) (s s1 s4 : State) (order : List dsid_t)
    (ho : dependency_order reg fuel h = some order)
    (h1 : forSeq (construct_head reg cm mc fuel false) order s = .ok s1)
    (h4 : decrease_degree cm mc (reg.requirements h)
      (discard_byproducts (reg.provides h)
        (s1.call (.construct h (decide (cm = CompressMode.compressed))))) = .ok s4) :
    construct_head reg cm mc (fuel + 1) top h s =
      .ok (if cm = CompressMode.delayed ∧ top = true then possibly_compress mc h s4 else s4) := by
  simp only [construct_head, ho, h1, h4]

theorem eval_seq_of_head (reg : Registry) (fuel : Nat) (f : dsid_t → State → Run)
    (L : List dsid_t)
    (hf : ∀ h ∈ L, ∀ s, (∀ x, num_paths reg fuel h x ≤ degree s x) →
      ∃ s', f h s = .ok s' ∧
        DecRel (fun x => num_paths reg fuel h x - (if h = x then 1 else 0)) s s') :
    ∀ s, (∀ x, paths_from reg fuel L x ≤ degree s x) →
      ∃ s', forSeq f L s = .ok s' ∧ DecRel (dec_from reg fuel L) s s' := by
  induction L with
  | nil =>
    intro s _
    exact ⟨s, rfl, (DecRel.dec_refl s).dec_congr (fun x => by simp [dec_from, paths_from])⟩
  | cons h t ih =>
    intro s hpre
    obtain ⟨s1, hs1, hr1⟩ := hf h (by simp) s (fun x => by
      have := hpre x
      rw [paths_from_cons] at this
      omega)
    obtain ⟨s2, hs2, hr2⟩ := ih (fun k hk => hf k (by simp [hk])) s1 (fun x => by
      have a := hpre x
      have b := hr1.1 x
      have c := delta_le_num_paths reg fuel h x
      rw [paths_from_cons] at a
      simp only at b
      omega)
    refine ⟨s2, by simp [forSeq, hs1, hs2], (hr1.dec_trans hr2).dec_congr ?_⟩
    intro x
    have c := delta_le_num_paths reg fuel h x
    have d := count_le_paths_from reg fuel t x
    simp only [dec_from, paths_from_cons, List.count_cons, beq_iff_eq]
    omega

theorem construct_head_ok (reg : Registry) (rank : dsid_t → Nat) (hr : reg.RankedBy rank)
    (cm : CompressMode) (mc : List dsid_t) :
    ∀ fuel top h s, rank h < fuel → (∀ x, num_paths reg fuel h x ≤ degree s x) →
      ∃ s', construct_head reg cm mc fuel top h s = .ok s' ∧
        DecRel (fun x => num_paths reg fuel h x - (if h = x then 1 else 0)) s s' := by
  intro fuel
  induction fuel with
  | zero => intro top h s hlt; omega
  | succ fuel ih =>
    intro top h s hlt hpre
    obtain ⟨order, ho, hperm⟩ := dependency_order_perm reg rank hr fuel h hlt
    have hrank : ∀ r ∈ order, rank r < fuel := fun r hmem => by
      have := hr h r (hperm.mem_iff.1 hmem)
      omega
    obtain ⟨s1, hs1, hr1⟩ := eval_seq_of_head reg fuel (construct_head reg cm mc fuel false)
      order (fun r hmem s hs => ih false r s (hrank r hmem) hs) s (fun x => by
        have := hpre x
        rw [num_paths_succ, ← paths_from_perm reg fuel hperm x] at this
        omega)
    have hr2 := DecRel.dec_call s1 (.construct h (decide (cm = CompressMode.compressed)))
    have hr3 := discard_byproducts_rel (reg.provides h)
      (s1.call (.construct h (decide (cm = CompressMode.compressed))))
    have h13 := hr1.dec_trans (hr2.dec_trans hr3)
    obtain ⟨s4, hs4, hr4⟩ := decrease_degree_ok cm mc (reg.requirements h)
      (discard_byproducts (reg.provides h)
        (s1.call (.construct h (decide (cm = CompressMode.compressed))))) (fun x => by
      have a := hpre x
      have b := h13.1 x
      have c := count_le_paths_from reg fuel (reg.requirements h) x
      have e := dec_from_perm reg fuel hperm x
      rw [num_paths_succ] at a
      simp only [e] at b
      simp only [dec_from] at b
      omega)
    refine ⟨_, construct_head_succ reg cm mc fuel top h s s1 s4 order ho hs1 hs4, ?_⟩
    have h5 : DecRel (fun _ => 0) s4
        (if cm = CompressMode.delayed ∧ top = true then possibly_compress mc h s4 else s4) := by
      split
      · exact possibly_compress_rel mc h s4
      · exact DecRel.dec_refl s4
    refine ((h13.dec_trans hr4).dec_trans h5).dec_congr ?_
    intro x
    have c := count_le_paths_from reg fuel (reg.requirements h) x
    have e := dec_from_perm reg fuel hperm x
    have g := delta_le_num_paths reg (fuel + 1) h x
    show dec_from reg fuel order x + (0 + 0) + List.count x (reg.requirements h) + 0 =
      num_paths reg (fuel + 1) h x - (if h = x then 1 else 0)
    rw [e]
    rw [num_paths_succ] at g ⊢
    unfold dec_from
    omega

theorem construct_recursive_ok (reg : Registry) (rank : dsid_t → Nat) (hr : reg.RankedBy rank)
    (cm : CompressMode) (mc : List dsid_t) (fuel : Nat) (top : Bool) (L : List dsid_t)
    (hfuel : ∀ k ∈ L, rank k < fuel) (s : State)
    (hpre : ∀ x, paths_from reg fuel L x ≤ degree s x) :
    ∃ s', construct_recursive reg cm mc fuel top L s = .ok s' ∧
      DecRel (dec_from reg fuel L) s s' :=
  eval_seq_of_head reg fuel (construct_head reg cm mc fuel top) L
    (fun h hmem s hs => construct_head_ok reg rank hr cm mc fuel top h s (hfuel h hmem) hs)
    s hpre

/-! ## An induction principle for the evaluation phase -/

theorem construct_head_decomp (reg : Registry) (rank : dsid_t → Nat) (hr : reg.RankedBy rank)
    (cm : CompressMode) (mc : List dsid_t) (fuel : Nat) (top : Bool) (h : dsid_t) (s : State)
    (hlt : rank h < fuel + 1) (hpre : ∀ x, num_paths reg (fuel + 1) h x ≤ degree s x) :
    ∃ order s1 s4, dependency_order reg fuel h = some order ∧
      order.Perm (reg.requirements h) ∧
      (∀ k ∈ order, rank k < fuel) ∧
      (∀ x, paths_from reg fuel order x ≤ degree s x) ∧
      construct_recursive reg cm mc fuel false order s = .ok s1 ∧
      DecRel (dec_from reg fuel order) s s1 ∧
      (∀ x, (if h = x then 1 else 0) + (reg.requirements h).count x ≤ degree s1 x) ∧
      decrease_degree cm mc (reg.requirements h)
        (discard_byproducts (reg.provides h)
          (s1.call (.construct h (decide (cm = CompressMode.compressed))))) = .ok s4 ∧
      DecRel (fun x => (reg.requirements h).count x) s1 s4 ∧
      construct_head reg cm mc (fuel + 1) top h s =
        .ok (if cm = CompressMode.delayed ∧ top = true
          then possibly_compress mc h s4 else s4) := by
  obtain ⟨order, ho, hperm⟩ := dependency_order_perm reg rank hr fuel h hlt
  have hrank : ∀ r ∈ order, rank r < fuel := fun r hmem => by
    have := hr h r (hperm.mem_iff.1 hmem)
    omega
  have hpre1 : ∀ x, paths_from reg fuel order x ≤ degree s x := fun x => by
    have := hpre x
    rw [num_paths_succ, ← paths_from_perm reg fuel hperm x] at this
    omega
  obtain ⟨s1, hs1, hr1⟩ :=
    construct_recursive_ok reg rank hr cm mc fuel false order hrank s hpre1
  have hr2 := DecRel.dec_call s1 (.construct h (decide (cm = CompressMode.compressed)))
  have hr3 := discard_byproducts_rel (reg.provides h)
    (s1.call (.construct h (decide (cm = CompressMode.compressed))))
  have h23 := hr2.dec_trans hr3
  have hdeg1 : ∀ x, (if h = x then 1 else 0) + (reg.requirements h).count x ≤ degree s1 x := by
    intro x
    have a := hpre x
    have b := hr1.1 x
    have c := count_le_paths_from reg fuel (reg.requirements h) x
    have e := dec_from_perm reg fuel hperm x
    rw [num_paths_succ] at a
    rw [e] at b
    unfold dec_from at b
    omega
  obtain ⟨s4, hs4, hr4⟩ := decrease_degree_ok cm mc (reg.requirements h)
    (discard_byproducts (reg.provides h)
      (s1.call (.construct h (decide (cm = CompressMode.compressed))))) (fun x => by
    have a := hdeg1 x
    have b := h23.1 x
    simp only at b
    omega)
  refine ⟨order, s1, s4, ho, hperm, hrank, hpre1, hs1, hr1, hdeg1, hs4, ?_,
    construct_head_succ reg cm mc fuel top h s s1 s4 order ho hs1 hs4⟩
  exact (h23.dec_trans hr4).dec_congr (fun x => by simp)

theorem forSeq_induct (reg : Registry) (fuel : Nat) (f : dsid_t → State → Run)
    (P : List dsid_t → State → State → Prop) (hnil : ∀ s, P [] s s)
    (hcons : ∀ h t s1 s2 s3, P [h] s1 s2 → P t s2 s3 → P (h :: t) s1 s3) (L : List dsid_t)
    (hf : ∀ h ∈ L, ∀ s, (∀ x, num_paths reg fuel h x ≤ degree s x) →
      ∃ s', f h s = .ok s' ∧ P [h] s s' ∧
        DecRel (fun x => num_paths reg fuel h x - (if h = x then 1 else 0)) s s') :
    ∀ s s', (∀ x, paths_from reg fuel L x ≤ degree s x) → forSeq f L s = .ok s' →
      P L s s' := by
  induction L with
  | nil =>
    intro s s' _ hs
    simp only [forSeq, Except.ok.injEq] at hs
    subst hs
    exact hnil s
  | cons h t ih =>
    intro s s' hpre hs
    obtain ⟨s1, hs1, hP1, hr1⟩ := hf h (by simp) s (fun x => by
      have := hpre x
      rw [paths_from_cons] at this
      omega)
    simp only [forSeq, hs1] at hs
    refine hcons h t s s1 s' hP1 (ih (fun k hk => hf k (by simp [hk])) s1 s' (fun x => ?_) hs)
    have a := hpre x
    have b := hr1.1 x
    have c := delta_le_num_paths reg fuel h x
    rw [paths_from_cons] at a
    simp only at b
    omega

theorem construct_head_induct (reg : Registry) (rank : dsid_t → Nat) (hr : reg.RankedBy rank)
    (cm : CompressMode) (mc : List dsid_t) (P : Nat → List dsid_t → State → State → Prop)
    (hnil : ∀ fuel s, P fuel [] s s)
    (hcons : ∀ fuel h t s1 s2 s3, P fuel [h] s1 s2 → P fuel t s2 s3 → P fuel (h :: t) s1 s3)
    (hstep : ∀ fuel top h order s s1 s4, rank h < fuel + 1 →
      (∀ x, num_paths reg (fuel + 1) h x ≤ degree s x) →
      order.Perm (reg.requirements h) →
      (∀ k ∈ order, rank k < fuel) →
      (∀ x, paths_from reg fuel order x ≤ degree s x) →
      construct_recursive reg cm mc fuel false order s = .ok s1 →
      DecRel (dec_from reg fuel order) s s1 →
      (∀ x, (if h = x then 1 else 0) + (reg.requirements h).count x ≤ degree s1 x) →
      P fuel order s s1 →
      decrease_degree cm mc (reg.requirements h)
        (discard_byproducts (reg.provides h)
          (s1.call (.construct h (decide (cm = CompressMode.compressed))))) = .ok s4 →
      P (fuel + 1) [h] s (if cm = CompressMode.delayed ∧ top = true
        then possibly_compress mc h s4 else s4)) :
    ∀ fuel top h s, rank h < fuel → (∀ x, num_paths reg fuel h x ≤ degree s x) →
      ∃ s', construct_head reg cm mc fuel top h s = .ok s' ∧ P fuel [h] s s' ∧
        DecRel (fun x => num_paths reg fuel h x - (if h = x then 1 else 0)) s s' := by
  intro fuel
  induction fuel with
  | zero => intro top h s hlt; omega
  | succ fuel ih =>
    intro top h s hlt hpre
    obtain ⟨s', hs', hrel⟩ := construct_head_ok reg rank hr cm mc (fuel + 1) top h s hlt hpre
    obtain ⟨order, s1, s4, _, hperm, hrank, hpre1, hs1, hrel1, hdeg1, hs4, _, hhead⟩ :=
      construct_head_decomp reg rank hr cm mc fuel top h s hlt hpre
    refine ⟨s', hs', ?_, hrel⟩
    rw [hhead] at hs'
    simp only [Except.ok.injEq] at hs'
    rw [← hs']
    refine hstep fuel top h order s s1 s4 hlt hpre hperm hrank hpre1 hs1 hrel1 hdeg1 ?_ hs4
    exact forSeq_induct reg fuel (construct_head reg cm mc fuel false) (P fuel) (hnil fuel)
      (hcons fuel) order (fun r hmem s hs => ih false r s (hrank r hmem) hs) s s1 hpre1 hs1

/-- Induction over the evaluation phase: a relation between the state before
and the state after the construction of a sequence holds as soon as it is
preserved by the construction of one data structure (`hstep`) and composes
along sequences (`hnil`, `hcons`). -/
theorem construct_recursive_induct (reg : Registry) (rank : dsid_t → Nat)
    (hr : reg.RankedBy rank) (cm : CompressMode) (mc : List dsid_t)
    (P : Nat → List dsid_t → State → State → Prop)
    (hnil : ∀ fuel s, P fuel [] s s)
    (hcons : ∀ fuel h t s1 s2 s3, P fuel [h] s1 s2 → P fuel t s2 s3 → P fuel (h :: t) s1 s3)
    (hstep : ∀ fuel top h order s s1 s4, rank h < fuel + 1 →
      (∀ x, num_paths reg (fuel + 1) h x ≤ degree s x) →
      order.Perm (reg.requirements h) →
      (∀ k ∈ order, rank k < fuel) →
      (∀ x, paths_from reg fuel order x ≤ degree s x) →
      construct_recursive reg cm mc fuel false order s = .ok s1 →
      DecRel (dec_from reg fuel order) s s1 →
      (∀ x, (if h = x then 1 else 0) + (reg.requirements h).count x ≤ degree s1 x) →
      P fuel order s s1 →
      decrease_degree cm mc (reg.requirements h)
        (discard_byproducts (reg.provides h)
          (s1.call (.construct h (decide (cm = CompressMode.compressed))))) = .ok s4 →
      P (fuel + 1) [h] s (if cm = CompressMode.delayed ∧ top = true
        then possibly_compress mc h s4 else s4))
    (fuel : Nat) (top : Bool) (L : List dsid_t) (s s' : State)
    (hfuel : ∀ k ∈ L, rank k < fuel) (hpre : ∀ x, paths_from reg fuel L x ≤ degree s x)
    (hrun : construct_recursive reg cm mc fuel top L s = .ok s') : P fuel L s s' :=
  forSeq_induct reg fuel (construct_head reg cm mc fuel top) (P fuel) (hnil fuel) (hcons fuel) L
    (fun h hmem s hs =>
      construct_head_induct reg rank hr cm mc P hnil hcons hstep fuel top h s (hfuel h hmem) hs)
    s s' hpre hrun

/-! ## The calls of `decrease_degree` -/

theorem dec_step_calls_eq (cm : CompressMode) (mc : List dsid_t) (r : dsid_t) (d : Nat)
    (s : State) :
    (dec_step cm mc r d s).calls = s.calls ++
      ((if d = 0 then [Call.discard r true]
        else if cm = CompressMode.delayed ∧ r ∈ mc ∧ d = 1 then [Call.compress r] else []) ++
       (if d = 1 ∧ r ∉ mc then [Call.unprotect r] else [])) := by
  have hdeg : degree (s.store r d) r = d := by rw [degree_store]; simp
  unfold dec_step possibly_compress
  simp only [hdeg, is_requested, contains_idx, decide_eq_true_eq, decide_eq_false_iff_not]
  by_cases h0 : d = 0
  · subst h0; simp
  · by_cases hcm : cm = CompressMode.delayed <;> by_cases hm : r ∈ mc <;>
      by_cases h1 : d = 1 <;> simp [h0, hcm, hm, h1]

theorem decrease_degree_rel (cm : CompressMode) (mc : List dsid_t) :
    ∀ (L : List dsid_t) (s s' : State), decrease_degree cm mc L s = .ok s' →
      DecRel (fun x => L.count x) s s' := by
  intro L
  induction L with
  | nil =>
    intro s s' h
    simp only [decrease_degree, Except.ok.injEq] at h
    subst h
    exact (DecRel.dec_refl s).dec_congr (by simp)
  | cons r t ih =>
    intro s s' h
    cases hm : s.m_degree r with
    | none => simp [decrease_degree, hm] at h
    | some v =>
      cases v with
      | zero => simp [decrease_degree, hm] at h
      | succ d =>
        rw [decrease_degree_cons cm mc r t s d hm] at h
        refine ((dec_step_rel cm mc r d s hm).dec_trans (ih _ s' h)).dec_congr ?_
        intro x
        rw [List.count_cons]
        by_cases hx : r = x <;> simp [hx, Nat.add_comm]

theorem DecCall.call_mono {cm : CompressMode} {mc : List dsid_t} {s s' : State} {c : Call}
    (h : DecCall cm mc s c) (hle : ∀ x, degree s' x ≤ degree s x) : DecCall cm mc s' c := by
  rcases h with ⟨r, h1, h2⟩ | h | h
  · exact Or.inl ⟨r, h1, by have := hle r; omega⟩
  · exact Or.inr (Or.inl h)
  · exact Or.inr (Or.inr h)

theorem DecRel.dec_degree_le {D : dsid_t → Nat} {s s' : State} (h : DecRel D s s') (x : dsid_t) :
    degree s' x ≤ degree s x := by
  have := h.1 x
  omega

theorem decrease_degree_calls (cm : CompressMode) (mc : List dsid_t) :
    ∀ (L : List dsid_t) (s s' : State), decrease_degree cm mc L s = .ok s' →
      ∃ t, s'.calls = s.calls ++ t ∧ ∀ c ∈ t, DecCall cm mc s' c := by
  intro L
  induction L with
  | nil =>
    intro s s' h
    simp only [decrease_degree, Except.ok.injEq] at h
    subst h
    exact ⟨[], by simp, by simp⟩
  | cons r t ih =>
    intro s s' h
    cases hm : s.m_degree r with
    | none => simp [decrease_degree, hm] at h
    | some v =>
      cases v with
      | zero => simp [decrease_degree, hm] at h
      | succ d =>
        rw [decrease_degree_cons cm mc r t s d hm] at h
        obtain ⟨t', ht', hall⟩ := ih _ s' h
        have hrel := decrease_degree_rel cm mc t _ s' h
        have hdeg : degree (dec_step cm mc r d s) r = d := by
          unfold degree
          rw [dec_step_m_degree]
          simp
        refine ⟨_, by rw [ht', dec_step_calls_eq, List.append_assoc], ?_⟩
        intro c hc
        rcases List.mem_append.1 hc with hc | hc
        · apply DecCall.call_mono (s := dec_step cm mc r d s) _ hrel.dec_degree_le
          rcases List.mem_append.1 hc with hc | hc
          · by_cases h0 : d = 0
            · simp only [h0, if_true, List.mem_singleton] at hc
              exact Or.inl ⟨r, hc, by rw [hdeg, h0]⟩
            · simp only [h0, if_false] at hc
              split at hc
              · rename_i hcond
                exact Or.inr (Or.inl ⟨r, by simpa using hc, hcond.1, hcond.2.1⟩)
              · simp at hc
          · split at hc
            · rename_i hcond
              exact Or.inr (Or.inr ⟨r, by simpa using hc, hcond.2⟩)
            · simp at hc
        · exact hall c hc

/-! ## The calls of one construction step, and the run as a whole -/

theorem degree_congr {s s' : State} (h : s'.m_degree = s.m_degree) (x : dsid_t) :
    degree s' x = degree s x := by
  unfold degree
  rw [h]

theorem finish_calls (reg : Registry) (cm : CompressMode) (mc : List dsid_t) (top : Bool)
    (h : dsid_t) (s1 s4 : State)
    (h4 : decrease_degree cm mc (reg.requirements h)
      (discard_byproducts (reg.provides h)
        (s1.call (.construct h (decide (cm = CompressMode.compressed))))) = .ok s4) :
    ∃ tdec tc,
      (if cm = CompressMode.delayed ∧ top = true then possibly_compress mc h s4 else s4).calls =
        s1.calls ++ Call.construct h (decide (cm = CompressMode.compressed)) ::
          (byproduct_calls (reg.provides h) s1 ++ tdec ++ tc) ∧
      (∀ c ∈ tdec, DecCall cm mc s4 c) ∧
      (tc = [] ∨ (tc = [Call.compress h] ∧ cm = CompressMode.delayed ∧ top = true ∧
        h ∈ mc ∧ degree s4 h = 1)) ∧
      (if cm = CompressMode.delayed ∧ top = true then possibly_compress mc h s4 else s4).m_degree =
        s4.m_degree ∧
      DecRel (fun x => (reg.requirements h).count x) s1 s4 := by
  obtain ⟨tdec, hcalls, hall⟩ := decrease_degree_calls cm mc _ _ s4 h4
  have hrel := decrease_degree_rel cm mc _ _ s4 h4
  have hrel2 := ((DecRel.dec_call s1 (.construct h (decide (cm = CompressMode.compressed)))).dec_trans
    (discard_byproducts_rel (reg.provides h) _)).dec_trans hrel
  rw [discard_byproducts_eq] at hcalls
  simp only [State.call_calls, degree_call] at hcalls
  have hfin : ∀ tc, s4.calls ++ tc = s1.calls ++
      Call.construct h (decide (cm = CompressMode.compressed)) ::
        (byproduct_calls (reg.provides h) s1 ++ tdec ++ tc) := by
    intro tc
    rw [hcalls]
    simp [byproduct_calls]
  refine ⟨tdec, ?_⟩
  by_cases hc : cm = CompressMode.delayed ∧ top = true
  · rw [if_pos hc]
    obtain ⟨tc, htc, hcase⟩ := possibly_compress_calls mc h s4
    refine ⟨tc, by rw [htc, hfin], hall, ?_, possibly_compress_m_degree mc h s4,
      hrel2.dec_congr (fun x => by simp)⟩
    rcases hcase with h0 | ⟨h1, h2, h3⟩
    · exact Or.inl h0
    · exact Or.inr ⟨h1, hc.1, hc.2, h2, h3⟩
  · rw [if_neg hc]
    exact ⟨[], by rw [← hfin, List.append_nil], hall, Or.inl rfl, rfl,
      hrel2.dec_congr (fun x => by simp)⟩

theorem NoZero_init : NoZero State.init := by
  intro x h
  simp [State.init] at h

theorem run_decomp (reg : Registry) (rank : dsid_t → Nat) (hr : reg.RankedBy rank)
    (mc : List dsid_t) (cm : CompressMode) (fuel : Nat) (hfuel : ∀ k ∈ mc, rank k < fuel) :
    ∃ s0 order s, init_degree reg fuel mc State.init = .ok s0 ∧
      InitRel (paths_from reg fuel mc) State.init s0 ∧
      construction_order reg fuel mc = some order ∧ order.Perm mc ∧
      (∀ k ∈ order, rank k < fuel) ∧
      (∀ x, paths_from reg fuel order x ≤ degree s0 x) ∧
      construct_recursive reg cm mc fuel true order s0 = .ok s ∧
      DecRel (dec_from reg fuel mc) s0 s ∧
      DSDependencyGraph reg mc cm fuel = .ok s := by
  obtain ⟨s0, hs0, hrel0⟩ := init_degree_spec reg rank hr fuel mc hfuel State.init NoZero_init
  obtain ⟨order, ho, hperm⟩ := _construction_order_perm reg rank hr fuel mc hfuel
  have hrank : ∀ k ∈ order, rank k < fuel := fun k hk => hfuel k (hperm.mem_iff.1 hk)
  have hpre : ∀ x, paths_from reg fuel order x ≤ degree s0 x := fun x => by
    rw [paths_from_perm reg fuel hperm x, hrel0.1 x]
    omega
  obtain ⟨s, hs, hrel⟩ := construct_recursive_ok reg rank hr cm mc fuel true order hrank s0 hpre
  refine ⟨s0, order, s, hs0, hrel0, ho, hperm, hrank, hpre, hs,
    hrel.dec_congr (fun x => dec_from_perm reg fuel hperm x), ?_⟩
  simp only [DSDependencyGraph, hs0]
  have ho' : construction_order reg fuel mc = some order := ho
  simp only [ho', hs]

theorem degree_init (x : dsid_t) : degree State.init x = 0 := rfl

/-! ## How often a data structure is constructed -/

theorem regABC_ranked : regABC.RankedBy rankABC := by
  intro k r hmem
  simp only [regABC] at hmem
  split at hmem
  · rename_i hk
    simp only [List.mem_singleton] at hmem
    subst hmem
    rcases hk with hk | hk <;> subst hk <;> simp [rankABC]
  · simp at hmem

theorem regBy_ranked : regBy.RankedBy rankABC := by
  intro k r hmem
  simp only [regBy] at hmem
  split at hmem
  · rename_i hk
    simp only [List.mem_singleton] at hmem
    subst hmem
    subst hk
    simp [rankABC]
  · simp at hmem

theorem construct_count_append (k : dsid_t) (a b : List Call) :
    construct_count k (a ++ b) = construct_count k a + construct_count k b := by
  simp [construct_count, List.countP_append]

theorem construct_count_cons_construct (k h : dsid_t) (f : Bool) (t : List Call) :
    construct_count k (Call.construct h f :: t) =
      (if h = k then 1 else 0) + construct_count k t := by
  by_cases hk : h = k <;> simp [construct_count, List.countP_cons, is_construct_of, hk, Nat.add_comm]

theorem construct_count_eq_zero (k : dsid_t) (t : List Call)
    (h : ∀ c ∈ t, ∀ x f, c ≠ Call.construct x f) : construct_count k t = 0 := by
  unfold construct_count
  rw [List.countP_eq_zero]
  intro c hc
  cases c <;> simp [is_construct_of]
  exact fun e => h _ hc _ _ (by rw [e])

theorem DecCall.call_ne_construct {cm : CompressMode} {mc : List dsid_t} {s : State} {c : Call}
    (h : DecCall cm mc s c) (x : dsid_t) (f : Bool) : c ≠ Call.construct x f := by
  rcases h with ⟨r, h1, _⟩ | ⟨r, h1, _⟩ | ⟨r, h1, _⟩ <;> simp [h1]

theorem byproduct_calls_mem {provides : List dsid_t} {s : State} {c : Call}
    (h : c ∈ byproduct_calls provides s) :
    ∃ b, b ∈ provides ∧ degree s b = 0 ∧ c = Call.discard b true := by
  simp only [byproduct_calls, List.mem_map, List.mem_filter, decide_eq_true_eq] at h
  obtain ⟨b, ⟨h1, h2⟩, h3⟩ := h
  exact ⟨b, h1, h2, h3.symm⟩

theorem construct_count_finish (k : dsid_t) (provides : List dsid_t) (s1 s4 : State)
    (cm : CompressMode) (mc : List dsid_t) (h : dsid_t) (tdec tc : List Call) (top : Bool)
    (hdec : ∀ c ∈ tdec, DecCall cm mc s4 c) (htc : tc = [] ∨ (tc = [Call.compress h] ∧
      cm = CompressMode.delayed ∧ top = true ∧ h ∈ mc ∧ degree s4 h = 1)) :
    construct_count k (byproduct_calls provides s1 ++ tdec ++ tc) = 0 := by
  apply construct_count_eq_zero
  intro c hc x f
  rcases List.mem_append.1 hc with hc | hc
  · rcases List.mem_append.1 hc with hc | hc
    · obtain ⟨b, _, _, hb⟩ := byproduct_calls_mem hc
      simp [hb]
    · exact (hdec c hc).call_ne_construct x f
  · rcases htc with h0 | ⟨h1, _⟩
    · simp [h0] at hc
    · rw [h1] at hc
      simp only [List.mem_singleton] at hc
      simp [hc]

theorem eval_construct_count (reg : Registry) (rank : dsid_t → Nat) (hr : reg.RankedBy rank)
    (cm : CompressMode) (mc : List dsid_t) (fuel : Nat) (top : Bool) (L : List dsid_t)
    (s s' : State) (hfuel : ∀ k ∈ L, rank k < fuel)
    (hpre : ∀ x, paths_from reg fuel L x ≤ degree s x)
    (hrun : construct_recursive reg cm mc fuel top L s = .ok s') :
    ∃ t, s'.calls = s.calls ++ t ∧ ∀ k, construct_count k t = paths_from reg fuel L k := by
  refine construct_recursive_induct reg rank hr cm mc
    (fun fuel L s s' => ∃ t, s'.calls = s.calls ++ t ∧
      ∀ k, construct_count k t = paths_from reg fuel L k)
    ?_ ?_ ?_ fuel top L s s' hfuel hpre hrun
  · intro fuel s
    exact ⟨[], by simp, fun k => rfl⟩
  · rintro fuel h t s1 s2 s3 ⟨t1, hc1, hk1⟩ ⟨t2, hc2, hk2⟩
    refine ⟨t1 ++ t2, by rw [hc2, hc1, List.append_assoc], fun k => ?_⟩
    rw [construct_count_append, hk1, hk2, paths_from_cons, paths_from_cons, paths_from_nil]
    omega
  · rintro fuel top h order s s1 s4 _ _ hperm _ _ _ _ _ ⟨t1, hc1, hk1⟩ h4
    obtain ⟨tdec, tc, hcalls, hdec, htc, -, -⟩ := finish_calls reg cm mc top h s1 s4 h4
    refine ⟨t1 ++ Call.construct h (decide (cm = CompressMode.compressed)) ::
      (byproduct_calls (reg.provides h) s1 ++ tdec ++ tc), by rw [hcalls, hc1, List.append_assoc],
      fun k => ?_⟩
    rw [construct_count_append, construct_count_cons_construct, hk1,
      construct_count_finish k _ s1 s4 cm mc h tdec tc top hdec htc, paths_from_cons, paths_from_nil,
      num_paths_succ, paths_from_perm reg fuel hperm k]
    omega

theorem init_calls_no_construct {P : dsid_t → Nat} {s0 : State}
    (h : InitRel P State.init s0) (k : dsid_t) : construct_count k s0.calls = 0 := by
  obtain ⟨_, _, t, hc, _, _, hall⟩ := h
  apply construct_count_eq_zero
  intro c hmem x f
  rw [hc] at hmem
  simp only [State.init, List.nil_append] at hmem
  rcases hall c hmem with ⟨y, hy⟩ | ⟨y, hy⟩ <;> simp [hy]

theorem run_construct_count (reg : Registry) (rank : dsid_t → Nat) (hr : reg.RankedBy rank)
    (mc : List dsid_t) (cm : CompressMode) (fuel : Nat) (hfuel : ∀ k ∈ mc, rank k < fuel) :
    ∃ s0 s, init_degree reg fuel mc State.init = .ok s0 ∧
      DSDependencyGraph reg mc cm fuel = .ok s ∧
      ∀ k, construct_count k s.calls = degree s0 k ∧
        degree s0 k = paths_from reg fuel mc k := by
  obtain ⟨s0, order, s, hs0, hrel0, _, hperm, hrank, hpre, hs, _, hrun⟩ :=
    run_decomp reg rank hr mc cm fuel hfuel
  obtain ⟨t, hc, hk⟩ :=
    eval_construct_count reg rank hr cm mc fuel true order s0 s hrank hpre hs
  refine ⟨s0, s, hs0, hrun, fun k => ?_⟩
  have hd := hrel0.1 k
  rw [degree_init, Nat.zero_add] at hd
  refine ⟨?_, hd⟩
  rw [hc, construct_count_append, init_calls_no_construct hrel0 k, hk k,
    paths_from_perm reg fuel hperm k, hd]
  omega

/-- C1 (counterexample): in the example of section 8 (`A = 0`, `B = 1`, `C = 2`,
requested `B` and `C`) the run calls `construct` for `A` twice, not at most
once. -/
theorem C1_counterexample :
    regABC.RankedBy rankABC ∧ [1, 2].Nodup ∧
    ∃ s, DSDependencyGraph regABC [1, 2] CompressMode.plain 2 = .ok s ∧
      s.calls.filter (fun c => c matches Call.construct _ _)
        = [Call.construct 0 false, Call.construct 1 false,
           Call.construct 0 false, Call.construct 2 false] ∧
      ¬ construct_count 0 s.calls ≤ 1 :=
  ⟨regABC_ranked, by decide, _, rfl, by decide, by decide⟩

/-- C1 (amended): one run over an acyclic registry returns, and it calls
`construct` for a data structure at most as often as its degree after the
request phase says; so a data structure whose degree after the request phase is
at most one is constructed at most once. -/
theorem C1_construct_le_degree (reg : Registry) (rank : dsid_t → Nat)
    (hr : reg.RankedBy rank) (m_construct : List dsid_t) (cm : CompressMode) (fuel : Nat)
    (hfuel : ∀ k ∈ m_construct, rank k < fuel) :
    ∃ s0 s, init_degree reg fuel m_construct State.init = .ok s0 ∧
      DSDependencyGraph reg m_construct cm fuel = .ok s ∧
      ∀ k, construct_count k s.calls ≤ degree s0 k ∧
        (degree s0 k ≤ 1 → construct_count k s.calls ≤ 1) := by
  obtain ⟨s0, s, h0, h1, h2⟩ := run_construct_count reg rank hr m_construct cm fuel hfuel
  refine ⟨s0, s, h0, h1, fun k => ⟨by rw [(h2 k).1], fun hle => by rw [(h2 k).1]; exact hle⟩⟩

/-- C1 (amended), at the example of section 8. -/
theorem C1_construct_le_degree_witness :
    ∃ s0 s, init_degree regABC 2 [1, 2] State.init = .ok s0 ∧
      DSDependencyGraph regABC [1, 2] CompressMode.plain 2 = .ok s ∧
      ∀ k, construct_count k s.calls ≤ degree s0 k ∧
        (degree s0 k ≤ 1 → construct_count k s.calls ≤ 1) :=
  C1_construct_le_degree regABC rankABC regABC_ranked [1, 2] CompressMode.plain 2
    (by decide)

/-! ## Discards happen at degree zero only -/

theorem seg_unique {s s' : State} {t1 t2 : List Call} (h1 : s'.calls = s.calls ++ t1)
    (h2 : s'.calls = s.calls ++ t2) : t1 = t2 :=
  List.append_cancel_left (h1.symm.trans h2)

theorem eval_discard_zero (reg : Registry) (rank : dsid_t → Nat) (hr : reg.RankedBy rank)
    (cm : CompressMode) (mc : List dsid_t) (fuel : Nat) (top : Bool) (L : List dsid_t)
    (s s' : State) (hfuel : ∀ k ∈ L, rank k < fuel)
    (hpre : ∀ x, paths_from reg fuel L x ≤ degree s x)
    (hrun : construct_recursive reg cm mc fuel top L s = .ok s') :
    (∀ x, degree s' x ≤ degree s x) ∧
    ∃ t, s'.calls = s.calls ++ t ∧ ∀ x f, Call.discard x f ∈ t → degree s' x = 0 := by
  refine construct_recursive_induct reg rank hr cm mc
    (fun _ _ s s' => (∀ x, degree s' x ≤ degree s x) ∧
      ∃ t, s'.calls = s.calls ++ t ∧ ∀ x f, Call.discard x f ∈ t → degree s' x = 0)
    ?_ ?_ ?_ fuel top L s s' hfuel hpre hrun
  · intro fuel s
    exact ⟨fun _ => Nat.le_refl _, [], by simp, by simp⟩
  · rintro fuel h t s1 s2 s3 ⟨hle1, t1, hc1, hk1⟩ ⟨hle2, t2, hc2, hk2⟩
    refine ⟨fun x => Nat.le_trans (hle2 x) (hle1 x), t1 ++ t2,
      by rw [hc2, hc1, List.append_assoc], fun x f hmem => ?_⟩
    rcases List.mem_append.1 hmem with hm | hm
    · have := hk1 x f hm
      have := hle2 x
      omega
    · exact hk2 x f hm
  · rintro fuel top h order s s1 s4 _ _ _ _ _ _ _ _ ⟨hle1, t1, hc1, hk1⟩ h4
    obtain ⟨tdec, tc, hcalls, hdec, htc, hm5, hrel4⟩ := finish_calls reg cm mc top h s1 s4 h4
    have hd5 : ∀ x, degree (if cm = CompressMode.delayed ∧ top = true
        then possibly_compress mc h s4 else s4) x = degree s4 x := degree_congr hm5
    have hle4 : ∀ x, degree s4 x ≤ degree s1 x := hrel4.dec_degree_le
    refine ⟨fun x => by rw [hd5]; exact Nat.le_trans (hle4 x) (hle1 x),
      t1 ++ Call.construct h (decide (cm = CompressMode.compressed)) ::
        (byproduct_calls (reg.provides h) s1 ++ tdec ++ tc),
      by rw [hcalls, hc1, List.append_assoc], fun x f hmem => ?_⟩
    rw [hd5]
    have h41 := hle4 x
    rcases List.mem_append.1 hmem with hm | hm
    · have := hk1 x f hm
      omega
    · simp only [List.mem_cons, List.mem_append, reduceCtorEq, false_or] at hm
      rcases hm with (hm | hm) | hm
      · obtain ⟨b, _, hb0, hb⟩ := byproduct_calls_mem hm
        simp only [Call.discard.injEq] at hb
        rw [hb.1]
        have := hle4 b
        omega
      · rcases hdec _ hm with ⟨r, h1, h2⟩ | ⟨r, h1, _⟩ | ⟨r, h1, _⟩
        · simp only [Call.discard.injEq] at h1
          rw [h1.1]
          exact h2
        · simp at h1
        · simp at h1
      · rcases htc with h0 | ⟨h1, _⟩
        · simp [h0] at hm
        · simp [h1] at hm

theorem run_spec (reg : Registry) (rank : dsid_t → Nat) (hr : reg.RankedBy rank)
    (mc : List dsid_t) (cm : CompressMode) (fuel : Nat) (hfuel : ∀ k ∈ mc, rank k < fuel) :
    ∃ s0 order s t, init_degree reg fuel mc State.init = .ok s0 ∧
      InitRel (paths_from reg fuel mc) State.init s0 ∧
      order.Perm mc ∧
      (∀ k ∈ order, rank k < fuel) ∧
      (∀ x, paths_from reg fuel order x ≤ degree s0 x) ∧
      construct_recursive reg cm mc fuel true order s0 = .ok s ∧
      DSDependencyGraph reg mc cm fuel = .ok s ∧
      s.calls = s0.calls ++ t ∧
      (∀ x, s.m_degree x = none ↔ s0.m_degree x = none) ∧
      (∀ x, degree s0 x = paths_from reg fuel mc x) ∧
      (∀ x, degree s x = mc.count x) := by
  obtain ⟨s0, order, s, hs0, hrel0, _, hperm, hrank, hpre, hs, hrel, hrun⟩ :=
    run_decomp reg rank hr mc cm fuel hfuel
  obtain ⟨hdeg, hkeys, t, ht⟩ := hrel
  have hd0 : ∀ x, degree s0 x = paths_from reg fuel mc x := fun x => by
    have := hrel0.1 x
    rwa [degree_init, Nat.zero_add] at this
  refine ⟨s0, order, s, t, hs0, hrel0, hperm, hrank, hpre, hs, hrun, ht, hkeys, hd0, fun x => ?_⟩
  have a := hdeg x
  have b := count_le_paths_from reg fuel mc x
  rw [hd0 x] at a
  unfold dec_from at a
  omega

theorem init_calls_kind {P : dsid_t → Nat} {s0 : State} (h : InitRel P State.init s0)
    {c : Call} (hc : c ∈ s0.calls) :
    (∃ x, c = Call.ensure_provider x) ∨ (∃ x, c = Call.protect x) := by
  obtain ⟨_, _, t, ht, _, _, hall⟩ := h
  rw [ht] at hc
  simp only [State.init, List.nil_append] at hc
  exact hall c hc

theorem run_discard_zero (reg : Registry) (rank : dsid_t → Nat) (hr : reg.RankedBy rank)
    (mc : List dsid_t) (cm : CompressMode) (fuel : Nat) (hfuel : ∀ k ∈ mc, rank k < fuel) :
    ∃ s, DSDependencyGraph reg mc cm fuel = .ok s ∧
      ∀ x f, Call.discard x f ∈ s.calls → x ∉ mc := by
  obtain ⟨s0, order, s, t, _, hrel0, _, hrank, hpre, hs, hrun, ht, _, _, hfin⟩ :=
    run_spec reg rank hr mc cm fuel hfuel
  obtain ⟨_, t', ht', hz⟩ := eval_discard_zero reg rank hr cm mc fuel true order s0 s hrank hpre hs
  refine ⟨s, hrun, fun x f hmem hx => ?_⟩
  rw [ht'] at hmem
  rcases List.mem_append.1 hmem with hm | hm
  · rcases init_calls_kind hrel0 hm with ⟨y, hy⟩ | ⟨y, hy⟩ <;> simp at hy
  · have a := hz x f hm
    have b := hfin x
    have c : 0 < mc.count x := List.count_pos_iff.2 hx
    omega

/-- C3: a run over an acyclic registry returns, and the calls it issued contain
no `discard` of a requested data structure. -/
theorem C3_requested_never_discarded (reg : Registry) (rank : dsid_t → Nat)
    (hr : reg.RankedBy rank) (m_construct : List dsid_t) (cm : CompressMode) (fuel : Nat)
    (hfuel : ∀ k ∈ m_construct, rank k < fuel) :
    ∃ s, DSDependencyGraph reg m_construct cm fuel = .ok s ∧
      ∀ k ∈ m_construct, ∀ flag, Call.discard k flag ∉ s.calls := by
  obtain ⟨s, hs, h⟩ := run_discard_zero reg rank hr m_construct cm fuel hfuel
  exact ⟨s, hs, fun k hk flag hmem => h k flag hmem hk⟩

/-- C3, at a run in which the requested `A` is a requirement of `B` and a
byproduct of `C`. -/
theorem C3_requested_never_discarded_witness :
    ∃ s, DSDependencyGraph regBy [0, 1, 2] CompressMode.delayed 2 = .ok s ∧
      ∀ k ∈ [0, 1, 2], ∀ flag, Call.discard k flag ∉ s.calls :=
  C3_requested_never_discarded regBy rankABC regBy_ranked [0, 1, 2] CompressMode.delayed 2
    (by decide)

/-! ## Requirements are constructed, and kept, before their dependent -/

theorem split_append {α : Type} {t1 t2 pre post : List α} {x : α}
    (h : t1 ++ t2 = pre ++ x :: post) :
    (∃ post1, t1 = pre ++ x :: post1 ∧ post = post1 ++ t2) ∨
    (∃ pre2, pre = t1 ++ pre2 ∧ t2 = pre2 ++ x :: post) := by
  rcases List.append_eq_append_iff.1 h with ⟨a, h1, h2⟩ | ⟨c, h1, h2⟩
  · exact Or.inr ⟨a, h1, h2⟩
  · cases c with
    | nil =>
      refine Or.inr ⟨[], by simpa using h1.symm, by simpa using h2.symm⟩
    | cons y c =>
      simp only [List.cons_append, List.cons.injEq] at h2
      obtain ⟨hy, hp⟩ := h2
      subst hy
      exact Or.inl ⟨c, h1, hp⟩

theorem ConstructedAndKept.kept_append {r : dsid_t} (a : List Call) {b : List Call}
    (h : ConstructedAndKept r b) : ConstructedAndKept r (a ++ b) := by
  obtain ⟨p1, c, p2, hb, hall⟩ := h
  exact ⟨a ++ p1, c, p2, by rw [hb, List.append_assoc], hall⟩

theorem constructedAndKept_of_no_discard (r : dsid_t) :
    ∀ t : List Call, 0 < construct_count r t → (∀ x ∈ t, is_discard_of r x = false) →
      ConstructedAndKept r t := by
  intro t
  induction t with
  | nil => intro h; simp [construct_count] at h
  | cons a t ih =>
    intro hpos hnd
    by_cases ht : 0 < construct_count r t
    · exact (ih ht (fun x hx => hnd x (by simp [hx]))).kept_append [a]
    · have h0 : construct_count r t = 0 := by omega
      have ha : is_construct_of r a = true := by
        by_contra hne
        simp only [construct_count, List.countP_cons] at hpos h0
        simp only [hne, h0] at hpos
        simp at hpos
      cases a with
      | construct x c =>
        simp only [is_construct_of, decide_eq_true_eq] at ha
        subst ha
        refine ⟨[], c, t, rfl, fun y hy => ⟨?_, hnd y (by simp [hy])⟩⟩
        unfold construct_count at h0
        rw [List.countP_eq_zero] at h0
        simpa using h0 y hy
      | _ => simp [is_construct_of] at ha

theorem eval_requirements_ready (reg : Registry) (rank : dsid_t → Nat) (hr : reg.RankedBy rank)
    (cm : CompressMode) (mc : List dsid_t) (fuel : Nat) (top : Bool) (L : List dsid_t)
    (s s' : State) (hfuel : ∀ k ∈ L, rank k < fuel)
    (hpre : ∀ x, paths_from reg fuel L x ≤ degree s x)
    (hrun : construct_recursive reg cm mc fuel top L s = .ok s') :
    ∃ t, s'.calls = s.calls ++ t ∧ RequirementsReady reg t := by
  refine construct_recursive_induct reg rank hr cm mc
    (fun _ _ s s' => ∃ t, s'.calls = s.calls ++ t ∧ RequirementsReady reg t)
    ?_ ?_ ?_ fuel top L s s' hfuel hpre hrun
  · intro fuel s
    refine ⟨[], by simp, ?_⟩
    intro pre c post k h
    simp at h
  · rintro fuel h t s1 s2 s3 ⟨t1, hc1, hk1⟩ ⟨t2, hc2, hk2⟩
    refine ⟨t1 ++ t2, by rw [hc2, hc1, List.append_assoc], ?_⟩
    intro pre c post k hsplit r hmem
    rcases split_append hsplit with ⟨post1, h1, _⟩ | ⟨pre2, h1, h2⟩
    · exact hk1 pre c post1 k h1 r hmem
    · rw [h1]
      exact (hk2 pre2 c post k h2 r hmem).kept_append t1
  · rintro fuel top h order s s1 s4 _ _ hperm hrank hpre1 hs1 _ hdeg1 ⟨t1, hc1, hk1⟩ h4
    obtain ⟨tdec, tc, hcalls, hdec, htc, -, -⟩ := finish_calls reg cm mc top h s1 s4 h4
    refine ⟨t1 ++ Call.construct h (decide (cm = CompressMode.compressed)) ::
        (byproduct_calls (reg.provides h) s1 ++ tdec ++ tc),
      by rw [hcalls, hc1, List.append_assoc], ?_⟩
    intro pre c post k hsplit r hmem
    rcases split_append hsplit with ⟨post1, h1, _⟩ | ⟨pre2, h1, h2⟩
    · exact hk1 pre c post1 k h1 r hmem
    · cases pre2 with
      | cons y pre2 =>
        exfalso
        simp only [List.cons_append, List.cons.injEq] at h2
        have hzero := construct_count_finish k (reg.provides h) s1 s4 cm mc h tdec tc top hdec htc
        rw [h2.2, construct_count_append, construct_count_cons_construct] at hzero
        simp at hzero
      | nil =>
        simp only [List.nil_append, List.cons.injEq, Call.construct.injEq] at h2
        obtain ⟨⟨hk, _⟩, _⟩ := h2
        subst hk
        rw [h1, List.append_nil]
        obtain ⟨tc1, hcc, hcount⟩ :=
          eval_construct_count reg rank hr cm mc fuel false order s s1 hrank hpre1 hs1
        obtain ⟨_, td1, hcd, hzero⟩ :=
          eval_discard_zero reg rank hr cm mc fuel false order s s1 hrank hpre1 hs1
        have e1 := seg_unique hc1 hcc
        have e2 := seg_unique hc1 hcd
        apply constructedAndKept_of_no_discard
        · rw [e1, hcount r]
          have a := count_le_paths_from reg fuel order r
          have b : 0 < order.count r := List.count_pos_iff.2 (hperm.mem_iff.2 hmem)
          omega
        · intro x hx
          cases x with
          | discard y f =>
            simp only [is_discard_of, decide_eq_false_iff_not]
            intro hy
            subst hy
            rw [e2] at hx
            have a := hzero y f hx
            have b := hdeg1 y
            have c : 0 < (reg.requirements h).count y := List.count_pos_iff.2 hmem
            omega
          | _ => rfl

/-- C2: a run over an acyclic registry returns, and in the calls it issued every
`construct` of `k` comes, for each direct requirement `r` of `k`, after a
`construct` of `r` such that neither another `construct` of `r` nor a `discard`
of `r` lies between the two. -/
theorem C2_construction_before_use (reg : Registry) (rank : dsid_t → Nat)
    (hr : reg.RankedBy rank) (m_construct : List dsid_t) (cm : CompressMode) (fuel : Nat)
    (hfuel : ∀ k ∈ m_construct, rank k < fuel) :
    ∃ s, DSDependencyGraph reg m_construct cm fuel = .ok s ∧
      ∀ pre c post k, s.calls = pre ++ Call.construct k c :: post →
        ∀ r ∈ reg.requirements k,
          ∃ p1 c1 p2, pre = p1 ++ Call.construct r c1 :: p2 ∧
            ∀ x ∈ p2, is_construct_of r x = false ∧ is_discard_of r x = false := by
  obtain ⟨s0, order, s, t, _, hrel0, _, hrank, hpre, hs, hrun, ht, _, _, _⟩ :=
    run_spec reg rank hr m_construct cm fuel hfuel
  obtain ⟨t', ht', hready⟩ :=
    eval_requirements_ready reg rank hr cm m_construct fuel true order s0 s hrank hpre hs
  refine ⟨s, hrun, ?_⟩
  intro pre c post k hsplit r hmem
  rw [ht'] at hsplit
  rcases split_append hsplit with ⟨post1, h1, _⟩ | ⟨pre2, h1, h2⟩
  · have hin : Call.construct k c ∈ s0.calls := by rw [h1]; simp
    rcases init_calls_kind hrel0 hin with ⟨y, hy⟩ | ⟨y, hy⟩ <;> simp at hy
  · rw [h1]
    exact (hready pre2 c post k h2 r hmem).kept_append s0.calls

/-- C2, at the example of section 8. -/
theorem C2_construction_before_use_witness :
    ∃ s, DSDependencyGraph regABC [1, 2] CompressMode.plain 2 = .ok s ∧
      ∀ pre c post k, s.calls = pre ++ Call.construct k c :: post →
        ∀ r ∈ regABC.requirements k,
          ∃ p1 c1 p2, pre = p1 ++ Call.construct r c1 :: p2 ∧
            ∀ x ∈ p2, is_construct_of r x = false ∧ is_discard_of r x = false :=
  C2_construction_before_use regABC rankABC regABC_ranked [1, 2] CompressMode.plain 2
    (by decide)

/-! ## What is retained when the run returns -/

theorem decrease_degree_induct (cm : CompressMode) (mc : List dsid_t)
    (P : State → State → Prop) (hrefl : ∀ s, P s s)
    (htrans : ∀ s1 s2 s3, P s1 s2 → P s2 s3 → P s1 s3)
    (hdec : ∀ s r d, s.m_degree r = some (d + 1) → P s (dec_step cm mc r d s)) :
    ∀ (L : List dsid_t) (s s' : State), decrease_degree cm mc L s = .ok s' → P s s' := by
  intro L
  induction L with
  | nil =>
    intro s s' h
    simp only [decrease_degree, Except.ok.injEq] at h
    subst h
    exact hrefl s
  | cons r t ih =>
    intro s s' h
    cases hm : s.m_degree r with
    | none => simp [decrease_degree, hm] at h
    | some v =>
      cases v with
      | zero => simp [decrease_degree, hm] at h
      | succ d =>
        rw [decrease_degree_cons cm mc r t s d hm] at h
        exact htrans _ _ _ (hdec s r d hm) (ih _ s' h)

theorem retained_after_append (reg : Registry) (a b : List Call) (x : dsid_t) :
    retained_after reg (a ++ b) x = b.foldl (retained_step reg x) (retained_after reg a x) := by
  simp [retained_after, List.foldl_append]

theorem retained_fold_discards (reg : Registry) (x : dsid_t) :
    ∀ (t : List Call) (b : Bool), (∀ c ∈ t, ∀ k f, c ≠ Call.construct k f) →
      t.foldl (retained_step reg x) b = true →
        b = true ∧ ∀ f, Call.discard x f ∉ t := by
  intro t
  induction t with
  | nil => intro b _ h; exact ⟨h, by simp⟩
  | cons c t ih =>
    intro b hnc h
    rw [List.foldl_cons] at h
    obtain ⟨h1, h2⟩ := ih _ (fun c hc => hnc c (by simp [hc])) h
    cases c with
    | construct k f => exact absurd rfl (hnc _ (by simp) k f)
    | discard k f =>
      simp only [retained_step, Bool.and_eq_true, Bool.not_eq_true', decide_eq_false_iff_not] at h1
      refine ⟨h1.1, fun f' hmem => ?_⟩
      rcases List.mem_cons.1 hmem with e | e
      · simp only [Call.discard.injEq] at e
        exact h1.2 e.1
      · exact h2 f' e
    | _ =>
      simp only [retained_step] at h1
      refine ⟨h1, fun f' hmem => ?_⟩
      rcases List.mem_cons.1 hmem with e | e
      · simp at e
      · exact h2 f' e

theorem retained_fold_keep (reg : Registry) (x : dsid_t) :
    ∀ (t : List Call), (∀ c ∈ t, is_discard_of x c = false) →
      t.foldl (retained_step reg x) true = true := by
  intro t
  induction t with
  | nil => intro _; rfl
  | cons c t ih =>
    intro h
    rw [List.foldl_cons]
    have hc := h c (by simp)
    have : retained_step reg x true c = true := by
      cases c <;> simp [retained_step, is_discard_of] at hc ⊢
      exact fun e => hc e.symm
    rw [this]
    exact ih (fun c hc => h c (by simp [hc]))

theorem retained_of_constructedAndKept (reg : Registry) (x : dsid_t) (t : List Call)
    (h : ConstructedAndKept x t) : retained_after reg t x = true := by
  obtain ⟨p1, c, p2, ht, hall⟩ := h
  rw [ht, retained_after_append, List.foldl_cons]
  have : retained_step reg x (retained_after reg p1 x) (Call.construct x c) = true := by
    simp [retained_step]
  rw [this]
  exact retained_fold_keep reg x p2 (fun c hc => (hall c hc).2)

theorem dec_step_retained (reg : Registry) (cm : CompressMode) (mc : List dsid_t)
    (s : State) (r : dsid_t) (d : Nat) (hm : s.m_degree r = some (d + 1))
    (hI : RetainedHaveDegree reg s) : RetainedHaveDegree reg (dec_step cm mc r d s) := by
  intro x hx
  have hdeg : degree (dec_step cm mc r d s) x = if x = r then d else degree s x := by
    rw [degree_congr (dec_step_m_degree cm mc r d s), degree_store]
  rw [dec_step_calls_eq, retained_after_append] at hx
  obtain ⟨hx1, hx2⟩ := retained_fold_discards reg x _ _ (by
    intro c hc k f
    rcases List.mem_append.1 hc with hc | hc
    · split at hc
      · simp only [List.mem_singleton] at hc; simp [hc]
      · split at hc
        · simp only [List.mem_singleton] at hc; simp [hc]
        · simp at hc
    · split at hc
      · simp only [List.mem_singleton] at hc; simp [hc]
      · simp at hc) hx
  rw [hdeg]
  by_cases hxr : x = r
  · subst hxr
    simp only [if_true]
    by_contra hd
    have h0 : d = 0 := by omega
    exact hx2 true (by simp [h0])
  · simp only [hxr, if_false]
    exact hI x hx1

theorem decrease_degree_retained (reg : Registry) (cm : CompressMode) (mc : List dsid_t)
    (L : List dsid_t) (s s' : State) (h : decrease_degree cm mc L s = .ok s')
    (hI : RetainedHaveDegree reg s) : RetainedHaveDegree reg s' :=
  decrease_degree_induct cm mc (fun s s' => RetainedHaveDegree reg s → RetainedHaveDegree reg s')
    (fun _ h => h) (fun _ _ _ h1 h2 h => h2 (h1 h))
    (fun s r d hm => dec_step_retained reg cm mc s r d hm) L s s' h hI

theorem eval_retained (reg : Registry) (rank : dsid_t → Nat) (hr : reg.RankedBy rank)
    (cm : CompressMode) (mc : List dsid_t) (fuel : Nat) (top : Bool) (L : List dsid_t)
    (s s' : State) (hfuel : ∀ k ∈ L, rank k < fuel)
    (hpre : ∀ x, paths_from reg fuel L x ≤ degree s x)
    (hrun : construct_recursive reg cm mc fuel top L s = .ok s') :
    RetainedHaveDegree reg s → RetainedHaveDegree reg s' := by
  refine construct_recursive_induct reg rank hr cm mc
    (fun _ _ s s' => RetainedHaveDegree reg s → RetainedHaveDegree reg s')
    ?_ ?_ ?_ fuel top L s s' hfuel hpre hrun
  · exact fun _ _ h => h
  · exact fun _ _ _ _ _ _ h1 h2 h => h2 (h1 h)
  · rintro fuel top h order s s1 s4 _ _ _ _ _ _ _ hdeg1 hP h4 hI
    have hI1 := hP hI
    have hI3 : RetainedHaveDegree reg (discard_byproducts (reg.provides h)
        (s1.call (.construct h (decide (cm = CompressMode.compressed))))) := by
      intro x hx
      rw [discard_byproducts_eq] at hx ⊢
      simp only [State.call_calls, State.call_m_degree, degree_call] at hx ⊢
      have hd : ∀ (c : List Call) (e : List Event),
          degree (⟨s1.m_degree, c, e⟩ : State) x = degree s1 x := fun _ _ => rfl
      rw [hd]
      rw [retained_after_append] at hx
      obtain ⟨hx1, hx2⟩ := retained_fold_discards reg x _ _ (by
        intro c hc k f
        simp only [List.mem_map] at hc
        obtain ⟨b, _, hb⟩ := hc
        simp [← hb]) hx
      rw [retained_after_append] at hx1
      simp only [List.foldl_cons, List.foldl_nil, retained_step, Bool.or_eq_true,
        decide_eq_true_eq] at hx1
      rcases hx1 with (hx1 | hx1) | hx1
      · exact hI1 x hx1
      · have := hdeg1 h
        simp only [if_true] at this
        rw [hx1]
        omega
      · by_contra hlt
        have h0 : degree s1 x = 0 := by omega
        exact hx2 true (by simp [hx1, h0])
    have hI4 := decrease_degree_retained reg cm mc _ _ s4 h4 hI3
    split
    · intro x hx
      obtain ⟨tc, htc, hcase⟩ := possibly_compress_calls mc h s4
      rw [degree_congr (possibly_compress_m_degree mc h s4)]
      apply hI4
      rcases hcase with h0 | ⟨h1, _⟩
      · rw [htc, h0, List.append_nil] at hx
        exact hx
      · rw [htc, h1, retained_after_append] at hx
        exact hx
    · exact hI4

theorem retained_init_calls {P : dsid_t → Nat} {s0 : State} (reg : Registry)
    (h : InitRel P State.init s0) : RetainedHaveDegree reg s0 := by
  intro x hx
  have : ∀ c ∈ s0.calls, ∀ k f, c ≠ Call.construct k f := by
    intro c hc k f
    rcases init_calls_kind h hc with ⟨y, hy⟩ | ⟨y, hy⟩ <;> simp [hy]
  have := (retained_fold_discards reg x s0.calls false this hx).1
  simp at this

/-- C4: a run over an acyclic registry returns, and the retained set after its
calls (a `construct` adds the data structure and all it provides, a `discard`
removes one) consists of the requested data structures and of nothing else. -/
theorem C4_retained_is_requested (reg : Registry) (rank : dsid_t → Nat)
    (hr : reg.RankedBy rank) (m_construct : List dsid_t) (cm : CompressMode) (fuel : Nat)
    (hfuel : ∀ k ∈ m_construct, rank k < fuel) :
    ∃ s, DSDependencyGraph reg m_construct cm fuel = .ok s ∧
      ∀ x, retained_after reg s.calls x = true ↔ x ∈ m_construct := by
  obtain ⟨s0, order, s, t, hs0, hrel0, _, hrank, hpre, hs, hrun, ht, _, _, hfin⟩ :=
    run_spec reg rank hr m_construct cm fuel hfuel
  have hI := eval_retained reg rank hr cm m_construct fuel true order s0 s hrank hpre hs
    (retained_init_calls reg hrel0)
  refine ⟨s, hrun, fun x => ⟨fun hx => ?_, fun hx => ?_⟩⟩
  · have a := hI x hx
    rw [hfin x] at a
    exact List.count_pos_iff.1 a
  · obtain ⟨s0', s', hs0', hrun', hcount⟩ :=
      run_construct_count reg rank hr m_construct cm fuel hfuel
    obtain ⟨s'', hrun'', hnd⟩ := run_discard_zero reg rank hr m_construct cm fuel hfuel
    rw [hrun] at hrun' hrun''
    simp only [Except.ok.injEq] at hrun' hrun''
    subst hrun' hrun''
    apply retained_of_constructedAndKept
    apply constructedAndKept_of_no_discard
    · rw [(hcount x).1, (hcount x).2]
      have a := count_le_paths_from reg fuel m_construct x
      have b : 0 < m_construct.count x := List.count_pos_iff.2 hx
      omega
    · intro c hc
      cases c with
      | discard y f =>
        simp only [is_discard_of, decide_eq_false_iff_not]
        intro hy
        subst hy
        exact hnd y f hc hx
      | _ => rfl

/-- C4, at a registry with byproducts: `C` provides `A`, which `B` requires,
and `3`, which nothing requires; `B` and `C` are requested. -/
theorem C4_retained_is_requested_witness :
    ∃ s, DSDependencyGraph regBy [1, 2] CompressMode.plain 2 = .ok s ∧
      ∀ x, retained_after regBy s.calls x = true ↔ x ∈ [1, 2] :=
  C4_retained_is_requested regBy rankABC regBy_ranked [1, 2] CompressMode.plain 2 (by decide)

/-! ## The degrees after the request phase -/

theorem regChain_ranked : regChain.RankedBy rankChain := by
  intro k r hmem
  simp only [regChain] at hmem
  split at hmem
  · rename_i hk
    simp only [List.mem_singleton] at hmem
    subst hmem
    subst hk
    simp [rankChain]
  · split at hmem
    · rename_i hk
      simp only [List.mem_singleton] at hmem
      subst hmem
      rcases hk with hk | hk <;> subst hk <;> simp [rankChain]
    · simp at hmem

/-- C5 (counterexample): with `A`, `B` requiring `A`, and `C`, `D` requiring `B`,
requested `C` and `D`, one requirement edge points at `A` (from `B`) and `A` is
not requested, yet the request phase leaves `A` with degree two. -/
theorem C5_counterexample :
    regChain.RankedBy rankChain ∧ [2, 3].Nodup ∧
    ∃ s0, init_degree regChain 3 [2, 3] State.init = .ok s0 ∧
      degree s0 0 = 2 ∧ edge_degree regChain 3 [2, 3] 0 = 1 ∧
      degree s0 0 ≠ edge_degree regChain 3 [2, 3] 0 :=
  ⟨regChain_ranked, by decide, _, rfl, by decide, by decide, by decide⟩

/-- C5 (amended): the request phase over an acyclic registry returns, and it
leaves every data structure `k` with the number of requirement paths that lead
from a requested data structure to `k` as its degree (the empty path counts
when `k` is requested itself). -/
theorem C5_degree_after_request (reg : Registry) (rank : dsid_t → Nat)
    (hr : reg.RankedBy rank) (m_construct : List dsid_t) (fuel : Nat)
    (hfuel : ∀ k ∈ m_construct, rank k < fuel) :
    ∃ s0, init_degree reg fuel m_construct State.init = .ok s0 ∧
      ∀ k, degree s0 k = paths_from reg fuel m_construct k := by
  obtain ⟨s0, hs0, hrel0⟩ :=
    init_degree_spec reg rank hr fuel m_construct hfuel State.init NoZero_init
  refine ⟨s0, hs0, fun k => ?_⟩
  have := hrel0.1 k
  rwa [degree_init, Nat.zero_add] at this

/-- C5 (amended), at the example of section 8: the degrees are 2, 1 and 1. -/
theorem C5_degree_after_request_witness :
    (∀ k ∈ [1, 2], rankABC k < 2) ∧
    paths_from regABC 2 [1, 2] 0 = 2 ∧ paths_from regABC 2 [1, 2] 1 = 1 ∧
    paths_from regABC 2 [1, 2] 2 = 1 ∧
    ∃ s0, init_degree regABC 2 [1, 2] State.init = .ok s0 ∧
      ∀ k, degree s0 k = paths_from regABC 2 [1, 2] k :=
  ⟨by decide, by decide, by decide, by decide,
    C5_degree_after_request regABC rankABC regABC_ranked [1, 2] 2 (by decide)⟩

/-! ## The degrees when the run returns -/

/-- C6: a run over an acyclic registry with a duplicate-free requested list
returns, and then the entry of every requested data structure is one, and every
entry of a data structure that is not requested is zero. -/
theorem C6_degrees_after_evaluation (reg : Registry) (rank : dsid_t → Nat)
    (hr : reg.RankedBy rank) (m_construct : List dsid_t) (hnd : m_construct.Nodup)
    (cm : CompressMode) (fuel : Nat) (hfuel : ∀ k ∈ m_construct, rank k < fuel) :
    ∃ s, DSDependencyGraph reg m_construct cm fuel = .ok s ∧
      (∀ k ∈ m_construct, s.m_degree k = some 1) ∧
      (∀ k, k ∉ m_construct → ∀ d, s.m_degree k = some d → d = 0) := by
  obtain ⟨s0, order, s, t, _, _, _, _, _, _, hrun, _, _, _, hfin⟩ :=
    run_spec reg rank hr m_construct cm fuel hfuel
  refine ⟨s, hrun, fun k hk => ?_, fun k hk d hd => ?_⟩
  · have h1 : degree s k = 1 := by rw [hfin k, List.count_eq_one_of_mem hnd hk]
    cases hm : s.m_degree k with
    | none => rw [degree_of_none hm] at h1; omega
    | some d => rw [degree_of_some hm] at h1; rw [h1]
  · have h0 : degree s k = 0 := by rw [hfin k, List.count_eq_zero_of_not_mem hk]
    rw [degree_of_some hd] at h0
    exact h0

/-- C6, at the example of section 8. -/
theorem C6_degrees_after_evaluation_witness :
    ∃ s, DSDependencyGraph regABC [1, 2] CompressMode.plain 2 = .ok s ∧
      (∀ k ∈ [1, 2], s.m_degree k = some 1) ∧
      (∀ k, k ∉ [1, 2] → ∀ d, s.m_degree k = some d → d = 0) :=
  C6_degrees_after_evaluation regABC rankABC regABC_ranked [1, 2] (by decide)
    CompressMode.plain 2 (by decide)

/-! ## The cost -/

theorem _cost_eq (reg : Registry) (costOf : dsid_t → Option Nat) (ds : dsid_t) :
    ∀ req : List dsid_t, (∀ r ∈ req, ∃ c, costOf r = some c) →
      ∃ cs, List.Forall₂ (fun r c => costOf r = some c) req cs ∧
        _cost reg costOf ds req = some ((in_degree reg ds + cs.sum) % 2 ^ SIZE_BITS) := by
  intro req
  induction req with
  | nil => intro _; exact ⟨[], List.Forall₂.nil, rfl⟩
  | cons r t ih =>
    intro h
    obtain ⟨a, ha⟩ := h r (by simp)
    obtain ⟨cs, hcs, hb⟩ := ih (fun r hr => h r (by simp [hr]))
    refine ⟨a :: cs, List.Forall₂.cons ha hcs, ?_⟩
    simp only [_cost, ha, hb, List.sum_cons, Option.some.injEq]
    rw [Nat.add_mod_mod]
    congr 1
    omega

theorem _cost_congr (reg : Registry) (f g : dsid_t → Option Nat) (ds : dsid_t) :
    ∀ req : List dsid_t, (∀ r ∈ req, f r = g r) → _cost reg f ds req = _cost reg g ds req := by
  intro req
  induction req with
  | nil => intro _; rfl
  | cons r t ih =>
    intro h
    simp only [_cost, h r (by simp), ih (fun r hr => h r (by simp [hr]))]

theorem cost_fuel (reg : Registry) (rank : dsid_t → Nat) (hr : reg.RankedBy rank) :
    ∀ f1 f2 ds, rank ds < f1 → rank ds < f2 → cost reg f1 ds = cost reg f2 ds := by
  intro f1
  induction f1 with
  | zero => intro f2 ds h; omega
  | succ f1 ih =>
    intro f2 ds h1 h2
    cases f2 with
    | zero => omega
    | succ f2 =>
      simp only [cost]
      apply _cost_congr
      intro r hmem
      have := hr ds r hmem
      exact ih f2 r (by omega) (by omega)

/-- C7 (amended): in an acyclic registry `in_degree(k)` is the length of the
requirement list of `k`, the cost of every requirement `r` of `k` is defined,
and `cost(k)` is `in_degree(k)` plus the sum of these costs, taken modulo
`2 ^ SIZE_BITS` as the sum of `size_t` constants is; it is that sum itself
whenever the sum is below `2 ^ SIZE_BITS`, and it is zero for a data structure
without requirements. -/
theorem C7_cost_is_recursive_fan_in (reg : Registry) (rank : dsid_t → Nat)
    (hr : reg.RankedBy rank) (fuel : Nat) (k : dsid_t) (hfuel : rank k < fuel) :
    in_degree reg k = (reg.requirements k).length ∧
    (∃ cs, List.Forall₂ (fun r c => cost reg fuel r = some c) (reg.requirements k) cs ∧
      cost reg fuel k = some ((in_degree reg k + cs.sum) % 2 ^ SIZE_BITS) ∧
      (in_degree reg k + cs.sum < 2 ^ SIZE_BITS →
        cost reg fuel k = some (in_degree reg k + cs.sum))) ∧
    (reg.requirements k = [] → cost reg fuel k = some 0) := by
  cases fuel with
  | zero => omega
  | succ f =>
    have hsub : ∀ r ∈ reg.requirements k, rank r < f := fun r hmem => by
      have := hr k r hmem
      omega
    obtain ⟨cs, hcs, hc⟩ := _cost_eq reg (cost reg f) k (reg.requirements k)
      (fun r hmem => cost_isSome reg rank hr f r (hsub r hmem))
    have hc' : cost reg (f + 1) k = some ((in_degree reg k + cs.sum) % 2 ^ SIZE_BITS) := hc
    refine ⟨rfl, ⟨cs, ?_, hc', fun hlt => by rw [hc', Nat.mod_eq_of_lt hlt]⟩, fun hnil => ?_⟩
    · have key : ∀ (l : List dsid_t) (cs : List Nat), (∀ r ∈ l, rank r < f) →
          List.Forall₂ (fun r c => cost reg f r = some c) l cs →
          List.Forall₂ (fun r c => cost reg (f + 1) r = some c) l cs := by
        intro l cs hl hall
        induction hall with
        | nil => exact List.Forall₂.nil
        | @cons x c l1 l2 hhead _ ih =>
          have hx : rank x < f := hl x (by simp)
          refine List.Forall₂.cons ?_ (ih (fun r hr => hl r (by simp [hr])))
          rw [← hhead]
          exact cost_fuel reg rank hr (f + 1) f x (by omega) hx
      exact key _ _ hsub hcs
    · simp [cost, hnil, _cost, in_degree]

/-- C7 (amended), at the example of section 8: the cost of `B` is one, that of
`A` zero. -/
theorem C7_cost_is_recursive_fan_in_witness :
    rankABC 1 < 2 ∧ cost regABC 2 1 = some 1 ∧ cost regABC 2 0 = some 0 ∧
    in_degree regABC 1 = (regABC.requirements 1).length ∧
    (∃ cs, List.Forall₂ (fun r c => cost regABC 2 r = some c) (regABC.requirements 1) cs ∧
      cost regABC 2 1 = some ((in_degree regABC 1 + cs.sum) % 2 ^ SIZE_BITS) ∧
      (in_degree regABC 1 + cs.sum < 2 ^ SIZE_BITS →
        cost regABC 2 1 = some (in_degree regABC 1 + cs.sum))) ∧
    (regABC.requirements 1 = [] → cost regABC 2 1 = some 0) :=
  ⟨by decide, by decide, by decide,
    C7_cost_is_recursive_fan_in regABC rankABC regABC_ranked 2 1 (by decide)⟩

/-! ## The construction order -/

theorem costN_eq (reg : Registry) (fuel : Nat) (ds : dsid_t) :
    (cost reg fuel ds).getD 0 = costN reg fuel ds := rfl

/-- C8: for data structures of an acyclic registry, `construction_order` yields
a permutation of its input in which the costs never increase and in which data
structures of equal cost keep the order they have in the input; the comparator
is `cost(A) >= cost(B)`; `dependency_order` is the construction order of the
requirement list. -/
theorem C8_construction_order_stable (reg : Registry) (rank : dsid_t → Nat)
    (hr : reg.RankedBy rank) (fuel : Nat) (seq : List dsid_t)
    (hfuel : ∀ k ∈ seq, rank k < fuel) :
    ∃ out, construction_order reg fuel seq = some out ∧ out.Perm seq ∧
      out.Pairwise (fun a b => costN reg fuel a ≥ costN reg fuel b) ∧
      (∀ c, out.filter (fun k => decide (costN reg fuel k = c)) =
        seq.filter (fun k => decide (costN reg fuel k = c))) ∧
      (∀ a ∈ seq, ∀ b ∈ seq, _cost_compare reg fuel a b =
        some (decide (costN reg fuel a ≥ costN reg fuel b))) ∧
      (∀ ds, dependency_order reg fuel ds =
        construction_order reg fuel (reg.requirements ds)) := by
  have heq := _construction_order_eq reg rank hr fuel seq hfuel
  simp only [costN_eq] at heq
  haveI htot : IsTotal dsid_t
      (fun a b => decide (costN reg fuel a ≥ costN reg fuel b) = true) :=
    ⟨fun a b => by simp only [decide_eq_true_eq]; omega⟩
  haveI htr : IsTrans dsid_t
      (fun a b => decide (costN reg fuel a ≥ costN reg fuel b) = true) :=
    ⟨fun a b c => by simp only [decide_eq_true_eq]; omega⟩
  have hperm := List.perm_insertionSort
    (fun a b => decide (costN reg fuel a ≥ costN reg fuel b) = true) seq
  refine ⟨_, heq, hperm, ?_, fun c => ?_, fun a ha b hb => ?_, fun ds => rfl⟩
  · have hs := List.sorted_insertionSort
      (fun a b => decide (costN reg fuel a ≥ costN reg fuel b) = true) seq
    exact List.Pairwise.imp (fun h => by simpa using h) hs
  · have hsub : List.Sublist (seq.filter (fun k => decide (costN reg fuel k = c)))
        (seq.insertionSort
          (fun a b => decide (costN reg fuel a ≥ costN reg fuel b) = true)) := by
      apply List.sublist_insertionSort _ (List.filter_sublist seq)
      apply List.pairwise_of_forall_mem_list
      intro a ha b hb
      simp only [List.mem_filter, decide_eq_true_eq] at ha hb
      simp only [decide_eq_true_eq]
      omega
    have hsub2 := hsub.filter (fun k => decide (costN reg fuel k = c))
    rw [List.filter_filter] at hsub2
    simp only [Bool.and_self] at hsub2
    have hlen := (hperm.filter (fun k => decide (costN reg fuel k = c))).length_eq
    exact (hsub2.eq_of_length hlen.symm).symm
  · rw [_cost_compare_eq reg rank hr fuel a b (hfuel a ha) (hfuel b hb)]
    rfl

/-- C8, at four data structures of costs 1, 0, 2, 2 (`B`, `A`, `C`, `D` of
`regChain`): `C` and `D` come first, in their input order, then `B`, then `A`. -/
theorem C8_construction_order_stable_witness :
    (∀ k ∈ [1, 0, 2, 3], rankChain k < 3) ∧
    construction_order regChain 3 [1, 0, 2, 3] = some [2, 3, 1, 0] ∧
    ∃ out, construction_order regChain 3 [1, 0, 2, 3] = some out ∧ out.Perm [1, 0, 2, 3] ∧
      out.Pairwise (fun a b => costN regChain 3 a ≥ costN regChain 3 b) ∧
      (∀ c, out.filter (fun k => decide (costN regChain 3 k = c)) =
        [1, 0, 2, 3].filter (fun k => decide (costN regChain 3 k = c))) ∧
      (∀ a ∈ [1, 0, 2, 3], ∀ b ∈ [1, 0, 2, 3], _cost_compare regChain 3 a b =
        some (decide (costN regChain 3 a ≥ costN regChain 3 b))) ∧
      (∀ ds, dependency_order regChain 3 ds =
        construction_order regChain 3 (regChain.requirements ds)) :=
  ⟨by decide, by decide,
    C8_construction_order_stable regChain rankChain regChain_ranked 3 [1, 0, 2, 3] (by decide)⟩

/-! ## Byproducts are discarded right after their producer is constructed -/

theorem SameKeys.keys_trans {s1 s2 s3 : State} (h1 : SameKeys s1 s2) (h2 : SameKeys s2 s3) :
    SameKeys s1 s3 :=
  fun x => (h2 x).trans (h1 x)

theorem eval_byproducts_follow (reg : Registry) (rank : dsid_t → Nat) (hr : reg.RankedBy rank)
    (cm : CompressMode) (mc : List dsid_t) (fuel : Nat) (top : Bool) (L : List dsid_t)
    (s s' : State) (hfuel : ∀ k ∈ L, rank k < fuel)
    (hpre : ∀ x, paths_from reg fuel L x ≤ degree s x)
    (hrun : construct_recursive reg cm mc fuel top L s = .ok s') :
    ∃ t, s'.calls = s.calls ++ t ∧ SameKeys s s' ∧ ByproductsFollow reg s t := by
  refine construct_recursive_induct reg rank hr cm mc
    (fun _ _ s s' => ∃ t, s'.calls = s.calls ++ t ∧ SameKeys s s' ∧ ByproductsFollow reg s t)
    ?_ ?_ ?_ fuel top L s s' hfuel hpre hrun
  · intro fuel s
    refine ⟨[], by simp, fun _ => Iff.rfl, ?_⟩
    intro pre c post k h
    simp at h
  · rintro fuel h t s1 s2 s3 ⟨t1, hc1, hk1, hb1⟩ ⟨t2, hc2, hk2, hb2⟩
    refine ⟨t1 ++ t2, by rw [hc2, hc1, List.append_assoc], hk1.keys_trans hk2, ?_⟩
    intro pre c post k hsplit
    rcases split_append hsplit with ⟨post1, h1, h2⟩ | ⟨pre2, h1, h2⟩
    · obtain ⟨sd, rest, hsd, hkeys, hpost⟩ := hb1 pre c post1 k h1
      exact ⟨sd, rest ++ t2, hsd, hkeys, by rw [h2, hpost, List.append_assoc]⟩
    · obtain ⟨sd, rest, hsd, hkeys, hpost⟩ := hb2 pre2 c post k h2
      exact ⟨sd, rest, by rw [hsd, hc1, h1, List.append_assoc], hk1.keys_trans hkeys, hpost⟩
  · rintro fuel top h order s s1 s4 _ _ _ _ _ _ _ _ ⟨t1, hc1, hk1, hb1⟩ h4
    obtain ⟨tdec, tc, hcalls, hdec, htc, hm5, hrel4⟩ := finish_calls reg cm mc top h s1 s4 h4
    have hk5 : SameKeys s1 (if cm = CompressMode.delayed ∧ top = true
        then possibly_compress mc h s4 else s4) := by
      intro x
      rw [hm5]
      exact hrel4.2.1 x
    refine ⟨t1 ++ Call.construct h (decide (cm = CompressMode.compressed)) ::
        (byproduct_calls (reg.provides h) s1 ++ tdec ++ tc),
      by rw [hcalls, hc1, List.append_assoc], hk1.keys_trans hk5, ?_⟩
    intro pre c post k hsplit
    rcases split_append hsplit with ⟨post1, h1, h2⟩ | ⟨pre2, h1, h2⟩
    · obtain ⟨sd, rest, hsd, hkeys, hpost⟩ := hb1 pre c post1 k h1
      exact ⟨sd, rest ++ _, hsd, hkeys, by rw [h2, hpost, List.append_assoc]⟩
    · cases pre2 with
      | cons y pre2 =>
        exfalso
        simp only [List.cons_append, List.cons.injEq] at h2
        have hzero := construct_count_finish k (reg.provides h) s1 s4 cm mc h tdec tc top hdec htc
        rw [h2.2, construct_count_append, construct_count_cons_construct] at hzero
        simp at hzero
      | nil =>
        simp only [List.nil_append, List.cons.injEq, Call.construct.injEq] at h2
        obtain ⟨⟨hk, _⟩, hpost⟩ := h2
        subst hk
        refine ⟨s1, tdec ++ tc, by rw [hc1, h1, List.append_nil], hk1, ?_⟩
        rw [← hpost, List.append_assoc]

theorem absent_sublist_byproduct_calls (provides : List dsid_t) (s0 sd : State)
    (hkeys : SameKeys s0 sd) :
    List.Sublist (absent_byproduct_calls provides s0) (byproduct_calls provides sd) := by
  unfold byproduct_calls absent_byproduct_calls
  apply List.Sublist.map
  induction provides with
  | nil => simp
  | cons b t ih =>
    by_cases hb : s0.m_degree b = none
    · have hd : degree sd b = 0 := degree_of_none ((hkeys b).2 hb)
      simp only [List.filter_cons, hb, Option.isNone_none, if_true, hd, decide_True]
      exact ih.cons₂ b
    · have hb' : (s0.m_degree b).isNone = false := by
        cases hm : s0.m_degree b with
        | none => exact absurd hm hb
        | some v => rfl
      simp only [List.filter_cons, hb']
      by_cases hd : degree sd b = 0
      · simp only [hd, decide_True, if_true]
        exact ih.cons b
      · simpa [hd] using ih

/-- C9 (counterexample): `B` requires `A`, `C` provides `A` and `3`, requested
are `B` and `C`. When `C` is constructed `A` has an entry in the degree map (it
has dropped to zero) and `3` has none; the call that follows `construct` of `C`
is the discard of `A`, not the discard of the absent byproduct `3`. -/
theorem C9_counterexample :
    regBy.RankedBy rankABC ∧ [1, 2].Nodup ∧
    ∃ s0 s pre post, init_degree regBy 2 [1, 2] State.init = .ok s0 ∧
      DSDependencyGraph regBy [1, 2] CompressMode.plain 2 = .ok s ∧
      s.calls = pre ++ Call.construct 2 false :: post ∧
      post = [Call.discard 0 true, Call.discard 3 true] ∧
      s0.m_degree 0 = some 1 ∧ s.m_degree 0 = some 0 ∧
      absent_byproduct_calls (regBy.provides 2) s0 = [Call.discard 3 true] ∧
      post.take (absent_byproduct_calls (regBy.provides 2) s0).length ≠
        absent_byproduct_calls (regBy.provides 2) s0 :=
  ⟨regBy_ranked, by decide, _, _,
    [.ensure_provider 1, .ensure_provider 0, .ensure_provider 2, .construct 0 false,
      .construct 1 false, .discard 0 true],
    [.discard 0 true, .discard 3 true], rfl, rfl, by decide, rfl, by decide, by decide,
    by decide, by decide⟩

/-! ## Protection when the run returns -/

theorem DecCall.evalCall {cm : CompressMode} {mc : List dsid_t} {s : State} {c : Call}
    (h : DecCall cm mc s c) : EvalCall cm mc c := by
  rcases h with ⟨r, h1, _⟩ | ⟨r, h1, h2, h3⟩ | ⟨r, h1, h2⟩
  · exact Or.inr (Or.inl ⟨r, h1⟩)
  · exact Or.inr (Or.inr (Or.inl ⟨r, h1, h2, h3⟩))
  · exact Or.inr (Or.inr (Or.inr ⟨r, h1, h2⟩))

theorem eval_calls_kind (reg : Registry) (rank : dsid_t → Nat) (hr : reg.RankedBy rank)
    (cm : CompressMode) (mc : List dsid_t) (fuel : Nat) (top : Bool) (L : List dsid_t)
    (s s' : State) (hfuel : ∀ k ∈ L, rank k < fuel)
    (hpre : ∀ x, paths_from reg fuel L x ≤ degree s x)
    (hrun : construct_recursive reg cm mc fuel top L s = .ok s') :
    ∃ t, s'.calls = s.calls ++ t ∧ ∀ c ∈ t, EvalCall cm mc c := by
  refine construct_recursive_induct reg rank hr cm mc
    (fun _ _ s s' => ∃ t, s'.calls = s.calls ++ t ∧ ∀ c ∈ t, EvalCall cm mc c)
    ?_ ?_ ?_ fuel top L s s' hfuel hpre hrun
  · intro fuel s
    exact ⟨[], by simp, by simp⟩
  · rintro fuel h t s1 s2 s3 ⟨t1, hc1, hk1⟩ ⟨t2, hc2, hk2⟩
    refine ⟨t1 ++ t2, by rw [hc2, hc1, List.append_assoc], fun c hc => ?_⟩
    rcases List.mem_append.1 hc with hm | hm
    · exact hk1 c hm
    · exact hk2 c hm
  · rintro fuel top h order s s1 s4 _ _ _ _ _ _ _ _ ⟨t1, hc1, hk1⟩ h4
    obtain ⟨tdec, tc, hcalls, hdec, htc, -, -⟩ := finish_calls reg cm mc top h s1 s4 h4
    refine ⟨t1 ++ Call.construct h (decide (cm = CompressMode.compressed)) ::
        (byproduct_calls (reg.provides h) s1 ++ tdec ++ tc),
      by rw [hcalls, hc1, List.append_assoc], fun c hc => ?_⟩
    rcases List.mem_append.1 hc with hm | hm
    · exact hk1 c hm
    · simp only [List.mem_cons, List.mem_append] at hm
      rcases hm with hm | (hm | hm) | hm
      · exact Or.inl ⟨h, hm⟩
      · obtain ⟨b, _, _, hb⟩ := byproduct_calls_mem hm
        exact Or.inr (Or.inl ⟨b, hb⟩)
      · exact (hdec c hm).evalCall
      · rcases htc with h0 | ⟨h1, h2, _, h3, _⟩
        · simp [h0] at hm
        · rw [h1] at hm
          simp only [List.mem_singleton] at hm
          exact Or.inr (Or.inr (Or.inl ⟨h, hm, h2, h3⟩))

theorem protected_fold (ds : dsid_t) :
    ∀ (t : List Call) (b : Bool), Call.unprotect ds ∉ t →
      t.foldl (protected_step ds) b = (b || decide (Call.protect ds ∈ t)) := by
  intro t
  induction t with
  | nil => intro b _; simp
  | cons c t ih =>
    intro b hnu
    rw [List.foldl_cons, ih _ (fun h => hnu (by simp [h]))]
    cases c with
    | protect x =>
      by_cases hx : x = ds
      · simp [protected_step, hx]
      · have : ¬ ds = x := fun e => hx e.symm
        simp [protected_step, hx, this]
    | unprotect x =>
      have hx : ¬ x = ds := fun e => hnu (by simp [e])
      simp [protected_step, hx]
    | _ => simp [protected_step]

theorem run_protection (reg : Registry) (rank : dsid_t → Nat) (hr : reg.RankedBy rank)
    (mc : List dsid_t) (cm : CompressMode) (fuel : Nat) (hfuel : ∀ k ∈ mc, rank k < fuel) :
    ∃ s0 s, init_degree reg fuel mc State.init = .ok s0 ∧
      DSDependencyGraph reg mc cm fuel = .ok s ∧
      (∀ k ∈ mc, Call.unprotect k ∉ s.calls) ∧
      (∀ k, Call.protect k ∈ s.calls ↔ 2 ≤ degree s0 k) := by
  obtain ⟨s0, order, s, t, hs0, hrel0, _, hrank, hpre, hs, hrun, ht, _, _, _⟩ :=
    run_spec reg rank hr mc cm fuel hfuel
  obtain ⟨t', ht', hall⟩ := eval_calls_kind reg rank hr cm mc fuel true order s0 s hrank hpre hs
  refine ⟨s0, s, hs0, hrun, fun k hk hmem => ?_, fun k => ?_⟩
  · rw [ht'] at hmem
    rcases List.mem_append.1 hmem with hm | hm
    · rcases init_calls_kind hrel0 hm with ⟨y, hy⟩ | ⟨y, hy⟩ <;> simp at hy
    · rcases hall _ hm with ⟨y, hy⟩ | ⟨y, hy⟩ | ⟨y, hy, _⟩ | ⟨y, hy, hy2⟩
      · simp at hy
      · simp at hy
      · simp at hy
      · simp only [Call.unprotect.injEq] at hy
        exact hy2 (hy ▸ hk)
  · obtain ⟨_, _, t0, ht0, _, hprot, _⟩ := hrel0
    have hp := hprot k
    rw [degree_init] at hp
    simp only [State.init, List.nil_append] at ht0
    have hnot : Call.protect k ∉ t' := by
      intro hm
      rcases hall _ hm with ⟨y, hy⟩ | ⟨y, hy⟩ | ⟨y, hy, _⟩ | ⟨y, hy, _⟩ <;> simp at hy
    rw [ht', List.mem_append, ht0, ← List.count_pos_iff]
    constructor
    · rintro (h | h)
      · omega
      · exact absurd h hnot
    · intro h
      left
      omega

/-- C10 (counterexample): `B` requires `A`, both are requested. The request
phase protects `A`, the run never unprotects it, and on return `A` is protected
although its degree is one. -/
theorem C10_counterexample :
    regABC.RankedBy rankABC ∧ [0, 1].Nodup ∧
    ∃ s, DSDependencyGraph regABC [0, 1] CompressMode.plain 2 = .ok s ∧
      s.calls = [.ensure_provider 0, .ensure_provider 1, .ensure_provider 0, .protect 0,
        .construct 0 false, .construct 1 false, .construct 0 false] ∧
      protected_after 0 s.calls = true ∧ degree s 0 = 1 ∧
      ¬ (protected_after 0 s.calls = true → 2 ≤ degree s 0) :=
  ⟨regABC_ranked, by decide, _, rfl, by decide, by decide, by decide, by decide⟩

/-- C10 (amended): a run over an acyclic registry returns, and then every
requested data structure has been constructed; the run has not unprotected it,
so that it is protected on return exactly if the request phase left it with a
degree of at least two. -/
theorem C10_requested_protection (reg : Registry) (rank : dsid_t → Nat)
    (hr : reg.RankedBy rank) (m_construct : List dsid_t) (cm : CompressMode) (fuel : Nat)
    (hfuel : ∀ k ∈ m_construct, rank k < fuel) :
    ∃ s0 s, init_degree reg fuel m_construct State.init = .ok s0 ∧
      DSDependencyGraph reg m_construct cm fuel = .ok s ∧
      ∀ k ∈ m_construct, 1 ≤ construct_count k s.calls ∧
        Call.unprotect k ∉ s.calls ∧
        (protected_after k s.calls = true ↔ 2 ≤ degree s0 k) := by
  obtain ⟨s0, s, hs0, hrun, hun, hprot⟩ := run_protection reg rank hr m_construct cm fuel hfuel
  obtain ⟨s0', s', hs0', hrun', hcount⟩ :=
    run_construct_count reg rank hr m_construct cm fuel hfuel
  rw [hrun] at hrun'
  rw [hs0] at hs0'
  simp only [Except.ok.injEq] at hrun' hs0'
  subst hrun' hs0'
  refine ⟨s0, s, hs0, hrun, fun k hk => ⟨?_, hun k hk, ?_⟩⟩
  · rw [(hcount k).1, (hcount k).2]
    have a := count_le_paths_from reg fuel m_construct k
    have b : 0 < m_construct.count k := List.count_pos_iff.2 hk
    omega
  · unfold protected_after
    rw [protected_fold k s.calls false (hun k hk), ← hprot k]
    simp

/-- C10 (amended), at the registry of the counterexample. -/
theorem C10_requested_protection_witness :
    ∃ s0 s, init_degree regABC 2 [0, 1] State.init = .ok s0 ∧
      DSDependencyGraph regABC [0, 1] CompressMode.plain 2 = .ok s ∧
      ∀ k ∈ [0, 1], 1 ≤ construct_count k s.calls ∧
        Call.unprotect k ∉ s.calls ∧
        (protected_after k s.calls = true ↔ 2 ≤ degree s0 k) :=
  C10_requested_protection regABC rankABC regABC_ranked [0, 1] CompressMode.plain 2 (by decide)

/-! ## The evaluation phase as a sequence of steps -/

theorem SchedSteps.steps_trans {cm : CompressMode} {mc : List dsid_t} {s1 s2 s3 : State}
    (h1 : SchedSteps cm mc s1 s2) (h2 : SchedSteps cm mc s2 s3) : SchedSteps cm mc s1 s3 :=
  Relation.ReflTransGen.trans h1 h2

theorem discard_byproducts_steps (cm : CompressMode) (mc : List dsid_t) :
    ∀ (L : List dsid_t) (s : State), SchedSteps cm mc s (discard_byproducts L s) := by
  intro L
  induction L with
  | nil => intro s; exact Relation.ReflTransGen.refl
  | cons b t ih =>
    intro s
    rw [discard_byproducts]
    by_cases hb : degree s b = 0
    · rw [if_pos hb]
      exact SchedSteps.steps_trans (Relation.ReflTransGen.single (SchedStep.byproduct s b hb)) (ih _)
    · rw [if_neg hb]
      exact ih s

theorem possibly_compress_steps (cm : CompressMode) (mc : List dsid_t) (hcm : cm = CompressMode.delayed)
    (h : dsid_t) (s : State) : SchedSteps cm mc s (possibly_compress mc h s) := by
  unfold possibly_compress
  split
  · rename_i hc
    exact Relation.ReflTransGen.single
      (SchedStep.compress s h hcm (by simpa [is_requested, contains_idx] using hc.1) hc.2)
  · exact Relation.ReflTransGen.refl

theorem eval_steps (reg : Registry) (rank : dsid_t → Nat) (hr : reg.RankedBy rank)
    (cm : CompressMode) (mc : List dsid_t) (fuel : Nat) (top : Bool) (L : List dsid_t)
    (s s' : State) (hfuel : ∀ k ∈ L, rank k < fuel)
    (hpre : ∀ x, paths_from reg fuel L x ≤ degree s x)
    (hrun : construct_recursive reg cm mc fuel top L s = .ok s') :
    SchedSteps cm mc s s' := by
  refine construct_recursive_induct reg rank hr cm mc (fun _ _ s s' => SchedSteps cm mc s s')
    ?_ ?_ ?_ fuel top L s s' hfuel hpre hrun
  · intro _ s
    exact Relation.ReflTransGen.refl
  · intro _ _ _ s1 s2 s3 h1 h2
    exact h1.steps_trans h2
  · intro fuel top h order s s1 s4 _ _ _ _ _ _ _ hdeg1 hP h4
    have h12 : SchedSteps cm mc s1
        (s1.call (.construct h (decide (cm = CompressMode.compressed)))) :=
      Relation.ReflTransGen.single (SchedStep.construct s1 h (by
        have := hdeg1 h
        simp only [if_true] at this
        omega))
    have h23 := discard_byproducts_steps cm mc (reg.provides h)
      (s1.call (.construct h (decide (cm = CompressMode.compressed))))
    have h34 : SchedSteps cm mc _ s4 :=
      decrease_degree_induct cm mc (SchedSteps cm mc) (fun _ => Relation.ReflTransGen.refl)
        (fun _ _ _ a b => a.steps_trans b)
        (fun s r d hm => Relation.ReflTransGen.single (SchedStep.decrement s r d hm)) _ _ s4 h4
    have h14 := hP.steps_trans (h12.steps_trans (h23.steps_trans h34))
    split
    · rename_i hc
      exact h14.steps_trans (possibly_compress_steps cm mc hc.1 h s4)
    · exact h14

theorem run_steps (reg : Registry) (rank : dsid_t → Nat) (hr : reg.RankedBy rank)
    (mc : List dsid_t) (cm : CompressMode) (fuel : Nat) (hfuel : ∀ k ∈ mc, rank k < fuel) :
    ∃ s0 s, init_degree reg fuel mc State.init = .ok s0 ∧
      InitRel (paths_from reg fuel mc) State.init s0 ∧
      DSDependencyGraph reg mc cm fuel = .ok s ∧
      (∀ x, degree s x = mc.count x) ∧
      SchedSteps cm mc s0 s := by
  obtain ⟨s0, order, s, t, hs0, hrel0, _, hrank, hpre, hs, hrun, _, _, _, hfin⟩ :=
    run_spec reg rank hr mc cm fuel hfuel
  exact ⟨s0, s, hs0, hrel0, hrun, hfin,
    eval_steps reg rank hr cm mc fuel true order s0 s hrank hpre hs⟩

theorem steps_induct {cm : CompressMode} {mc : List dsid_t} (I : State → Prop)
    (hstep : ∀ s s', SchedStep cm mc s s' → I s → I s') {s s' : State}
    (h : SchedSteps cm mc s s') (hI : I s) : I s' := by
  induction h with
  | refl => exact hI
  | tail _ hlast ih => exact hstep _ _ hlast ih

/-! ## When `unprotect` is called -/

theorem degree_dec_step (cm : CompressMode) (mc : List dsid_t) (r : dsid_t) (d : Nat)
    (s : State) (x : dsid_t) :
    degree (dec_step cm mc r d s) x = if x = r then d else degree s x := by
  rw [degree_congr (dec_step_m_degree cm mc r d s), degree_store]

theorem protected_after_append (k : dsid_t) (a b : List Call) :
    protected_after k (a ++ b) = b.foldl (protected_step k) (protected_after k a) := by
  simp [protected_after, List.foldl_append]

theorem step_unprotect (cm : CompressMode) (mc : List dsid_t) (s1 s2 : State)
    (h : SchedStep cm mc s1 s2) (k : dsid_t) :
    Call.unprotect k ∈ s2.calls.drop s1.calls.length ↔
      (k ∉ mc ∧ degree s1 k = 2 ∧ degree s2 k = 1) := by
  cases h with
  | construct h hd =>
    simp only [State.call_calls, List.drop_left, List.mem_singleton, degree_call, reduceCtorEq,
      false_iff]
    omega
  | byproduct b hb =>
    simp only [State.call_calls, List.drop_left, List.mem_singleton, degree_call, reduceCtorEq,
      false_iff]
    omega
  | compress h hcm hm hd =>
    simp only [State.call_calls, List.drop_left, List.mem_singleton, degree_call, reduceCtorEq,
      false_iff]
    omega
  | decrement r d hm =>
    rw [dec_step_calls_eq, List.drop_left, degree_dec_step]
    have hdeg := degree_of_some hm
    by_cases hkr : k = r
    · subst hkr
      rw [hdeg]
      by_cases h0 : d = 0
      · subst h0; simp
      · by_cases h1 : d = 1
        · subst h1
          by_cases hmem : k ∈ mc <;> simp [hmem]
        · simp only [h0, h1, if_false, false_and, and_false, List.append_nil, if_true]
          constructor
          · intro hin
            simp at hin
          · intro hc
            exact hc.elim
    · have hrk : ¬ r = k := fun e => hkr e.symm
      simp only [hkr, if_false]
      constructor
      · intro hin
        exfalso
        rcases List.mem_append.1 hin with hin | hin
        · split at hin
          · simp at hin
          · split at hin <;> simp at hin
        · split at hin
          · simp only [List.mem_singleton, Call.unprotect.injEq] at hin
            exact hkr hin
          · simp at hin
      · intro hc
        obtain ⟨_, a, b⟩ := hc
        omega

theorem step_protected (cm : CompressMode) (mc : List dsid_t) (s1 s2 : State)
    (h : SchedStep cm mc s1 s2) (hI : ProtectedIffShared mc s1) : ProtectedIffShared mc s2 := by
  intro k hk
  have hI1 := hI k hk
  cases h with
  | construct h hd =>
    rw [State.call_calls, protected_after_append, degree_call]
    simpa [protected_step] using hI1
  | byproduct b hb =>
    rw [State.call_calls, protected_after_append, degree_call]
    simpa [protected_step] using hI1
  | compress h hcm hm hd =>
    rw [State.call_calls, protected_after_append, degree_call]
    simpa [protected_step] using hI1
  | decrement r d hm =>
    rw [dec_step_calls_eq, protected_after_append, degree_dec_step]
    have hdeg := degree_of_some hm
    by_cases hkr : k = r
    · subst hkr
      rw [hdeg] at hI1
      simp only [hk, not_false_eq_true, and_true, and_false, false_and, if_false, if_true]
      by_cases h0 : d = 0
      · subst h0
        have hf : protected_after k s1.calls = false := by
          cases hp : protected_after k s1.calls with
          | false => rfl
          | true => have := hI1.1 hp; omega
        simp [protected_step, hf]
      · by_cases h1 : d = 1
        · subst h1
          simp [protected_step]
        · have ht : protected_after k s1.calls = true := hI1.2 (by omega)
          simp only [h0, h1, if_false, List.append_nil, List.foldl_nil, ht, true_iff]
          omega
    · have hrk : ¬ r = k := fun e => hkr e.symm
      simp only [hkr, if_false]
      rw [← hI1]
      have hfold : ∀ (l : List Call) (b : Bool),
          (∀ c ∈ l, c = Call.discard r true ∨ c = Call.compress r ∨ c = Call.unprotect r) →
          l.foldl (protected_step k) b = b := by
        intro l
        induction l with
        | nil => intro b _; rfl
        | cons c t ih =>
          intro b hall
          rw [List.foldl_cons]
          have hc : protected_step k b c = b := by
            rcases hall c (by simp) with e | e | e
            · rw [e]; rfl
            · rw [e]; rfl
            · rw [e]; simp [protected_step, hrk]
          rw [hc]
          exact ih b (fun c hc => hall c (by simp [hc]))
      rw [hfold]
      intro c hc
      rcases List.mem_append.1 hc with hc | hc
      · split at hc
        · left; simpa using hc
        · split at hc
          · right; left; simpa using hc
          · simp at hc
      · split at hc
        · right; right; simpa using hc
        · simp at hc

theorem step_unprotected_once (cm : CompressMode) (mc : List dsid_t) (s0 s1 s2 : State)
    (h : SchedStep cm mc s1 s2) (hI : UnprotectedOnce mc s0 s1) : UnprotectedOnce mc s0 s2 := by
  obtain ⟨hle, hcount⟩ := hI
  have hnew := step_unprotect cm mc s1 s2 h
  have hcalls : ∃ t, s2.calls = s1.calls ++ t ∧ ∀ k, t.count (Call.unprotect k) ≤ 1 := by
    cases h with
    | construct h hd => exact ⟨_, rfl, fun k => by simp [List.count_cons]⟩
    | byproduct b hb => exact ⟨_, rfl, fun k => by simp [List.count_cons]⟩
    | compress h hcm hm hd => exact ⟨_, rfl, fun k => by simp [List.count_cons]⟩
    | decrement r d hm =>
      refine ⟨_, dec_step_calls_eq cm mc r d s1, fun k => ?_⟩
      rw [List.count_append]
      have a : List.count (Call.unprotect k)
          (if d = 0 then [Call.discard r true]
            else if cm = CompressMode.delayed ∧ r ∈ mc ∧ d = 1 then [Call.compress r]
            else []) = 0 := by
        split
        · simp [List.count_cons]
        · split <;> simp [List.count_cons]
      have b : List.count (Call.unprotect k)
          (if d = 1 ∧ r ∉ mc then [Call.unprotect r] else []) ≤ 1 := by
        split
        · simp only [List.count_cons, List.count_nil]
          split <;> omega
        · simp
      omega
  obtain ⟨t, ht, hone⟩ := hcalls
  have hdegle : ∀ x, degree s2 x ≤ degree s1 x := by
    intro x
    cases h with
    | construct h hd => exact Nat.le_refl _
    | byproduct b hb => exact Nat.le_refl _
    | compress h hcm hm hd => exact Nat.le_refl _
    | decrement r d hm =>
      rw [degree_dec_step]
      by_cases hx : x = r
      · subst hx
        rw [degree_of_some hm]
        simp
      · simp [hx]
  refine ⟨fun x => Nat.le_trans (hdegle x) (hle x), fun k => ?_⟩
  have hk := hnew k
  rw [ht, List.drop_left] at hk
  rw [ht, List.count_append, hcount k]
  have h1 := hone k
  have h2 := hle k
  have h3 := hdegle k
  by_cases hin : Call.unprotect k ∈ t
  · have hpos : 0 < t.count (Call.unprotect k) := List.count_pos_iff.2 hin
    obtain ⟨hkm, hd1, hd2⟩ := hk.1 hin
    have e1 : ¬ (k ∉ mc ∧ 2 ≤ degree s0 k ∧ degree s1 k ≤ 1) := by omega
    have e2 : k ∉ mc ∧ 2 ≤ degree s0 k ∧ degree s2 k ≤ 1 := ⟨hkm, by omega, by omega⟩
    rw [if_neg e1, if_pos e2]
    omega
  · have hzero : t.count (Call.unprotect k) = 0 := List.count_eq_zero_of_not_mem hin
    have hnot : ¬ (k ∉ mc ∧ degree s1 k = 2 ∧ degree s2 k = 1) := fun hc => hin (hk.2 hc)
    have hdiff : degree s1 k = degree s2 k ∨ degree s1 k = degree s2 k + 1 := by
      cases h with
      | construct h hd => left; rfl
      | byproduct b hb => left; rfl
      | compress h hcm hm hd => left; rfl
      | decrement r d hm =>
        rw [degree_dec_step]
        by_cases hx : k = r
        · subst hx
          rw [degree_of_some hm]
          right
          simp
        · left
          simp [hx]
    rw [hzero]
    by_cases hkm : k ∈ mc
    · simp [hkm]
    · have hn : ¬ (degree s1 k = 2 ∧ degree s2 k = 1) := fun hc => hnot ⟨hkm, hc⟩
      by_cases c1 : 2 ≤ degree s0 k ∧ degree s1 k ≤ 1
      · have c2 : 2 ≤ degree s0 k ∧ degree s2 k ≤ 1 := ⟨c1.1, by omega⟩
        simp [hkm, c1, c2]
      · have c2 : ¬ (2 ≤ degree s0 k ∧ degree s2 k ≤ 1) := by
          intro hc
          apply c1
          refine ⟨hc.1, ?_⟩
          rcases hdiff with e | e
          · omega
          · by_contra hgt
            apply hn
            omega
        simp [hkm, c1, c2]

theorem init_protected {P : dsid_t → Nat} {s0 : State} (h : InitRel P State.init s0)
    (k : dsid_t) :
    (protected_after k s0.calls = true ↔ 2 ≤ degree s0 k) ∧
    (Call.protect k ∈ s0.calls ↔ 2 ≤ degree s0 k) ∧
    s0.calls.count (Call.unprotect k) = 0 := by
  have hkind := fun c (hc : c ∈ s0.calls) => init_calls_kind h hc
  obtain ⟨_, _, t, ht, _, hprot, _⟩ := h
  simp only [State.init, List.nil_append] at ht
  have hp := hprot k
  rw [degree_init] at hp
  have hnu : Call.unprotect k ∉ s0.calls := by
    intro hc
    rcases hkind _ hc with ⟨y, hy⟩ | ⟨y, hy⟩ <;> simp at hy
  have hmem : Call.protect k ∈ s0.calls ↔ 2 ≤ degree s0 k := by
    rw [ht, ← List.count_pos_iff]
    omega
  refine ⟨?_, hmem, List.count_eq_zero_of_not_mem hnu⟩
  unfold protected_after
  rw [protected_fold k s0.calls false hnu, ← hmem]
  simp

/-! ## Paths and ranks -/

theorem paths_from_pos (reg : Registry) (fuel : Nat) (L : List dsid_t) (k : dsid_t)
    (h : 0 < paths_from reg fuel L k) : ∃ r ∈ L, 0 < num_paths reg fuel r k := by
  induction L with
  | nil => simp [paths_from] at h
  | cons a t ih =>
    rw [paths_from_cons] at h
    by_cases ha : 0 < num_paths reg fuel a k
    · exact ⟨a, by simp, ha⟩
    · obtain ⟨r, hr, hp⟩ := ih (by omega)
      exact ⟨r, by simp [hr], hp⟩

theorem rank_lt_of_path (reg : Registry) (rank : dsid_t → Nat) (hr : reg.RankedBy rank)
    (k : dsid_t) : ∀ f q, q ≠ k → 0 < num_paths reg f q k → rank k < rank q := by
  intro f
  induction f with
  | zero =>
    intro q hne hpos
    simp [num_paths, hne] at hpos
  | succ f ih =>
    intro q hne hpos
    rw [num_paths_succ] at hpos
    simp only [hne, if_false, Nat.zero_add] at hpos
    obtain ⟨r, hmem, hrp⟩ := paths_from_pos reg f (reg.requirements q) k hpos
    have hrq := hr q r hmem
    by_cases hrk : r = k
    · subst hrk
      exact hrq
    · have h1 := ih r hrk hrp
      omega

theorem paths_from_append (reg : Registry) (fuel : Nat) (l1 l2 : List dsid_t) (x : dsid_t) :
    paths_from reg fuel (l1 ++ l2) x = paths_from reg fuel l1 x + paths_from reg fuel l2 x := by
  simp [paths_from]

theorem _construction_order_sorted (reg : Registry) (rank : dsid_t → Nat)
    (hr : reg.RankedBy rank) (fuel : Nat) (seq order : List dsid_t)
    (hfuel : ∀ k ∈ seq, rank k < fuel) (ho : construction_order reg fuel seq = some order) :
    order.Pairwise (fun a b => costN reg fuel a ≥ costN reg fuel b) := by
  have heq := _construction_order_eq reg rank hr fuel seq hfuel
  simp only [costN_eq] at heq
  have ho' : _construction_order reg fuel seq = some order := ho
  rw [heq] at ho'
  simp only [Option.some.injEq] at ho'
  haveI htot : IsTotal dsid_t
      (fun a b => decide (costN reg fuel a ≥ costN reg fuel b) = true) :=
    ⟨fun a b => by simp only [decide_eq_true_eq]; omega⟩
  haveI htr : IsTrans dsid_t
      (fun a b => decide (costN reg fuel a ≥ costN reg fuel b) = true) :=
    ⟨fun a b c => by simp only [decide_eq_true_eq]; omega⟩
  have hs := List.sorted_insertionSort
    (fun a b => decide (costN reg fuel a ≥ costN reg fuel b) = true) seq
  rw [ho'] at hs
  exact List.Pairwise.imp (fun h => by simpa using h) hs

theorem top_level_split (reg : Registry) (rank : dsid_t → Nat) (hr : reg.RankedBy rank)
    (cm : CompressMode) (mc : List dsid_t) (fuel : Nat) (L1 L2 : List dsid_t) (k : dsid_t)
    (s0 s : State) (hfuel : ∀ q ∈ L1 ++ k :: L2, rank q < fuel)
    (hpre : ∀ x, paths_from reg fuel (L1 ++ k :: L2) x ≤ degree s0 x)
    (hrun : construct_recursive reg cm mc fuel true (L1 ++ k :: L2) s0 = .ok s) :
    ∃ sA sB, construct_recursive reg cm mc fuel true L1 s0 = .ok sA ∧
      DecRel (dec_from reg fuel L1) s0 sA ∧
      (∀ x, num_paths reg fuel k x ≤ degree sA x) ∧
      construct_head reg cm mc fuel true k sA = .ok sB ∧
      DecRel (fun x => num_paths reg fuel k x - (if k = x then 1 else 0)) sA sB ∧
      (∀ x, paths_from reg fuel L2 x ≤ degree sB x) ∧
      construct_recursive reg cm mc fuel true L2 sB = .ok s := by
  have hsplit : ∀ x, paths_from reg fuel (L1 ++ k :: L2) x =
      paths_from reg fuel L1 x + (num_paths reg fuel k x + paths_from reg fuel L2 x) := by
    intro x
    rw [paths_from_append, paths_from_cons]
  obtain ⟨sA, hsA, hrelA⟩ := construct_recursive_ok reg rank hr cm mc fuel true L1
    (fun q hq => hfuel q (by simp [hq])) s0 (fun x => by
      have := hpre x
      rw [hsplit] at this
      omega)
  have hpreA : ∀ x, num_paths reg fuel k x + paths_from reg fuel L2 x ≤ degree sA x := by
    intro x
    have a := hpre x
    have b := hrelA.1 x
    have c := count_le_paths_from reg fuel L1 x
    rw [hsplit] at a
    unfold dec_from at b
    omega
  obtain ⟨sB, hsB, hrelB⟩ := construct_head_ok reg rank hr cm mc fuel true k sA
    (hfuel k (by simp)) (fun x => by have := hpreA x; omega)
  refine ⟨sA, sB, hsA, hrelA, fun x => by have := hpreA x; omega, hsB, hrelB, fun x => ?_, ?_⟩
  · have a := hpreA x
    have b := hrelB.1 x
    have c := delta_le_num_paths reg fuel k x
    simp only at b
    omega
  · unfold construct_recursive at hrun hsA ⊢
    rw [forSeq_append, hsA] at hrun
    simpa only [forSeq, hsB] using hrun

theorem possibly_compress_pos (mc : List dsid_t) (k : dsid_t) (s : State) (hk : k ∈ mc)
    (hd : degree s k = 1) : possibly_compress mc k s = s.call (.compress k) := by
  unfold possibly_compress
  rw [if_pos]
  exact ⟨by simpa [is_requested, contains_idx] using hk, hd⟩

theorem CompressPending.pending_refl (k : dsid_t) (s : State) : CompressPending k s s :=
  ⟨[], by simp, fun _ hc => by simp at hc, Nat.le_refl _, fun h => by omega⟩

theorem CompressPending.pending_trans {k : dsid_t} {s1 s2 s3 : State}
    (h12 : CompressPending k s1 s2) (h23 : CompressPending k s2 s3) :
    CompressPending k s1 s3 := by
  obtain ⟨t1, hc1, hn1, hle1, hp1⟩ := h12
  obtain ⟨t2, hc2, hn2, hle2, hp2⟩ := h23
  refine ⟨t1 ++ t2, by rw [hc2, hc1, List.append_assoc], fun c hc => ?_, by omega,
    fun hlt hone => ?_⟩
  · rcases List.mem_append.1 hc with h | h
    · exact hn1 c h
    · exact hn2 c h
  · by_cases h : degree s3 k < degree s2 k
    · rcases hp2 h hone with h2 | h2
      · exact Or.inl h2
      · exact Or.inr (List.mem_append.2 (Or.inr h2))
    · have he : degree s3 k = degree s2 k := by omega
      rcases hp1 (by omega) (by omega) with h2 | h2
      · exact Or.inl (by omega)
      · exact Or.inr (List.mem_append.2 (Or.inl h2))

theorem dec_step_compress_pending (mc : List dsid_t) (k : dsid_t) (hk : k ∈ mc) (r : dsid_t)
    (d : Nat) (s : State) (hm : s.m_degree r = some (d + 1)) :
    CompressPending k s (dec_step CompressMode.delayed mc r d s) := by
  have hdr : degree s r = d + 1 := degree_of_some hm
  refine ⟨_, dec_step_calls_eq CompressMode.delayed mc r d s, fun c hc => ?_, ?_,
    fun hlt hone => ?_⟩
  · simp only [List.mem_append] at hc
    rcases hc with hc | hc
    · split at hc
      · simp only [List.mem_singleton] at hc
        rw [hc]
        rfl
      · split at hc
        · simp only [List.mem_singleton] at hc
          rw [hc]
          rfl
        · simp at hc
    · split at hc
      · simp only [List.mem_singleton] at hc
        rw [hc]
        rfl
      · simp at hc
  · rw [degree_dec_step]
    split
    · rename_i hx
      rw [hx, hdr]
      omega
    · exact Nat.le_refl _
  · rw [degree_dec_step] at hlt hone ⊢
    by_cases hkr : k = r
    · subst hkr
      simp only [if_true] at hlt hone ⊢
      by_cases hd1 : d = 1
      · right
        have hd0 : ¬ d = 0 := by omega
        simp [hd0, hd1, hk]
      · left
        omega
    · simp only [hkr, if_false] at hlt
      omega

theorem decrease_degree_compress_pending (mc : List dsid_t) (k : dsid_t) (hk : k ∈ mc)
    (L : List dsid_t) (s s' : State)
    (h : decrease_degree CompressMode.delayed mc L s = .ok s') : CompressPending k s s' :=
  decrease_degree_induct CompressMode.delayed mc (CompressPending k)
    (CompressPending.pending_refl k) (fun _ _ _ a b => a.pending_trans b)
    (fun s r d hm => dec_step_compress_pending mc k hk r d s hm) L s s' h

theorem construct_count_of_not_construct (k : dsid_t) (t : List Call)
    (h : ∀ c ∈ t, is_construct_of k c = false) : construct_count k t = 0 := by
  unfold construct_count
  rw [List.countP_eq_zero]
  intro c hc
  simp [h c hc]

theorem eval_compress_follows (reg : Registry) (rank : dsid_t → Nat) (hr : reg.RankedBy rank)
    (mc : List dsid_t) (k : dsid_t) (hk : k ∈ mc) (fuel : Nat) (top : Bool)
    (L : List dsid_t) (s s' : State) (hfuel : ∀ q ∈ L, rank q < fuel)
    (hpre : ∀ x, paths_from reg fuel L x ≤ degree s x)
    (hrun : construct_recursive reg CompressMode.delayed mc fuel top L s = .ok s') :
    CompressFollows k L s s' := by
  refine construct_recursive_induct reg rank hr CompressMode.delayed mc
    (fun _ L s s' => CompressFollows k L s s') ?_ ?_ ?_ fuel top L s s' hfuel hpre hrun
  · intro _ s
    exact ⟨[], by simp, Nat.le_refl _, fun _ => rfl, fun h => by simp at h,
      fun _ h => by simp [construct_count] at h⟩
  · rintro _ h t s1 s2 s3 ⟨t1, hc1, hle1, hz1, hm1, hf1⟩ ⟨t2, hc2, hle2, hz2, hm2, hf2⟩
    refine ⟨t1 ++ t2, by rw [hc2, hc1, List.append_assoc], by omega, fun h0 => ?_,
      fun hin => ?_, fun hone hpos => ?_⟩
    · rw [construct_count_append] at h0
      rw [hz2 (by omega), hz1 (by omega)]
    · rw [construct_count_append]
      rcases List.mem_cons.1 hin with e | e
      · have := hm1 (by simp [e])
        omega
      · have := hm2 e
        omega
    · rw [construct_count_append] at hpos
      by_cases h2 : 0 < construct_count k t2
      · rcases hf2 hone h2 with ⟨pre, post, hsplit, hpost⟩ | hd | hin
        · exact Or.inl ⟨t1 ++ pre, post, by rw [hsplit, List.append_assoc], hpost⟩
        · exact Or.inr (Or.inl hd)
        · exact Or.inr (Or.inr (List.mem_cons_of_mem _ hin))
      · have h20 : construct_count k t2 = 0 := by omega
        have he := hz2 h20
        rcases hf1 (by omega) (by omega) with ⟨pre, post, hsplit, hpost⟩ | hd | hin
        · refine Or.inl ⟨pre, post ++ t2, by rw [hsplit]; simp, ?_⟩
          rw [construct_count_append, hpost, h20]
        · exact Or.inr (Or.inl (by omega))
        · simp only [List.mem_singleton] at hin
          exact Or.inr (Or.inr (by simp [hin]))
  · intro fuel top h order s s1 s4 _ _ hperm _ _ _ hrel1 _ ih h4
    obtain ⟨t1, hc1, hle1, hz1, hm1, hf1⟩ := ih
    obtain ⟨tdec, hcdec, hndec, hledec, hpdec⟩ :=
      decrease_degree_compress_pending mc k hk _ _ _ h4
    have hrel4 := decrease_degree_rel CompressMode.delayed mc _ _ _ h4
    have hdeg3 : degree (discard_byproducts (reg.provides h)
        (s1.call (.construct h (decide (CompressMode.delayed = CompressMode.compressed))))) k =
        degree s1 k := by
      rw [discard_byproducts_eq]
      rfl
    rw [hdeg3] at hledec hpdec
    have hcount4 := hrel4.1 k
    rw [hdeg3] at hcount4
    simp only at hcount4
    obtain ⟨tc, hctc, hkind⟩ : ∃ tc,
        (if CompressMode.delayed = CompressMode.delayed ∧ top = true
          then possibly_compress mc h s4 else s4).calls = s4.calls ++ tc ∧
        (tc = [] ∨ tc = [Call.compress h]) := by
      split
      · obtain ⟨tc, h1, h2⟩ := possibly_compress_calls mc h s4
        exact ⟨tc, h1, h2.imp id (fun x => x.1)⟩
      · exact ⟨[], by simp, Or.inl rfl⟩
    have hdegr : degree (if CompressMode.delayed = CompressMode.delayed ∧ top = true
        then possibly_compress mc h s4 else s4) k = degree s4 k := by
      split
      · exact degree_congr (possibly_compress_m_degree mc h s4) k
      · rfl
    have hbyp : construct_count k (byproduct_calls (reg.provides h) s1) = 0 := by
      apply construct_count_eq_zero
      intro c hc x f
      simp only [byproduct_calls, List.mem_map] at hc
      obtain ⟨b, _, hb⟩ := hc
      rw [← hb]
      simp
    have htc0 : construct_count k tc = 0 := by
      rcases hkind with e | e <;> rw [e] <;> rfl
    have hdec0 : construct_count k tdec = 0 := construct_count_of_not_construct k tdec hndec
    have hcalls : (if CompressMode.delayed = CompressMode.delayed ∧ top = true
        then possibly_compress mc h s4 else s4).calls =
        s.calls ++ (t1 ++ (Call.construct h
          (decide (CompressMode.delayed = CompressMode.compressed)) ::
          (byproduct_calls (reg.provides h) s1 ++ (tdec ++ tc)))) := by
      rw [hctc, hcdec, discard_byproducts_eq]
      simp only [State.call_calls, hc1, byproduct_calls, degree_call]
      simp
    have hcount : construct_count k (t1 ++ (Call.construct h
          (decide (CompressMode.delayed = CompressMode.compressed)) ::
          (byproduct_calls (reg.provides h) s1 ++ (tdec ++ tc)))) =
        construct_count k t1 + (if h = k then 1 else 0) := by
      rw [construct_count_append, construct_count_cons_construct, construct_count_append,
        construct_count_append, hbyp, hdec0, htc0]
      simp
    refine ⟨_, hcalls, by rw [hdegr]; omega, fun h0 => ?_, fun hin => ?_, fun hone hpos => ?_⟩
    · rw [hcount] at h0
      have hhk : h ≠ k := by
        intro e
        simp [e] at h0
      have hnot : k ∉ order := fun hin => by
        have := hm1 hin
        omega
      have hc0 : (reg.requirements h).count k = 0 :=
        List.count_eq_zero_of_not_mem (fun hin => hnot (hperm.mem_iff.2 hin))
      rw [hdegr, ← hz1 (by omega)]
      omega
    · simp only [List.mem_singleton] at hin
      rw [hcount]
      simp [hin]
    · by_cases hhk : h = k
      · exact Or.inr (Or.inr (by simp [hhk]))
      · rw [hcount] at hpos
        simp only [hhk, if_false, Nat.add_zero] at hpos
        rw [hdegr] at hone ⊢
        have hlater : construct_count k (Call.construct h
            (decide (CompressMode.delayed = CompressMode.compressed)) ::
            (byproduct_calls (reg.provides h) s1 ++ (tdec ++ tc))) = 0 := by
          rw [construct_count_cons_construct, construct_count_append, construct_count_append,
            hbyp, hdec0, htc0]
          simp [hhk]
        have hdrop : degree s4 k < degree s1 k →
            (∃ pre post, t1 ++ (Call.construct h
              (decide (CompressMode.delayed = CompressMode.compressed)) ::
              (byproduct_calls (reg.provides h) s1 ++ (tdec ++ tc))) =
                pre ++ Call.compress k :: post ∧ construct_count k post = 0) ∨
            2 ≤ degree s4 k ∨ k ∈ [h] := by
          intro hlt
          rcases hpdec hlt hone with h2 | h2
          · exact Or.inr (Or.inl h2)
          · obtain ⟨a, b, hab⟩ := List.append_of_mem h2
            refine Or.inl ⟨t1 ++ (Call.construct h
              (decide (CompressMode.delayed = CompressMode.compressed)) ::
              (byproduct_calls (reg.provides h) s1 ++ a)), b ++ tc, by rw [hab]; simp, ?_⟩
            have hb0 : construct_count k b = 0 :=
              construct_count_of_not_construct k b
                (fun c hc => hndec c (by rw [hab]; simp [hc]))
            rw [construct_count_append, htc0, hb0]
        rcases hf1 (by omega) hpos with ⟨pre, post, hsplit, hpost⟩ | hd | hin
        · refine Or.inl ⟨pre, post ++ (Call.construct h
            (decide (CompressMode.delayed = CompressMode.compressed)) ::
            (byproduct_calls (reg.provides h) s1 ++ (tdec ++ tc))), by rw [hsplit]; simp, ?_⟩
          rw [construct_count_append, hpost, hlater]
        · by_cases hlt : degree s4 k < degree s1 k
          · exact hdrop hlt
          · exact Or.inr (Or.inl (by omega))
        · have hin2 : k ∈ reg.requirements h := hperm.mem_iff.1 hin
          have hc1 : 0 < (reg.requirements h).count k := List.count_pos_iff.2 hin2
          exact hdrop (by omega)

theorem run_delayed_compress (reg : Registry) (rank : dsid_t → Nat) (hr : reg.RankedBy rank)
    (mc : List dsid_t) (hnd : mc.Nodup) (fuel : Nat) (hfuel : ∀ k ∈ mc, rank k < fuel)
    (k : dsid_t) (hk : k ∈ mc) :
    ∃ s pre post, DSDependencyGraph reg mc CompressMode.delayed fuel = .ok s ∧
      s.calls = pre ++ Call.compress k :: post ∧ construct_count k post = 0 := by
  obtain ⟨s0, order, s, t, hs0, hrel0, hperm, hrank, hpre, hs, hrun, _, _, _, hfin⟩ :=
    run_spec reg rank hr mc CompressMode.delayed fuel hfuel
  have hko : k ∈ order := hperm.mem_iff.2 hk
  obtain ⟨L1, L2, hL⟩ := List.append_of_mem hko
  have hndo : order.Nodup := hperm.nodup_iff.2 hnd
  rw [hL] at hndo hrank hpre hs
  have hk2 : k ∉ L2 := by
    have := (List.nodup_append.1 hndo).2.1
    exact (List.nodup_cons.1 this).1
  have hdegs : degree s k = 1 := by
    rw [hfin k]
    exact List.count_eq_one_of_mem hnd hk
  obtain ⟨sA, sB, hsA, hrelA, hpreA, hsB, hrelB, hpreB, hsL2⟩ :=
    top_level_split reg rank hr CompressMode.delayed mc fuel L1 L2 k s0 s hrank hpre hs
  obtain ⟨t2, hc2, _, hz2, _, hf2⟩ := eval_compress_follows reg rank hr mc k hk fuel true L2
    sB s (fun q hq => hrank q (by simp [hq])) hpreB hsL2
  by_cases h2 : 0 < construct_count k t2
  · rcases hf2 (by omega) h2 with ⟨pre, post, hsplit, hpost⟩ | hd | hin
    · exact ⟨s, sB.calls ++ pre, post, hrun, by rw [hc2, hsplit, List.append_assoc], hpost⟩
    · omega
    · exact absurd hin hk2
  · have h20 : construct_count k t2 = 0 := by omega
    have hdegB : degree sB k = 1 := by
      rw [← hz2 h20]
      exact hdegs
    have hfk := hrank k (by simp)
    obtain ⟨f, hf⟩ : ∃ f, fuel = f + 1 := ⟨fuel - 1, by omega⟩
    subst hf
    obtain ⟨order', s1, s4, _, _, _, _, _, _, _, _, _, hhead⟩ :=
      construct_head_decomp reg rank hr CompressMode.delayed mc f true k sA hfk hpreA
    rw [hhead] at hsB
    simp only [and_self, if_true, Except.ok.injEq] at hsB
    have hdeg4 : degree s4 k = 1 := by
      rw [← hsB, degree_congr (possibly_compress_m_degree mc k s4)] at hdegB
      exact hdegB
    rw [possibly_compress_pos mc k s4 hk hdeg4] at hsB
    refine ⟨s, s4.calls, t2, hrun, ?_, h20⟩
    rw [hc2, ← hsB]
    simp

/-- C12: in delayed mode a run over an acyclic registry with a duplicate-free
requested list returns, and for every requested `k` its calls contain a
`compress(k)` that has a `construct(k)` before it and no `construct(k)` after
it. -/
theorem C12_delayed_compression_reaches_requested (reg : Registry) (rank : dsid_t → Nat)
    (hr : reg.RankedBy rank) (m_construct : List dsid_t) (hnd : m_construct.Nodup)
    (fuel : Nat) (hfuel : ∀ k ∈ m_construct, rank k < fuel) :
    ∃ s, DSDependencyGraph reg m_construct CompressMode.delayed fuel = .ok s ∧
      ∀ k ∈ m_construct, ∃ pre post, s.calls = pre ++ Call.compress k :: post ∧
        0 < construct_count k pre ∧ ∀ c ∈ post, is_construct_of k c = false := by
  obtain ⟨s0, s, _, hrun, hcount⟩ :=
    run_construct_count reg rank hr m_construct CompressMode.delayed fuel hfuel
  refine ⟨s, hrun, fun k hk => ?_⟩
  obtain ⟨s', pre, post, hrun', hcalls, hpost⟩ :=
    run_delayed_compress reg rank hr m_construct hnd fuel hfuel k hk
  rw [hrun] at hrun'
  simp only [Except.ok.injEq] at hrun'
  subst hrun'
  refine ⟨pre, post, hcalls, ?_, ?_⟩
  · have a := (hcount k).1
    have b := (hcount k).2
    have c := count_le_paths_from reg fuel m_construct k
    have d : 0 < m_construct.count k := List.count_pos_iff.2 hk
    rw [hcalls, construct_count_append] at a
    have e : construct_count k (Call.compress k :: post) = construct_count k post := by
      simp [construct_count, List.countP_cons, is_construct_of]
    rw [e, hpost] at a
    omega
  · unfold construct_count at hpost
    rw [List.countP_eq_zero] at hpost
    intro c hc
    simpa using hpost c hc

/-- C12, at the example of section 8 with `A` requested as well. -/
theorem C12_delayed_compression_reaches_requested_witness :
    ∃ s, DSDependencyGraph regABC [0, 1, 2] CompressMode.delayed 2 = .ok s ∧
      ∀ k ∈ [0, 1, 2], ∃ pre post, s.calls = pre ++ Call.compress k :: post ∧
        0 < construct_count k pre ∧ ∀ c ∈ post, is_construct_of k c = false :=
  C12_delayed_compression_reaches_requested regABC rankABC regABC_ranked [0, 1, 2]
    (by decide) 2 (by decide)

/-! ## The compress mode handed to `construct` -/

/-- C13: a run over an acyclic registry returns, and every `construct` call it
issued carries the flag `true` exactly if the compress mode is `compressed`. -/
theorem C13_construct_flag_is_mode (reg : Registry) (rank : dsid_t → Nat)
    (hr : reg.RankedBy rank) (m_construct : List dsid_t) (cm : CompressMode) (fuel : Nat)
    (hfuel : ∀ k ∈ m_construct, rank k < fuel) :
    ∃ s, DSDependencyGraph reg m_construct cm fuel = .ok s ∧
      ∀ k want_compressed, Call.construct k want_compressed ∈ s.calls →
        (want_compressed = true ↔ cm = CompressMode.compressed) := by
  obtain ⟨s0, order, s, t, _, hrel0, _, hrank, hpre, hs, hrun, _, _, _, _⟩ :=
    run_spec reg rank hr m_construct cm fuel hfuel
  obtain ⟨t', ht', hall⟩ :=
    eval_calls_kind reg rank hr cm m_construct fuel true order s0 s hrank hpre hs
  refine ⟨s, hrun, fun k f hmem => ?_⟩
  rw [ht'] at hmem
  rcases List.mem_append.1 hmem with hm | hm
  · rcases init_calls_kind hrel0 hm with ⟨y, hy⟩ | ⟨y, hy⟩ <;> simp at hy
  · rcases hall _ hm with ⟨y, hy⟩ | ⟨y, hy⟩ | ⟨y, hy, _⟩ | ⟨y, hy, _⟩
    · simp only [Call.construct.injEq] at hy
      rw [hy.2]
      simp
    · simp at hy
    · simp at hy
    · simp at hy

/-- C13, at the example of section 8 in compressed mode. -/
theorem C13_construct_flag_is_mode_witness :
    ∃ s, DSDependencyGraph regABC [1, 2] CompressMode.compressed 2 = .ok s ∧
      ∀ k want_compressed, Call.construct k want_compressed ∈ s.calls →
        (want_compressed = true ↔ CompressMode.compressed = CompressMode.compressed) :=
  C13_construct_flag_is_mode regABC rankABC regABC_ranked [1, 2] CompressMode.compressed 2
    (by decide)

/-! ## The two errors of `decrease_degree` -/

theorem decrease_degree_append (cm : CompressMode) (mc : List dsid_t) :
    ∀ (l1 l2 : List dsid_t) (s s1 : State), decrease_degree cm mc l1 s = .ok s1 →
      decrease_degree cm mc (l1 ++ l2) s = decrease_degree cm mc l2 s1 := by
  intro l1
  induction l1 with
  | nil =>
    intro l2 s s1 h
    simp only [decrease_degree, Except.ok.injEq] at h
    subst h
    rfl
  | cons r t ih =>
    intro l2 s s1 h
    cases hm : s.m_degree r with
    | none => simp [decrease_degree, hm] at h
    | some v =>
      cases v with
      | zero => simp [decrease_degree, hm] at h
      | succ d =>
        rw [decrease_degree_cons cm mc r t s d hm] at h
        rw [List.cons_append, decrease_degree_cons cm mc r (t ++ l2) s d hm]
        exact ih l2 _ s1 h

/-- C14: `decrease_degree` raises an error exactly if it reaches an element
`Head` of its sequence, the elements before it having been handled without
error, that has no entry in the degree map (error "decrease degree for orphan
node" with the name of `Head`) or whose entry is zero (error "degree already
zero for node" with the name of `Head`); the state in which the error is raised
is the state in which `Head` was reached: the entry of `Head` is unchanged and
no manager call has been issued for it. -/
theorem C14_decrement_errors (cm : CompressMode) (m_construct : List dsid_t)
    (seq : List dsid_t) (s : State) (e : Fault × State) :
    (∀ name_for Head,
      (Fault.orphan Head).what name_for = "decrease degree for orphan node " ++ name_for Head ∧
      (Fault.already_zero Head).what name_for =
        "degree already zero for node " ++ name_for Head) ∧
    (decrease_degree cm m_construct seq s = .error e ↔
      ∃ l1 Head l2 s1, seq = l1 ++ Head :: l2 ∧
        decrease_degree cm m_construct l1 s = .ok s1 ∧
        ((s1.m_degree Head = none ∧ e = (Fault.orphan Head, s1)) ∨
         (s1.m_degree Head = some 0 ∧ e = (Fault.already_zero Head, s1)))) := by
  refine ⟨fun _ _ => ⟨rfl, rfl⟩, ?_⟩
  constructor
  · intro h
    induction seq generalizing s with
    | nil => simp [decrease_degree] at h
    | cons r t ih =>
      cases hm : s.m_degree r with
      | none =>
        simp only [decrease_degree, hm, Except.error.injEq] at h
        exact ⟨[], r, t, s, rfl, rfl, Or.inl ⟨hm, h.symm⟩⟩
      | some v =>
        cases v with
        | zero =>
          simp only [decrease_degree, hm, Except.error.injEq] at h
          exact ⟨[], r, t, s, rfl, rfl, Or.inr ⟨hm, h.symm⟩⟩
        | succ d =>
          rw [decrease_degree_cons cm m_construct r t s d hm] at h
          obtain ⟨l1, Head, l2, s1, hseq, hok, hcase⟩ := ih _ h
          refine ⟨r :: l1, Head, l2, s1, by rw [hseq]; rfl, ?_, hcase⟩
          rw [decrease_degree_cons cm m_construct r l1 s d hm]
          exact hok
  · rintro ⟨l1, Head, l2, s1, hseq, hok, hcase⟩
    rw [hseq, decrease_degree_append cm m_construct l1 (Head :: l2) s s1 hok]
    rcases hcase with ⟨hm, he⟩ | ⟨hm, he⟩
    · simp [decrease_degree, hm, he]
    · simp [decrease_degree, hm, he]

/-- C14, at a sequence whose second element has no entry: the first element is
handled (its degree drops to one and it is unprotected), then the error is
raised. -/
theorem C14_decrement_errors_witness :
    decrease_degree CompressMode.plain [] [0, 7] (State.init.store 0 2) =
      .error (Fault.orphan 7, ((State.init.store 0 2).store 0 1).call (Call.unprotect 0)) :=
  (C14_decrement_errors CompressMode.plain [] [0, 7] (State.init.store 0 2) _).2.2
    ⟨[0], 7, [], _, rfl, rfl, Or.inl ⟨rfl, rfl⟩⟩

/-! ## Termination, and what a requirement cycle does -/

theorem _cost_none (reg : Registry) (costOf : dsid_t → Option Nat) (ds x : dsid_t)
    (hx : costOf x = none) : ∀ req : List dsid_t, x ∈ req → _cost reg costOf ds req = none := by
  intro req
  induction req with
  | nil => intro h; simp at h
  | cons r t ih =>
    intro h
    rcases List.mem_cons.1 h with e | e
    · subst e
      simp [_cost, hx]
    · simp only [_cost, ih e]
      cases costOf r <;> rfl

theorem cost_self_none (reg : Registry) (X : dsid_t) (hX : X ∈ reg.requirements X) :
    ∀ fuel, cost reg fuel X = none := by
  intro fuel
  induction fuel with
  | zero => rfl
  | succ f ih =>
    simp only [cost]
    exact _cost_none reg (cost reg f) X X ih _ hX

theorem forSeq_error_of_mem (f : dsid_t → State → Run) (X : dsid_t)
    (hf : ∀ s, ∃ e, f X s = .error e) :
    ∀ (L : List dsid_t), X ∈ L → ∀ s, ∃ e, forSeq f L s = .error e := by
  intro L
  induction L with
  | nil => intro h; simp at h
  | cons a t ih =>
    intro h s
    cases hfa : f a s with
    | error e => exact ⟨e, by simp [forSeq, hfa]⟩
    | ok s1 =>
      rcases List.mem_cons.1 h with e | e
      · subst e
        obtain ⟨e', he'⟩ := hf s
        rw [hfa] at he'
        simp at he'
      · obtain ⟨e', he'⟩ := ih e s1
        exact ⟨e', by simp [forSeq, hfa, he']⟩

theorem forSeq_error_kind (f : dsid_t → State → Run) (Q : Fault × State → Prop)
    (hf : ∀ h s e, f h s = .error e → Q e) :
    ∀ (L : List dsid_t) (s : State) (e : Fault × State), forSeq f L s = .error e → Q e := by
  intro L
  induction L with
  | nil => intro s e h; simp [forSeq] at h
  | cons a t ih =>
    intro s e h
    cases hfa : f a s with
    | error e' =>
      simp only [forSeq, hfa, Except.error.injEq] at h
      subst h
      exact hf a s e' hfa
    | ok s1 =>
      simp only [forSeq, hfa] at h
      exact ih s1 e h

theorem init_degree_head_error (reg : Registry) :
    ∀ fuel h s e, init_degree_head reg fuel h s = .error e → e.1 = Fault.depth := by
  intro fuel
  induction fuel with
  | zero =>
    intro h s e he
    simp only [init_degree_head, Except.error.injEq] at he
    rw [← he]
  | succ f ih =>
    intro h s e he
    cases hseq : forSeq (init_degree_head reg f) (reg.requirements h)
        (s.call (.ensure_provider h)) with
    | error e' =>
      simp only [init_degree_head, hseq, Except.error.injEq] at he
      subst he
      exact forSeq_error_kind _ (fun e => e.1 = Fault.depth) ih _ _ _ hseq
    | ok s1 =>
      simp only [init_degree_head, hseq] at he
      cases hm : s1.m_degree h <;> simp [hm] at he

theorem init_degree_head_self (reg : Registry) (X : dsid_t) (hX : X ∈ reg.requirements X) :
    ∀ fuel s, ∃ e, init_degree_head reg fuel X s = .error e := by
  intro fuel
  induction fuel with
  | zero => intro s; exact ⟨_, rfl⟩
  | succ f ih =>
    intro s
    obtain ⟨e, he⟩ := forSeq_error_of_mem (init_degree_head reg f) X ih _ hX
      (s.call (.ensure_provider X))
    exact ⟨e, by simp [init_degree_head, he]⟩

/-- C15: over an acyclic registry the cost of every data structure is defined
and does not depend on the depth budget, once this exceeds the rank; the request
phase, the construction order and the evaluation phase return for every
requested list. In a registry in which `X` requires itself no depth budget yields
a cost for `X`, and a run that requests `X` returns for no depth budget: it ends
in the exhaustion of the recursion depth; such a registry has no topological
numbering. -/
theorem C15_termination (reg : Registry) (rank : dsid_t → Nat) (hr : reg.RankedBy rank)
    (m_construct : List dsid_t) (cm : CompressMode) (fuel : Nat)
    (hfuel : ∀ k ∈ m_construct, rank k < fuel)
    (reg' : Registry) (X : dsid_t) (hX : X ∈ reg'.requirements X)
    (m_construct' : List dsid_t) (hreq : X ∈ m_construct') :
    (∀ k, rank k < fuel → ∃ c, cost reg fuel k = some c ∧
      ∀ fuel', rank k < fuel' → cost reg fuel' k = some c) ∧
    (∃ s0 order s, init_degree reg fuel m_construct State.init = .ok s0 ∧
      construction_order reg fuel m_construct = some order ∧
      construct_recursive reg cm m_construct fuel true order s0 = .ok s ∧
      DSDependencyGraph reg m_construct cm fuel = .ok s) ∧
    (∀ fuel', cost reg' fuel' X = none) ∧
    (∀ fuel', ∃ s', init_degree reg' fuel' m_construct' State.init = .error (Fault.depth, s')) ∧
    (∀ fuel', ∃ s', DSDependencyGraph reg' m_construct' cm fuel' = .error (Fault.depth, s')) ∧
    ¬ reg'.Acyclic := by
  have hinit : ∀ fuel', ∃ s',
      init_degree reg' fuel' m_construct' State.init = .error (Fault.depth, s') := by
    intro fuel'
    obtain ⟨e, he⟩ := forSeq_error_of_mem (init_degree_head reg' fuel') X
      (init_degree_head_self reg' X hX fuel') m_construct' hreq State.init
    have hk := forSeq_error_kind _ (fun e => e.1 = Fault.depth)
      (init_degree_head_error reg' fuel') _ _ _ he
    refine ⟨e.2, ?_⟩
    unfold init_degree
    rw [he]
    congr 1
    exact Prod.ext hk rfl
  refine ⟨fun k hk => ?_, ?_, cost_self_none reg' X hX, hinit, fun fuel' => ?_, ?_⟩
  · obtain ⟨c, hc⟩ := cost_isSome reg rank hr fuel k hk
    exact ⟨c, hc, fun fuel' hk' => by rw [cost_fuel reg rank hr fuel' fuel k hk' hk, hc]⟩
  · obtain ⟨s0, order, s, hs0, _, ho, _, _, _, hs, _, hrun⟩ :=
      run_decomp reg rank hr m_construct cm fuel hfuel
    exact ⟨s0, order, s, hs0, ho, hs, hrun⟩
  · obtain ⟨s', hs'⟩ := hinit fuel'
    exact ⟨s', by simp [DSDependencyGraph, hs']⟩
  · rintro ⟨rank', hr'⟩
    have := hr' X X hX
    omega

/-- C15, at the example of section 8 and at a registry in which `X = 0`
requires itself. -/
theorem C15_termination_witness :
    (∀ k, rankABC k < 2 → ∃ c, cost regABC 2 k = some c ∧
      ∀ fuel', rankABC k < fuel' → cost regABC fuel' k = some c) ∧
    (∃ s0 order s, init_degree regABC 2 [1, 2] State.init = .ok s0 ∧
      construction_order regABC 2 [1, 2] = some order ∧
      construct_recursive regABC CompressMode.plain [1, 2] 2 true order s0 = .ok s ∧
      DSDependencyGraph regABC [1, 2] CompressMode.plain 2 = .ok s) ∧
    (∀ fuel', cost regSelf fuel' 0 = none) ∧
    (∀ fuel', ∃ s', init_degree regSelf fuel' [0] State.init = .error (Fault.depth, s')) ∧
    (∀ fuel', ∃ s',
      DSDependencyGraph regSelf [0] CompressMode.plain fuel' = .error (Fault.depth, s')) ∧
    ¬ regSelf.Acyclic :=
  C15_termination regABC rankABC regABC_ranked [1, 2] CompressMode.plain 2 (by decide)
    regSelf 0 (by decide) [0] (by decide)

/-! ## The request phase does not depend on the order -/

theorem num_paths_congr (reg1 reg2 : Registry)
    (hreq : ∀ k, (reg1.requirements k).Perm (reg2.requirements k)) (b : dsid_t) :
    ∀ f a, num_paths reg1 f a b = num_paths reg2 f a b := by
  intro f
  induction f with
  | zero => intro a; rfl
  | succ f ih =>
    intro a
    simp only [num_paths]
    congr 1
    have h1 : (reg1.requirements a).map (fun r => num_paths reg1 f r b) =
        (reg1.requirements a).map (fun r => num_paths reg2 f r b) :=
      List.map_congr_left (fun r _ => ih r)
    rw [h1]
    exact ((hreq a).map _).sum_eq

theorem m_degree_eq_of_degree {s1 s2 : State} (h1 : NoZero s1) (h2 : NoZero s2) (x : dsid_t)
    (h : degree s1 x = degree s2 x) : s1.m_degree x = s2.m_degree x := by
  cases hm1 : s1.m_degree x with
  | none =>
    cases hm2 : s2.m_degree x with
    | none => rfl
    | some d2 =>
      rw [degree_of_none hm1, degree_of_some hm2] at h
      exact absurd (h ▸ hm2) (h2 x)
  | some d1 =>
    cases hm2 : s2.m_degree x with
    | none =>
      rw [degree_of_some hm1, degree_of_none hm2] at h
      exact absurd (h ▸ hm1) (h1 x)
    | some d2 =>
      rw [degree_of_some hm1, degree_of_some hm2] at h
      rw [h]

theorem init_protect_count {P : dsid_t → Nat} {s0 : State} (h : InitRel P State.init s0)
    (k : dsid_t) : s0.calls.count (Call.protect k) = degree s0 k - 1 ∧
      s0.calls.count (Call.ensure_provider k) = degree s0 k := by
  obtain ⟨hd, _, t, ht, hens, hprot, _⟩ := h
  simp only [State.init, List.nil_append] at ht
  have hp := hprot k
  have hdk := hd k
  rw [degree_init] at hp hdk
  rw [ht]
  exact ⟨by omega, by rw [hens k]; omega⟩

/-- C16: over an acyclic registry the request phase yields the same degree map
and, for every data structure, the same number of `protect` calls, whatever the
order of the requested list and of the requirement lists. -/
theorem C16_request_phase_order_independent (reg1 reg2 : Registry) (rank : dsid_t → Nat)
    (hr : reg1.RankedBy rank)
    (hreq : ∀ k, (reg1.requirements k).Perm (reg2.requirements k))
    (seq1 seq2 : List dsid_t) (hperm : seq1.Perm seq2) (fuel : Nat)
    (hfuel : ∀ k ∈ seq1, rank k < fuel) :
    ∃ s1 s2, init_degree reg1 fuel seq1 State.init = .ok s1 ∧
      init_degree reg2 fuel seq2 State.init = .ok s2 ∧
      s1.m_degree = s2.m_degree ∧
      ∀ k, s1.calls.count (Call.protect k) = s2.calls.count (Call.protect k) := by
  have hr2 : reg2.RankedBy rank := fun k r hmem => hr k r ((hreq k).mem_iff.2 hmem)
  obtain ⟨s1, hs1, hrel1⟩ := init_degree_spec reg1 rank hr fuel seq1 hfuel State.init NoZero_init
  obtain ⟨s2, hs2, hrel2⟩ := init_degree_spec reg2 rank hr2 fuel seq2
    (fun k hk => hfuel k (hperm.mem_iff.2 hk)) State.init NoZero_init
  have hdeg : ∀ x, degree s1 x = degree s2 x := by
    intro x
    rw [hrel1.1 x, hrel2.1 x, paths_from_perm reg1 fuel hperm x]
    unfold paths_from
    congr 2
    exact List.map_congr_left (fun a _ => num_paths_congr reg1 reg2 hreq x fuel a)
  refine ⟨s1, s2, hs1, hs2, funext fun x => ?_, fun k => ?_⟩
  · exact m_degree_eq_of_degree hrel1.2.1 hrel2.2.1 x (hdeg x)
  · rw [(init_protect_count hrel1 k).1, (init_protect_count hrel2 k).1, hdeg k]

theorem regFan_ranked : regFan.RankedBy rankChain := by
  intro k r hmem
  simp only [regFan] at hmem
  split at hmem
  · rename_i hk
    simp only [List.mem_singleton] at hmem
    subst hmem
    subst hk
    simp [rankChain]
  · split at hmem
    · rename_i hk
      subst hk
      simp only [List.mem_cons, List.mem_singleton, List.not_mem_nil, or_false] at hmem
      rcases hmem with e | e <;> subst e <;> simp [rankChain]
    · simp at hmem

theorem regFan_swapped (k : dsid_t) :
    (regFan.requirements k).Perm (regFanSwapped.requirements k) := by
  simp only [regFan, regFanSwapped]
  split
  · exact List.Perm.refl _
  · split
    · exact List.Perm.swap 1 0 []
    · exact List.Perm.refl _

/-- C16, at `regFan` with the requested list `B, C` and at `regFanSwapped` with
the requested list `C, B`. -/
theorem C16_request_phase_order_independent_witness :
    ∃ s1 s2, init_degree regFan 3 [1, 2] State.init = .ok s1 ∧
      init_degree regFanSwapped 3 [2, 1] State.init = .ok s2 ∧
      s1.m_degree = s2.m_degree ∧
      ∀ k, s1.calls.count (Call.protect k) = s2.calls.count (Call.protect k) :=
  C16_request_phase_order_independent regFan regFanSwapped rankChain regFan_ranked
    regFan_swapped [1, 2] [2, 1] (List.Perm.swap 2 1 []) 3 (by decide)

/-! ## Degrees, paths and reachability -/

theorem requirement_paths_head (reg : Registry) :
    ∀ f ds, ∀ p ∈ requirement_paths reg f ds, ∃ tl, p = ds :: tl := by
  intro f
  induction f with
  | zero =>
    intro ds p hp
    simp only [requirement_paths, List.mem_singleton] at hp
    exact ⟨[], hp⟩
  | succ f _ =>
    intro ds p hp
    simp only [requirement_paths, List.mem_cons, List.mem_flatMap, List.mem_map] at hp
    rcases hp with e | ⟨r, _, q, _, e⟩
    · exact ⟨[], e⟩
    · exact ⟨q, e.symm⟩

theorem requirement_paths_chain (reg : Registry) :
    ∀ f ds, ∀ p ∈ requirement_paths reg f ds,
      p.Chain' (fun a b => b ∈ reg.requirements a) := by
  intro f
  induction f with
  | zero =>
    intro ds p hp
    simp only [requirement_paths, List.mem_singleton] at hp
    subst hp
    exact List.chain'_singleton ds
  | succ f ih =>
    intro ds p hp
    simp only [requirement_paths, List.mem_cons, List.mem_flatMap, List.mem_map] at hp
    rcases hp with e | ⟨r, hr, q, hq, e⟩
    · subst e
      exact List.chain'_singleton ds
    · subst e
      obtain ⟨tl, htl⟩ := requirement_paths_head reg f r q hq
      have hc := ih r q hq
      subst htl
      exact List.Chain'.cons hr hc

theorem num_paths_eq_countP (reg : Registry) (t : dsid_t) :
    ∀ f ds, num_paths reg f ds t = (requirement_paths reg f ds).countP (path_ends_at t) := by
  intro f
  induction f with
  | zero =>
    intro ds
    by_cases h : ds = t <;> simp [num_paths, requirement_paths, path_ends_at, h]
  | succ f ih =>
    intro ds
    rw [num_paths_succ]
    simp only [requirement_paths, List.countP_cons, List.countP_flatMap]
    have h1 : (if path_ends_at t [ds] = true then 1 else 0) = (if ds = t then 1 else 0) := by
      by_cases h : ds = t <;> simp [path_ends_at, h]
    rw [h1, Nat.add_comm]
    congr 1
    unfold paths_from
    congr 1
    apply List.map_congr_left
    intro r _
    rw [ih r]
    simp only [Function.comp, List.countP_map]
    apply List.countP_congr
    intro p hp
    obtain ⟨tl, htl⟩ := requirement_paths_head reg f r p hp
    subst htl
    simp [path_ends_at, List.getLast?_cons_cons]

theorem num_paths_le_paths_from (reg : Registry) (f : Nat) (L : List dsid_t) (r b : dsid_t)
    (h : r ∈ L) : num_paths reg f r b ≤ paths_from reg f L b := by
  induction L with
  | nil => simp at h
  | cons a t ih =>
    rw [paths_from_cons]
    rcases List.mem_cons.1 h with e | e
    · subst e; omega
    · have := ih e; omega

theorem reaches_of_num_paths (reg : Registry) (b : dsid_t) :
    ∀ f a, 0 < num_paths reg f a b → Reaches reg a b := by
  intro f
  induction f with
  | zero =>
    intro a h
    by_cases e : a = b
    · subst e; exact Reaches.here a
    · simp [num_paths, e] at h
  | succ f ih =>
    intro a h
    by_cases e : a = b
    · subst e; exact Reaches.here a
    · rw [num_paths_succ] at h
      simp only [e, if_false, Nat.zero_add] at h
      obtain ⟨r, hr, hp⟩ := paths_from_pos reg f (reg.requirements a) b h
      exact Reaches.step a r b hr (ih r hp)

theorem num_paths_of_reaches (reg : Registry) (rank : dsid_t → Nat) (hr : reg.RankedBy rank)
    {a b : dsid_t} (h : Reaches reg a b) : ∀ f, rank a ≤ f → 0 < num_paths reg f a b := by
  induction h with
  | here a =>
    intro f _
    have := delta_le_num_paths reg f a a
    simp only [if_true] at this
    omega
  | step a r b hmem _ ih =>
    intro f hf
    have hra := hr a r hmem
    cases f with
    | zero => omega
    | succ f =>
      rw [num_paths_succ]
      have h1 := ih f (by omega)
      have h2 := num_paths_le_paths_from reg f (reg.requirements a) r b hmem
      omega

/-- C19: the request phase over an acyclic registry returns, and then a
data structure has an entry in the degree map exactly if it is reachable from a
requested one along requirement edges (a requested one is reachable from
itself), and its degree is the number of requirement paths that start at a
requested data structure and end at it. -/
theorem C19_degree_counts_paths (reg : Registry) (rank : dsid_t → Nat)
    (hr : reg.RankedBy rank) (m_construct : List dsid_t) (fuel : Nat)
    (hfuel : ∀ k ∈ m_construct, rank k < fuel) :
    ∃ s0, init_degree reg fuel m_construct State.init = .ok s0 ∧
      (∀ q ∈ m_construct, ∀ p ∈ requirement_paths reg fuel q,
        p.head? = some q ∧ p.Chain' (fun a b => b ∈ reg.requirements a)) ∧
      ∀ k, (s0.m_degree k ≠ none ↔ ∃ q ∈ m_construct, Reaches reg q k) ∧
        degree s0 k =
          (m_construct.flatMap (requirement_paths reg fuel)).countP (path_ends_at k) := by
  obtain ⟨s0, hs0, hrel0⟩ :=
    init_degree_spec reg rank hr fuel m_construct hfuel State.init NoZero_init
  have hdeg : ∀ k, degree s0 k = paths_from reg fuel m_construct k := fun k => by
    have := hrel0.1 k
    rwa [degree_init, Nat.zero_add] at this
  refine ⟨s0, hs0, fun q _ p hp => ?_, fun k => ⟨?_, ?_⟩⟩
  · obtain ⟨tl, htl⟩ := requirement_paths_head reg fuel q p hp
    exact ⟨by rw [htl]; rfl, requirement_paths_chain reg fuel q p hp⟩
  · have hpos : s0.m_degree k ≠ none ↔ 0 < degree s0 k := by
      cases hm : s0.m_degree k with
      | none => simp [degree_of_none hm]
      | some d =>
        have := hrel0.2.1 k
        rw [hm] at this
        rw [degree_of_some hm]
        simp only [ne_eq, reduceCtorEq, not_false_eq_true, true_iff]
        by_contra h0
        exact this (by congr 1; omega)
    rw [hpos, hdeg k]
    constructor
    · intro h
      obtain ⟨q, hq, hp⟩ := paths_from_pos reg fuel m_construct k h
      exact ⟨q, hq, reaches_of_num_paths reg k fuel q hp⟩
    · rintro ⟨q, hq, hreach⟩
      have h1 := num_paths_of_reaches reg rank hr hreach fuel (by have := hfuel q hq; omega)
      have h2 := num_paths_le_paths_from reg fuel m_construct q k hq
      omega
  · rw [hdeg k, List.countP_flatMap]
    unfold paths_from
    congr 1
    apply List.map_congr_left
    intro q _
    exact num_paths_eq_countP reg k fuel q

/-- C19, at `regChain` with `C` and `D` requested: two paths end at `A`. -/
theorem C19_degree_counts_paths_witness :
    ([2, 3].flatMap (requirement_paths regChain 3)).filter (path_ends_at 0) =
      [[2, 1, 0], [3, 1, 0]] ∧
    ∃ s0, init_degree regChain 3 [2, 3] State.init = .ok s0 ∧
      (∀ q ∈ [2, 3], ∀ p ∈ requirement_paths regChain 3 q,
        p.head? = some q ∧ p.Chain' (fun a b => b ∈ regChain.requirements a)) ∧
      ∀ k, (s0.m_degree k ≠ none ↔ ∃ q ∈ [2, 3], Reaches regChain q k) ∧
        degree s0 k =
          ([2, 3].flatMap (requirement_paths regChain 3)).countP (path_ends_at k) :=
  ⟨by decide, C19_degree_counts_paths regChain rankChain regChain_ranked [2, 3] 3 (by decide)⟩

/-! ## Protection flags set by the request phase -/

/-- C20: when `init_degree` has handled the requirements of `Head`, it creates
the entry of `Head` with value one if there is none, and otherwise increments
the entry and calls `protect(Head)`. So after the request phase over an acyclic
registry `protect(k)` has been called `degree(k) - 1` times for every `k` with
an entry, `k` is protected exactly if its degree is at least two, and
`ensure_provider(k)` has been called `degree(k)` times, at least once for every
`k` with an entry. -/
theorem C20_request_phase_protection (reg : Registry) (rank : dsid_t → Nat)
    (hr : reg.RankedBy rank) (m_construct : List dsid_t) (fuel : Nat)
    (hfuel : ∀ k ∈ m_construct, rank k < fuel) :
    (∀ f Head s s1,
      forSeq (init_degree_head reg f) (reg.requirements Head)
        (s.call (.ensure_provider Head)) = .ok s1 →
      init_degree_head reg (f + 1) Head s =
        .ok (match s1.m_degree Head with
          | none => s1.store Head 1
          | some d => (s1.store Head (d + 1)).call (.protect Head))) ∧
    ∃ s0, init_degree reg fuel m_construct State.init = .ok s0 ∧
      ∀ k, s0.calls.count (Call.protect k) = degree s0 k - 1 ∧
        (protected_after k s0.calls = true ↔ 2 ≤ degree s0 k) ∧
        s0.calls.count (Call.ensure_provider k) = degree s0 k ∧
        (s0.m_degree k ≠ none → Call.ensure_provider k ∈ s0.calls) := by
  constructor
  · intro f Head s s1 h
    simp only [init_degree_head, h]
    cases s1.m_degree Head <;> rfl
  · obtain ⟨s0, hs0, hrel0⟩ :=
      init_degree_spec reg rank hr fuel m_construct hfuel State.init NoZero_init
    refine ⟨s0, hs0, fun k => ⟨(init_protect_count hrel0 k).1, (init_protected hrel0 k).1,
      (init_protect_count hrel0 k).2, fun hne => ?_⟩⟩
    rw [← List.count_pos_iff, (init_protect_count hrel0 k).2]
    cases hm : s0.m_degree k with
    | none => exact absurd hm hne
    | some d =>
      rw [degree_of_some hm]
      have := hrel0.2.1 k
      rw [hm] at this
      by_contra h0
      exact this (by congr 1; omega)

/-- C20, at the example of section 8: only `A` is protected. -/
theorem C20_request_phase_protection_witness :
    (∃ s0, init_degree regABC 2 [1, 2] State.init = .ok s0 ∧
      s0.calls.filter (fun c => c matches Call.protect _) = [Call.protect 0]) ∧
    (∀ f Head s s1,
      forSeq (init_degree_head regABC f) (regABC.requirements Head)
        (s.call (.ensure_provider Head)) = .ok s1 →
      init_degree_head regABC (f + 1) Head s =
        .ok (match s1.m_degree Head with
          | none => s1.store Head 1
          | some d => (s1.store Head (d + 1)).call (.protect Head))) ∧
    ∃ s0, init_degree regABC 2 [1, 2] State.init = .ok s0 ∧
      ∀ k, s0.calls.count (Call.protect k) = degree s0 k - 1 ∧
        (protected_after k s0.calls = true ↔ 2 ≤ degree s0 k) ∧
        s0.calls.count (Call.ensure_provider k) = degree s0 k ∧
        (s0.m_degree k ≠ none → Call.ensure_provider k ∈ s0.calls) :=
  ⟨⟨_, rfl, by decide⟩,
    C20_request_phase_protection regABC rankABC regABC_ranked [1, 2] 2 (by decide)⟩

/-! ## Changing the width of an `IntVector` over a directly stored type -/

/-- C17 (failing input): `width(w)` on an `IntVector` over a directly stored
element type returns without throwing and leaves the vector and its width as
they were; for instance `width(5)` on an `IntVector<uint32_t>` holding 1, 2, 3. -/
theorem C17_direct_width_does_not_throw :
    (∀ (v : IntVector) (w : Nat), v.set_width w = .ok v) ∧
    (⟨4, [1, 2, 3]⟩ : IntVector).set_width 5 = .ok ⟨4, [1, 2, 3]⟩ ∧
    (⟨4, [1, 2, 3]⟩ : IntVector).width = 32 :=
  ⟨fun _ _ => rfl, rfl, rfl⟩

/-! ## What the byproduct step discards -/

theorem discard_byproducts_new_calls (provides : List dsid_t) (sd : State) :
    (discard_byproducts provides sd).calls.drop sd.calls.length =
      byproduct_calls provides sd := by
  rw [discard_byproducts_eq]
  simp [byproduct_calls]

theorem mem_byproduct_calls (provides : List dsid_t) (sd : State) (b : dsid_t) :
    Call.discard b true ∈ byproduct_calls provides sd ↔ b ∈ provides ∧ degree sd b = 0 := by
  simp [byproduct_calls]

/-- C21 (counterexample): `B` requires `A`, `C` provides `A` and `3`, requested
are `B` and `C`. When `construct` of `C` returns, `A` is a member of
`provides(C)` and has an entry in the degree map, with value zero; the byproduct
step calls `discard(A)`. -/
theorem C21_counterexample :
    regBy.RankedBy rankABC ∧
    ∃ s0 s1 s, init_degree regBy 2 [1, 2] State.init = .ok s0 ∧
      construct_recursive regBy CompressMode.plain [1, 2] 2 true [1] s0 = .ok s1 ∧
      0 ∈ regBy.provides 2 ∧
      (s1.call (Call.construct 2 false)).m_degree 0 = some 0 ∧
      (discard_byproducts (regBy.provides 2) (s1.call (Call.construct 2 false))).calls =
        (s1.call (Call.construct 2 false)).calls ++
          [Call.discard 0 true, Call.discard 3 true] ∧
      DSDependencyGraph regBy [1, 2] CompressMode.plain 2 = .ok s ∧
      s.calls =
        (discard_byproducts (regBy.provides 2) (s1.call (Call.construct 2 false))).calls :=
  ⟨regBy_ranked, _, _, _, rfl, rfl, by decide, rfl, by decide, rfl, by decide⟩

/-- C21 (amended): the byproduct step calls `discard(b)` exactly for the members
`b` of `provides(k)` whose degree is zero in the state in which `construct(k)`
returned: a member with an entry of at least one is left alone, a member whose
entry has dropped to zero is discarded like one without an entry. In a run over
an acyclic registry the calls that follow a `construct(k)` are those of this
step, taken in a state with the calls up to that `construct(k)`. -/
theorem C21_byproduct_step_spares_positive_entries (reg : Registry) (rank : dsid_t → Nat)
    (hr : reg.RankedBy rank) (m_construct : List dsid_t) (cm : CompressMode) (fuel : Nat)
    (hfuel : ∀ k ∈ m_construct, rank k < fuel) :
    (∀ (provides : List dsid_t) (sd : State) (b : dsid_t),
      (Call.discard b true ∈ (discard_byproducts provides sd).calls.drop sd.calls.length ↔
        b ∈ provides ∧ degree sd b = 0) ∧
      (∀ d, sd.m_degree b = some (d + 1) →
        Call.discard b true ∉ (discard_byproducts provides sd).calls.drop sd.calls.length) ∧
      (b ∈ provides → sd.m_degree b = some 0 →
        Call.discard b true ∈ (discard_byproducts provides sd).calls.drop sd.calls.length)) ∧
    ∃ s0 s, init_degree reg fuel m_construct State.init = .ok s0 ∧
      DSDependencyGraph reg m_construct cm fuel = .ok s ∧
      ∀ pre c post k, s.calls = pre ++ Call.construct k c :: post →
        ∃ sd rest, sd.calls = pre ++ [Call.construct k c] ∧ SameKeys s0 sd ∧
          s.calls = (discard_byproducts (reg.provides k) sd).calls ++ rest := by
  constructor
  · intro provides sd b
    rw [discard_byproducts_new_calls, mem_byproduct_calls]
    refine ⟨Iff.rfl, fun d hd hc => ?_, fun hb h0 => ⟨hb, by simp [degree, h0]⟩⟩
    have := hc.2
    simp [degree, hd] at this
  · obtain ⟨s0, order, s, t, hs0, hrel0, _, hrank, hpre, hs, hrun, ht, _, _, _⟩ :=
      run_spec reg rank hr m_construct cm fuel hfuel
    obtain ⟨t', ht', _, hfollow⟩ :=
      eval_byproducts_follow reg rank hr cm m_construct fuel true order s0 s hrank hpre hs
    refine ⟨s0, s, hs0, hrun, ?_⟩
    intro pre c post k hsplit
    have hsplit0 := hsplit
    rw [ht'] at hsplit
    rcases split_append hsplit with ⟨post1, h1, _⟩ | ⟨pre2, h1, h2⟩
    · have hin : Call.construct k c ∈ s0.calls := by rw [h1]; simp
      rcases init_calls_kind hrel0 hin with ⟨y, hy⟩ | ⟨y, hy⟩ <;> simp at hy
    · obtain ⟨sd, rest, hsd, hkeys, hpost⟩ := hfollow pre2 c post k h2
      refine ⟨sd.call (Call.construct k c), rest, ?_, hkeys, ?_⟩
      · rw [State.call_calls, hsd, h1]
      · rw [hsplit0, discard_byproducts_eq, hpost]
        simp only [State.call_calls, hsd, h1, byproduct_calls, degree_call]
        simp

/-- C21 (amended), at the registry of the counterexample. -/
theorem C21_byproduct_step_spares_positive_entries_witness :
    (∀ (provides : List dsid_t) (sd : State) (b : dsid_t),
      (Call.discard b true ∈ (discard_byproducts provides sd).calls.drop sd.calls.length ↔
        b ∈ provides ∧ degree sd b = 0) ∧
      (∀ d, sd.m_degree b = some (d + 1) →
        Call.discard b true ∉ (discard_byproducts provides sd).calls.drop sd.calls.length) ∧
      (b ∈ provides → sd.m_degree b = some 0 →
        Call.discard b true ∈ (discard_byproducts provides sd).calls.drop sd.calls.length)) ∧
    ∃ s0 s, init_degree regBy 2 [1, 2] State.init = .ok s0 ∧
      DSDependencyGraph regBy [1, 2] CompressMode.delayed 2 = .ok s ∧
      ∀ pre c post k, s.calls = pre ++ Call.construct k c :: post →
        ∃ sd rest, sd.calls = pre ++ [Call.construct k c] ∧ SameKeys s0 sd ∧
          s.calls = (discard_byproducts (regBy.provides k) sd).calls ++ rest :=
  C21_byproduct_step_spares_positive_entries regBy rankABC regBy_ranked [1, 2]
    CompressMode.delayed 2 (by decide)


/-! ## The two errors are not reached by a run -/

theorem decrease_degree_reached (cm : CompressMode) (mc : List dsid_t) :
    ∀ (l1 : List dsid_t) (Head : dsid_t) (l2 : List dsid_t) (s s' : State),
      decrease_degree cm mc (l1 ++ Head :: l2) s = .ok s' →
      ∃ s1 d, decrease_degree cm mc l1 s = .ok s1 ∧ s1.m_degree Head = some (d + 1) := by
  intro l1
  induction l1 with
  | nil =>
    intro Head l2 s s' h
    cases hm : s.m_degree Head with
    | none => simp [decrease_degree, hm] at h
    | some v =>
      cases v with
      | zero => simp [decrease_degree, hm] at h
      | succ d => exact ⟨s, d, rfl, hm⟩
  | cons r t ih =>
    intro Head l2 s s' h
    cases hm : s.m_degree r with
    | none => simp [decrease_degree, hm] at h
    | some v =>
      cases v with
      | zero => simp [decrease_degree, hm] at h
      | succ d =>
        rw [List.cons_append, decrease_degree_cons cm mc r _ s d hm] at h
        obtain ⟨s1, d1, h1, h2⟩ := ih Head l2 _ s' h
        exact ⟨s1, d1, by rw [decrease_degree_cons cm mc r t s d hm]; exact h1, h2⟩

theorem step_degree_change (cm : CompressMode) (mc : List dsid_t) (a b : State)
    (h : SchedStep cm mc a b) (x : dsid_t) (hx : degree b x ≠ degree a x) :
    ∃ d, a.m_degree x = some (d + 1) ∧ b.m_degree x = some d := by
  cases h with
  | construct h hd => exact absurd rfl hx
  | byproduct k hd => exact absurd rfl hx
  | compress k hcm hk hd => exact absurd rfl hx
  | decrement r d hm =>
    rw [degree_dec_step] at hx
    split at hx
    · rename_i hxr
      subst hxr
      refine ⟨d, hm, ?_⟩
      rw [dec_step_m_degree]
      simp [State.store]
    · exact absurd rfl hx

theorem step_degree_le (cm : CompressMode) (mc : List dsid_t) (a b : State)
    (h : SchedStep cm mc a b) (x : dsid_t) : degree b x ≤ degree a x := by
  by_cases hx : degree b x = degree a x
  · omega
  · obtain ⟨d, h1, h2⟩ := step_degree_change cm mc a b h x hx
    rw [degree_of_some h1, degree_of_some h2]
    omega

/-- C23: a run over an acyclic registry returns, for every requested list and
every compress mode: the request phase, the construction order and the
evaluation phase yield a result, so the run ends in neither error of
`decrease_degree`. The evaluation is a sequence of steps in which a degree
changes only by a decrement of an entry that is at least one, so no degree
exceeds what the request phase left; and whenever `decrease_degree` returns, it
found every element of its sequence with an entry of at least one. -/
theorem C23_fatal_branches_unreachable (reg : Registry) (rank : dsid_t → Nat)
    (hr : reg.RankedBy rank) (m_construct : List dsid_t) (cm : CompressMode) (fuel : Nat)
    (hfuel : ∀ k ∈ m_construct, rank k < fuel) :
    (∃ s0 order s, init_degree reg fuel m_construct State.init = .ok s0 ∧
      construction_order reg fuel m_construct = some order ∧
      construct_recursive reg cm m_construct fuel true order s0 = .ok s ∧
      DSDependencyGraph reg m_construct cm fuel = .ok s ∧
      SchedSteps cm m_construct s0 s ∧
      (∀ s1, SchedSteps cm m_construct s0 s1 → ∀ x, degree s1 x ≤ degree s0 x)) ∧
    (∀ ds st, DSDependencyGraph reg m_construct cm fuel ≠ .error (Fault.orphan ds, st) ∧
      DSDependencyGraph reg m_construct cm fuel ≠ .error (Fault.already_zero ds, st)) ∧
    (∀ s1 s2, SchedStep cm m_construct s1 s2 → ∀ x, degree s2 x ≠ degree s1 x →
      ∃ d, s1.m_degree x = some (d + 1) ∧ s2.m_degree x = some d) ∧
    (∀ l1 Head l2 s s', decrease_degree cm m_construct (l1 ++ Head :: l2) s = .ok s' →
      ∃ s1 d, decrease_degree cm m_construct l1 s = .ok s1 ∧
        s1.m_degree Head = some (d + 1)) := by
  obtain ⟨s0, order, s, hs0, _, ho, _, hrank, hpre, hs, _, hrun⟩ :=
    run_decomp reg rank hr m_construct cm fuel hfuel
  have hsteps := eval_steps reg rank hr cm m_construct fuel true order s0 s hrank hpre hs
  refine ⟨⟨s0, order, s, hs0, ho, hs, hrun, hsteps, fun s1 h1 x => ?_⟩, fun ds st => ?_,
    step_degree_change cm m_construct, decrease_degree_reached cm m_construct⟩
  · exact steps_induct (fun s1 => degree s1 x ≤ degree s0 x)
      (fun a b hab ha => Nat.le_trans (step_degree_le cm m_construct a b hab x) ha) h1
      (Nat.le_refl _)
  · rw [hrun]
    exact ⟨fun h => Except.noConfusion h, fun h => Except.noConfusion h⟩

/-- C23, at `regChain` with `C` and `D` requested, in delayed mode. -/
theorem C23_fatal_branches_unreachable_witness :
    (∃ s0 order s, init_degree regChain 3 [2, 3] State.init = .ok s0 ∧
      construction_order regChain 3 [2, 3] = some order ∧
      construct_recursive regChain CompressMode.delayed [2, 3] 3 true order s0 = .ok s ∧
      DSDependencyGraph regChain [2, 3] CompressMode.delayed 3 = .ok s ∧
      SchedSteps CompressMode.delayed [2, 3] s0 s ∧
      (∀ s1, SchedSteps CompressMode.delayed [2, 3] s0 s1 → ∀ x,
        degree s1 x ≤ degree s0 x)) ∧
    (∀ ds st,
      DSDependencyGraph regChain [2, 3] CompressMode.delayed 3 ≠
        .error (Fault.orphan ds, st) ∧
      DSDependencyGraph regChain [2, 3] CompressMode.delayed 3 ≠
        .error (Fault.already_zero ds, st)) ∧
    (∀ s1 s2, SchedStep CompressMode.delayed [2, 3] s1 s2 → ∀ x,
      degree s2 x ≠ degree s1 x →
        ∃ d, s1.m_degree x = some (d + 1) ∧ s2.m_degree x = some d) ∧
    (∀ l1 Head l2 s s',
      decrease_degree CompressMode.delayed [2, 3] (l1 ++ Head :: l2) s = .ok s' →
      ∃ s1 d, decrease_degree CompressMode.delayed [2, 3] l1 s = .ok s1 ∧
        s1.m_degree Head = some (d + 1)) :=
  C23_fatal_branches_unreachable regChain rankChain regChain_ranked [2, 3]
    CompressMode.delayed 3 (by decide)


/-! ## The cost grows along requirement edges -/

theorem reaches_rank (reg : Registry) (rank : dsid_t → Nat) (hr : reg.RankedBy rank)
    {a b : dsid_t} (h : Reaches reg a b) : rank b ≤ rank a := by
  induction h with
  | here a => exact Nat.le_refl _
  | step a r b hmem _ ih =>
    have := hr a r hmem
    omega

/-! ## The cost counts the requirement paths -/

theorem requirement_paths_eq_cons (reg : Registry) (f : Nat) (ds : dsid_t) :
    ∃ rest, requirement_paths reg f ds = [ds] :: rest ∧ ∀ p ∈ rest, 2 ≤ p.length := by
  cases f with
  | zero => exact ⟨[], rfl, fun p hp => by simp at hp⟩
  | succ f =>
    refine ⟨_, rfl, fun p hp => ?_⟩
    simp only [List.mem_flatMap, List.mem_map] at hp
    obtain ⟨r, _, q, hq, hpq⟩ := hp
    obtain ⟨tl, htl⟩ := requirement_paths_head reg f r q hq
    rw [← hpq, htl]
    simp

theorem nonempty_paths_length (reg : Registry) (f : Nat) (ds : dsid_t) :
    nonempty_paths reg f ds + 1 = (requirement_paths reg f ds).length := by
  obtain ⟨rest, hrest, hall⟩ := requirement_paths_eq_cons reg f ds
  unfold nonempty_paths
  rw [hrest, List.countP_cons, List.length_cons]
  have h : rest.countP (fun p => decide (2 ≤ p.length)) = rest.length :=
    List.countP_eq_length.2 (fun p hp => by simpa using hall p hp)
  rw [h]
  simp

theorem sum_map_succ (R : List dsid_t) (a b : dsid_t → Nat) (h : ∀ r ∈ R, a r + 1 = b r) :
    R.length + (R.map a).sum = (R.map b).sum := by
  induction R with
  | nil => rfl
  | cons r t ih =>
    have h1 := h r (by simp)
    have h2 := ih (fun x hx => h x (by simp [hx]))
    simp only [List.length_cons, List.map_cons, List.sum_cons]
    omega

theorem nonempty_paths_succ (reg : Registry) (f : Nat) (ds : dsid_t) :
    nonempty_paths reg (f + 1) ds =
      in_degree reg ds + ((reg.requirements ds).map (nonempty_paths reg f)).sum := by
  have h := nonempty_paths_length reg (f + 1) ds
  have hlen : (requirement_paths reg (f + 1) ds).length =
      1 + ((reg.requirements ds).map (fun r => (requirement_paths reg f r).length)).sum := by
    simp only [requirement_paths, List.length_cons, List.length_flatMap, Function.comp_def,
      List.length_map]
    omega
  have hsum := sum_map_succ (reg.requirements ds) (nonempty_paths reg f)
    (fun r => (requirement_paths reg f r).length)
    (fun r _ => nonempty_paths_length reg f r)
  unfold in_degree
  omega

theorem _cost_sum (reg : Registry) (costOf : dsid_t → Option Nat) (g : dsid_t → Nat)
    (ds : dsid_t) : ∀ req : List dsid_t,
      (∀ r ∈ req, costOf r = some (g r % 2 ^ SIZE_BITS)) →
      _cost reg costOf ds req =
        some ((in_degree reg ds + (req.map g).sum) % 2 ^ SIZE_BITS) := by
  intro req
  induction req with
  | nil => intro _; simp [_cost]
  | cons r t ih =>
    intro h
    rw [_cost, h r (by simp), ih (fun x hx => h x (by simp [hx]))]
    simp only [List.map_cons, List.sum_cons, Option.some.injEq]
    rw [← Nat.add_mod]
    congr 1
    omega

theorem cost_eq_nonempty_paths (reg : Registry) (rank : dsid_t → Nat)
    (hr : reg.RankedBy rank) :
    ∀ f k, rank k < f → cost reg f k = some (nonempty_paths reg f k % 2 ^ SIZE_BITS) := by
  intro f
  induction f with
  | zero => intro k hk; omega
  | succ f ih =>
    intro k hk
    rw [cost, _cost_sum reg (cost reg f) (nonempty_paths reg f) k (reg.requirements k)
      (fun r hmem => ih r (by have := hr k r hmem; omega)), nonempty_paths_succ]

theorem nonempty_paths_fuel (reg : Registry) (rank : dsid_t → Nat) (hr : reg.RankedBy rank) :
    ∀ f1 f2 k, rank k < f1 → rank k < f2 →
      nonempty_paths reg f1 k = nonempty_paths reg f2 k := by
  intro f1
  induction f1 with
  | zero => intro f2 k h; omega
  | succ f1 ih =>
    intro f2 k h1 h2
    cases f2 with
    | zero => omega
    | succ f2 =>
      rw [nonempty_paths_succ, nonempty_paths_succ]
      congr 2
      apply List.map_congr_left
      intro r hmem
      have := hr k r hmem
      exact ih f2 r (by omega) (by omega)

theorem mem_le_sum_map (g : dsid_t → Nat) (L : List dsid_t) (r : dsid_t) (h : r ∈ L) :
    g r ≤ (L.map g).sum := by
  induction L with
  | nil => simp at h
  | cons a t ih =>
    simp only [List.map_cons, List.sum_cons]
    rcases List.mem_cons.1 h with e | e
    · rw [e]
      omega
    · have := ih e
      omega

theorem nonempty_paths_succ_le (reg : Registry) (rank : dsid_t → Nat)
    (hr : reg.RankedBy rank) (fuel : Nat) (q r : dsid_t) (hq : rank q < fuel)
    (hmem : r ∈ reg.requirements q) :
    nonempty_paths reg fuel r + 1 ≤ nonempty_paths reg fuel q := by
  cases fuel with
  | zero => omega
  | succ f =>
    have hrq := hr q r hmem
    rw [nonempty_paths_fuel reg rank hr (f + 1) f r (by omega) (by omega),
      nonempty_paths_succ reg f q]
    have h1 := mem_le_sum_map (nonempty_paths reg f) (reg.requirements q) r hmem
    have hin : 1 ≤ in_degree reg q := by
      unfold in_degree
      exact List.length_pos_of_mem hmem
    omega

theorem nonempty_paths_lt_of_path (reg : Registry) (rank : dsid_t → Nat)
    (hr : reg.RankedBy rank) (k : dsid_t) : ∀ f q, q ≠ k → 0 < num_paths reg f q k →
      ∀ F, rank q < F → nonempty_paths reg F k < nonempty_paths reg F q := by
  intro f
  induction f with
  | zero =>
    intro q hne hpos
    simp [num_paths, hne] at hpos
  | succ f ih =>
    intro q hne hpos F hF
    rw [num_paths_succ] at hpos
    simp only [hne, if_false, Nat.zero_add] at hpos
    obtain ⟨r, hmem, hrp⟩ := paths_from_pos reg f (reg.requirements q) k hpos
    have hrq := hr q r hmem
    have a := nonempty_paths_succ_le reg rank hr F q r hF hmem
    by_cases hrk : r = k
    · subst hrk
      omega
    · have b := ih r hrk hrp F (by omega)
      omega

theorem costN_of_small (reg : Registry) (rank : dsid_t → Nat) (hr : reg.RankedBy rank)
    (F : Nat) (k : dsid_t) (hk : rank k < F) (h : nonempty_paths reg F k < 2 ^ SIZE_BITS) :
    costN reg F k = nonempty_paths reg F k := by
  unfold costN
  rw [cost_eq_nonempty_paths reg rank hr F k hk, Option.getD_some, Nat.mod_eq_of_lt h]

theorem costN_lt_of_path (reg : Registry) (rank : dsid_t → Nat) (hr : reg.RankedBy rank)
    (k : dsid_t) (f : Nat) (q : dsid_t) (hne : q ≠ k) (hpos : 0 < num_paths reg f q k)
    (F : Nat) (hF : rank q < F) (hsize : nonempty_paths reg F q < 2 ^ SIZE_BITS) :
    costN reg F k < costN reg F q := by
  have hlt := nonempty_paths_lt_of_path reg rank hr k f q hne hpos F hF
  have hrk := rank_lt_of_path reg rank hr k f q hne hpos
  rw [costN_of_small reg rank hr F q hF hsize,
    costN_of_small reg rank hr F k (by omega) (by omega)]
  exact hlt

theorem sum_map_indicator (vs : List dsid_t) (W : dsid_t → Nat) (k : dsid_t)
    (hnd : vs.Nodup) (hk : k ∈ vs) :
    (vs.map (fun v => (if k = v then 1 else 0) * W v)).sum = W k := by
  induction vs with
  | nil => simp at hk
  | cons v t ih =>
    have hnd2 := List.nodup_cons.1 hnd
    simp only [List.map_cons, List.sum_cons]
    by_cases hkv : k = v
    · subst hkv
      have hz : (t.map (fun v => (if k = v then 1 else 0) * W v)).sum = 0 := by
        apply List.sum_eq_zero
        intro x hx
        simp only [List.mem_map] at hx
        obtain ⟨y, hy, hxy⟩ := hx
        have : k ≠ y := fun e => hnd2.1 (e ▸ hy)
        simp [this] at hxy
        exact hxy.symm
      rw [hz]
      simp
    · have hkt : k ∈ t := by
        rcases List.mem_cons.1 hk with h | h
        · exact absurd h hkv
        · exact h
      rw [ih hnd2.2 hkt]
      simp [hkv]

theorem sum_map_swap (vs R : List dsid_t) (g : dsid_t → dsid_t → Nat) (W : dsid_t → Nat) :
    (vs.map (fun v => (R.map (fun r => g r v)).sum * W v)).sum =
      (R.map (fun r => (vs.map (fun v => g r v * W v)).sum)).sum := by
  induction R with
  | nil => simp
  | cons r t ih =>
    simp only [List.map_cons, List.sum_cons, Nat.add_mul]
    rw [List.sum_map_add, ih]

theorem sum_paths_eq_nonempty_paths (reg : Registry) (rank : dsid_t → Nat)
    (hr : reg.RankedBy rank) (vs : List dsid_t) (hnd : vs.Nodup) :
    ∀ f k, rank k < f → (∀ v, Reaches reg k v → v ∈ vs) →
      (vs.map (fun v => num_paths reg f k v * in_degree reg v)).sum =
        nonempty_paths reg f k := by
  intro f
  induction f with
  | zero => intro k hk; omega
  | succ f ih =>
    intro k hk hvs
    have h1 : (vs.map (fun v => num_paths reg (f + 1) k v * in_degree reg v)).sum =
        (vs.map (fun v => (if k = v then 1 else 0) * in_degree reg v)).sum +
        (vs.map (fun v => ((reg.requirements k).map (fun r => num_paths reg f r v)).sum *
          in_degree reg v)).sum := by
      rw [← List.sum_map_add]
      congr 1
      apply List.map_congr_left
      intro v _
      rw [num_paths_succ, Nat.add_mul]
      rfl
    rw [h1, sum_map_indicator vs (in_degree reg) k hnd (hvs k (Reaches.here k)), sum_map_swap,
      nonempty_paths_succ]
    congr 2
    apply List.map_congr_left
    intro r hmem
    exact ih r (by have := hr k r hmem; omega)
      (fun v hv => hvs v (Reaches.step k r v hmem hv))

theorem requirement_paths_complete (reg : Registry) (rank : dsid_t → Nat)
    (hr : reg.RankedBy rank) :
    ∀ f k, rank k < f → ∀ tl : List dsid_t,
      (k :: tl).Chain' (fun a b => b ∈ reg.requirements a) →
      k :: tl ∈ requirement_paths reg f k := by
  intro f
  induction f with
  | zero => intro k hk; omega
  | succ f ih =>
    intro k hk tl hchain
    cases tl with
    | nil => simp [requirement_paths]
    | cons r tl2 =>
      have hc := List.chain'_cons.1 hchain
      have hrk := hr k r hc.1
      simp only [requirement_paths, List.mem_cons, List.mem_flatMap, List.mem_map]
      exact Or.inr ⟨r, hc.1, r :: tl2, ih r (by omega) tl2 hc.2, rfl⟩


theorem regDiamond_ranked : regDiamond.RankedBy rankDiamond := by
  intro k r hmem
  simp only [regDiamond] at hmem
  split at hmem
  · rename_i hk
    simp only [List.mem_singleton] at hmem
    subst hmem
    subst hk
    decide
  · split at hmem
    · rename_i hk0 hk
      simp only [List.mem_singleton] at hmem
      subst hmem
      rcases hk with hk | hk <;> subst hk <;> decide
    · split at hmem
      · rename_i hk
        subst hk
        simp only [List.mem_cons, List.mem_singleton, List.not_mem_nil, or_false] at hmem
        rcases hmem with h | h <;> subst h <;> decide
      · simp at hmem

theorem regDiamond_closed {a v : dsid_t} (h : Reaches regDiamond a v) : a ≤ 4 → v ≤ 4 := by
  induction h with
  | here a => exact id
  | step a r b hmem _ ih =>
    intro _
    apply ih
    simp only [regDiamond] at hmem
    split at hmem
    · simp only [List.mem_singleton] at hmem
      subst hmem
      decide
    · split at hmem
      · simp only [List.mem_singleton] at hmem
        subst hmem
        decide
      · split at hmem
        · simp only [List.mem_cons, List.mem_singleton, List.not_mem_nil, or_false] at hmem
          rcases hmem with h | h <;> subst h <;> decide
        · simp at hmem

/-- C25 (amended): in an acyclic registry the cost of `k` is the number of
requirement paths that start at `k` and have at least one edge, taken modulo
`2 ^ SIZE_BITS`; it is that number itself when the number is below
`2 ^ SIZE_BITS`. The paths enumerated are exactly the sequences that start at
`k` and follow requirement edges. Their number is the sum, over the data
structures `v` of any duplicate-free list that holds all that is reachable from
`k`, of the number of paths from `k` to `v` times `in_degree(v)`: a `v` reached
along several paths counts once per path. -/
theorem C25_cost_counts_paths (reg : Registry) (rank : dsid_t → Nat)
    (hr : reg.RankedBy rank) (fuel : Nat) (k : dsid_t) (hk : rank k < fuel)
    (vs : List dsid_t) (hnd : vs.Nodup) (hvs : ∀ v, Reaches reg k v → v ∈ vs) :
    cost reg fuel k = some (nonempty_paths reg fuel k % 2 ^ SIZE_BITS) ∧
    (nonempty_paths reg fuel k < 2 ^ SIZE_BITS →
      cost reg fuel k = some (nonempty_paths reg fuel k)) ∧
    nonempty_paths reg fuel k =
      (requirement_paths reg fuel k).countP (fun p => decide (2 ≤ p.length)) ∧
    (∀ p, p ∈ requirement_paths reg fuel k ↔
      (p.head? = some k ∧ p.Chain' (fun a b => b ∈ reg.requirements a))) ∧
    nonempty_paths reg fuel k =
      (vs.map (fun v => num_paths reg fuel k v * in_degree reg v)).sum ∧
    (∀ v, num_paths reg fuel k v =
      (requirement_paths reg fuel k).countP (path_ends_at v)) := by
  have hcost := cost_eq_nonempty_paths reg rank hr fuel k hk
  refine ⟨hcost, fun hlt => by rw [hcost, Nat.mod_eq_of_lt hlt], rfl,
    fun p => ⟨fun hp => ?_, ?_⟩,
    (sum_paths_eq_nonempty_paths reg rank hr vs hnd fuel k hk hvs).symm,
    fun v => num_paths_eq_countP reg v fuel k⟩
  · obtain ⟨tl, htl⟩ := requirement_paths_head reg fuel k p hp
    exact ⟨by rw [htl]; rfl, requirement_paths_chain reg fuel k p hp⟩
  · rintro ⟨hhead, hchain⟩
    cases p with
    | nil => simp at hhead
    | cons a tl =>
      simp only [List.head?_cons, Option.some.injEq] at hhead
      subst hhead
      exact requirement_paths_complete reg rank hr fuel a hk tl hchain

/-- C25 (amended), at `regDiamond` and `D`: the cost is six, `A` and `E` are
reached along two paths each. -/
theorem C25_cost_counts_paths_witness :
    (cost regDiamond 4 3 = some 6 ∧ num_paths regDiamond 4 3 0 = 2 ∧
      num_paths regDiamond 4 3 4 = 2 ∧
      (requirement_paths regDiamond 4 3).filter (fun p => decide (2 ≤ p.length)) =
        [[3, 1], [3, 1, 0], [3, 1, 0, 4], [3, 2], [3, 2, 0], [3, 2, 0, 4]]) ∧
    (cost regDiamond 4 3 = some (nonempty_paths regDiamond 4 3 % 2 ^ SIZE_BITS) ∧
    (nonempty_paths regDiamond 4 3 < 2 ^ SIZE_BITS →
      cost regDiamond 4 3 = some (nonempty_paths regDiamond 4 3)) ∧
    nonempty_paths regDiamond 4 3 =
      (requirement_paths regDiamond 4 3).countP (fun p => decide (2 ≤ p.length)) ∧
    (∀ p, p ∈ requirement_paths regDiamond 4 3 ↔
      (p.head? = some 3 ∧ p.Chain' (fun a b => b ∈ regDiamond.requirements a))) ∧
    nonempty_paths regDiamond 4 3 =
      ([0, 1, 2, 3, 4].map (fun v => num_paths regDiamond 4 3 v * in_degree regDiamond v)).sum ∧
    (∀ v, num_paths regDiamond 4 3 v =
      (requirement_paths regDiamond 4 3).countP (path_ends_at v))) :=
  ⟨by decide,
    C25_cost_counts_paths regDiamond rankDiamond regDiamond_ranked 4 3 (by decide)
      [0, 1, 2, 3, 4] (by decide)
      (fun v hv => by
        have := regDiamond_closed hv (by decide)
        interval_cases v <;> simp)⟩

/-- C24 (amended): in an acyclic registry the cost of a data structure that has
fewer than `2 ^ SIZE_BITS` requirement paths with at least one edge is at least
the cost of each of its requirements plus one. So the construction order of a
sequence of such data structures places a member in front of every member it
requires, directly or through other data structures: no occurrence of it comes
after one of those. -/
theorem C24_cost_strictly_monotone (reg : Registry) (rank : dsid_t → Nat)
    (hr : reg.RankedBy rank) (fuel : Nat) (seq : List dsid_t)
    (hfuel : ∀ k ∈ seq, rank k < fuel)
    (hsize : ∀ k ∈ seq, nonempty_paths reg fuel k < 2 ^ SIZE_BITS) :
    (∀ k r, rank k < fuel → r ∈ reg.requirements k →
      nonempty_paths reg fuel k < 2 ^ SIZE_BITS →
      ∃ ck cr, cost reg fuel k = some ck ∧ cost reg fuel r = some cr ∧ ck ≥ cr + 1) ∧
    ∃ order, construction_order reg fuel seq = some order ∧ order.Perm seq ∧
      ∀ a b r, a ∈ seq → b ∈ seq → r ∈ reg.requirements a → Reaches reg r b →
        ∀ l1 l2, order = l1 ++ b :: l2 → a ∈ l1 ∧ a ∉ l2 := by
  constructor
  · intro k r hk hmem hsmall
    have hrk := hr k r hmem
    have hle := nonempty_paths_succ_le reg rank hr fuel k r hk hmem
    refine ⟨nonempty_paths reg fuel k, nonempty_paths reg fuel r, ?_, ?_, hle⟩
    · rw [cost_eq_nonempty_paths reg rank hr fuel k hk, Nat.mod_eq_of_lt hsmall]
    · rw [cost_eq_nonempty_paths reg rank hr fuel r (by omega), Nat.mod_eq_of_lt (by omega)]
  · obtain ⟨order, ho, hperm⟩ := _construction_order_perm reg rank hr fuel seq hfuel
    have hsorted := _construction_order_sorted reg rank hr fuel seq order hfuel ho
    refine ⟨order, ho, hperm, ?_⟩
    intro a b r ha hb hmem hreach l1 l2 hsplit
    have hab : Reaches reg a b := Reaches.step a r b hmem hreach
    have hrank : rank b < rank a := by
      have h1 := reaches_rank reg rank hr hreach
      have h2 := hr a r hmem
      omega
    have hne : a ≠ b := by
      intro e
      rw [e] at hrank
      omega
    have hpos := num_paths_of_reaches reg rank hr hab (rank a) (Nat.le_refl _)
    have hcost := costN_lt_of_path reg rank hr b (rank a) a hne hpos fuel (hfuel a ha)
      (hsize a ha)
    have hnot : a ∉ l2 := by
      intro hin
      rw [hsplit] at hsorted
      have h1 := (List.pairwise_append.1 hsorted).2.1
      have h2 := (List.pairwise_cons.1 h1).1 a hin
      omega
    have hin : a ∈ order := hperm.mem_iff.2 ha
    rw [hsplit] at hin
    simp only [List.mem_append, List.mem_cons] at hin
    rcases hin with h | h | h
    · exact ⟨h, hnot⟩
    · exact absurd h hne
    · exact absurd h hnot

/-- C24 (amended), at `regChain` with the sequence `A, B, C`: the order is
`C, B, A`. -/
theorem C24_cost_strictly_monotone_witness :
    construction_order regChain 3 [0, 1, 2] = some [2, 1, 0] ∧
    ((∀ k r, rankChain k < 3 → r ∈ regChain.requirements k →
      nonempty_paths regChain 3 k < 2 ^ SIZE_BITS →
      ∃ ck cr, cost regChain 3 k = some ck ∧ cost regChain 3 r = some cr ∧ ck ≥ cr + 1) ∧
    ∃ order, construction_order regChain 3 [0, 1, 2] = some order ∧ order.Perm [0, 1, 2] ∧
      ∀ a b r, a ∈ [0, 1, 2] → b ∈ [0, 1, 2] → r ∈ regChain.requirements a →
        Reaches regChain r b →
        ∀ l1 l2, order = l1 ++ b :: l2 → a ∈ l1 ∧ a ∉ l2) :=
  ⟨by decide, C24_cost_strictly_monotone regChain rankChain regChain_ranked 3 [0, 1, 2]
    (by decide) (by decide)⟩


/-! ## How many times a data structure is constructed -/

theorem paths_from_eq_countP (reg : Registry) (fuel : Nat) (seq : List dsid_t) (k : dsid_t) :
    paths_from reg fuel seq k =
      (seq.flatMap (requirement_paths reg fuel)).countP (path_ends_at k) := by
  rw [List.countP_flatMap]
  unfold paths_from
  congr 1
  apply List.map_congr_left
  intro q _
  exact num_paths_eq_countP reg k fuel q

/-- C26: a run over an acyclic registry returns, and the number of `construct`
calls it issues for `k` is the degree of `k` right after the request phase,
which is the number of requirement paths from requested data structures to `k`;
for a `k` without an entry in the degree map it is zero. -/
theorem C26_construct_count_is_degree (reg : Registry) (rank : dsid_t → Nat)
    (hr : reg.RankedBy rank) (m_construct : List dsid_t) (cm : CompressMode) (fuel : Nat)
    (hfuel : ∀ k ∈ m_construct, rank k < fuel) :
    ∃ s0 s, init_degree reg fuel m_construct State.init = .ok s0 ∧
      DSDependencyGraph reg m_construct cm fuel = .ok s ∧
      ∀ k, construct_count k s.calls = degree s0 k ∧
        construct_count k s.calls =
          (m_construct.flatMap (requirement_paths reg fuel)).countP (path_ends_at k) ∧
        (s0.m_degree k = none → construct_count k s.calls = 0) := by
  obtain ⟨s0, s, hs0, hrun, hcount⟩ :=
    run_construct_count reg rank hr m_construct cm fuel hfuel
  refine ⟨s0, s, hs0, hrun, fun k => ⟨(hcount k).1, ?_, fun hnone => ?_⟩⟩
  · rw [(hcount k).1, (hcount k).2, paths_from_eq_countP]
  · rw [(hcount k).1, degree_of_none hnone]

/-- C26, at `regChain` with `C` and `D` requested: `A` and `B` are constructed
twice each, `C` and `D` once. -/
theorem C26_construct_count_is_degree_witness :
    (∃ s, DSDependencyGraph regChain [2, 3] CompressMode.plain 3 = .ok s ∧
      s.calls.filter (fun c => c matches Call.construct _ _) =
        [Call.construct 0 false, Call.construct 1 false, Call.construct 2 false,
          Call.construct 0 false, Call.construct 1 false, Call.construct 3 false]) ∧
    ∃ s0 s, init_degree regChain 3 [2, 3] State.init = .ok s0 ∧
      DSDependencyGraph regChain [2, 3] CompressMode.plain 3 = .ok s ∧
      ∀ k, construct_count k s.calls = degree s0 k ∧
        construct_count k s.calls =
          ([2, 3].flatMap (requirement_paths regChain 3)).countP (path_ends_at k) ∧
        (s0.m_degree k = none → construct_count k s.calls = 0) :=
  ⟨⟨_, rfl, by decide⟩,
    C26_construct_count_is_degree regChain rankChain regChain_ranked [2, 3]
      CompressMode.plain 3 (by decide)⟩


/-! ## How many times a requested data structure is compressed -/

theorem decimal_digits_spec : ∀ fuel n, n < fuel →
    (∀ d ∈ decimal_digits fuel n, d < 10) ∧
    (decimal_digits fuel n).foldl (fun a d => a * 10 + d) 0 = n := by
  intro fuel
  induction fuel with
  | zero => intro n h; omega
  | succ fuel ih =>
    intro n hn
    unfold decimal_digits
    by_cases h10 : n < 10
    · rw [if_pos h10]
      exact ⟨fun d hd => by simp only [List.mem_singleton] at hd; omega, by simp⟩
    · rw [if_neg h10]
      obtain ⟨h1, h2⟩ := ih (n / 10) (by omega)
      refine ⟨fun d hd => ?_, ?_⟩
      · rcases List.mem_append.1 hd with h | h
        · exact h1 d h
        · simp only [List.mem_singleton] at h
          omega
      · rw [List.foldl_append, h2]
        simp only [List.foldl_cons, List.foldl_nil]
        omega

theorem parse_digits : ∀ ds : List Nat, (∀ d ∈ ds, d < 10) →
    ∀ (c index b : Nat) (rest : List Nat), ¬ (48 ≤ b ∧ b ≤ 57) →
      parse_number_until_other (ds.map (fun d => d + 48) ++ b :: rest) c index =
        (true, b, ds.foldl (fun a d => a * 10 + d) index, rest) := by
  intro ds
  induction ds with
  | nil =>
    intro _ c index b rest hb
    simp [parse_number_until_other, hb]
  | cons d t ih =>
    intro hd c index b rest hb
    have hd10 := hd d (by simp)
    have hdig : 48 ≤ d + 48 ∧ d + 48 ≤ 57 := by omega
    rw [List.map_cons, List.cons_append, parse_number_until_other, if_pos hdig,
      Nat.add_sub_cancel, List.foldl_cons]
    exact ih (fun x hx => hd x (by simp [hx])) (d + 48) _ b rest hb

theorem parse_decimal (n c : Nat) (rest : List Nat) :
    parse_number_until_other (decimal n ++ 44 :: rest) c 0 = (true, 44, n, rest) := by
  obtain ⟨h1, h2⟩ := decimal_digits_spec (n + 1) n (by omega)
  unfold decimal
  rw [parse_digits _ h1 c 0 44 rest (by omega), h2]

theorem decode_loop_round (CODE_BITS : Nat) (debug : Bool) (fuel : Nat) (fact : Factor)
    (hi : fact.index < 2 ^ CODE_BITS) (hc : fact.chr < 256) (rest : List Nat) (c : Nat) :
    decode_loop CODE_BITS debug (fuel + 1)
        (([40] ++ decimal fact.index ++ [44] ++ [fact.chr % 256] ++ [41]) ++ rest) c =
      (decode_loop CODE_BITS debug fuel rest 41).map (fun facts => fact :: facts) := by
  have hshape : ([40] ++ decimal fact.index ++ [44] ++ [fact.chr % 256] ++ [41]) ++ rest =
      40 :: (decimal fact.index ++ 44 :: (fact.chr % 256 :: 41 :: rest)) := by
    simp
  have hle : fact.index ≤ 2 ^ CODE_BITS - 1 := by omega
  rw [hshape]
  simp only [decode_loop, istream_get, parse_decimal, DCHECK, hle, Nat.mod_eq_of_lt hi,
    Nat.mod_eq_of_lt hc]
  cases decode_loop CODE_BITS debug fuel rest 41 <;> simp

theorem encode_fact_foldl (facts : List Factor) : ∀ self : Lz78DebugCoder,
    (facts.foldl Lz78DebugCoder.encode_fact self).m_out =
      self.m_out ++ facts.flatMap
        (fun f => [40] ++ decimal f.index ++ [44] ++ [f.chr % 256] ++ [41]) := by
  induction facts with
  | nil => intro self; simp
  | cons f t ih =>
    intro self
    rw [List.foldl_cons, ih, List.flatMap_cons, ← List.append_assoc]
    rfl

theorem decode_loop_facts (CODE_BITS : Nat) (debug : Bool) :
    ∀ (facts : List Factor), (∀ f ∈ facts, f.index < 2 ^ CODE_BITS ∧ f.chr < 256) →
      ∀ fuel c, facts.length ≤ fuel →
        decode_loop CODE_BITS debug fuel
          (facts.flatMap (fun f => [40] ++ decimal f.index ++ [44] ++ [f.chr % 256] ++ [41]))
          c = some facts := by
  intro facts
  induction facts with
  | nil =>
    intro _ fuel c _
    cases fuel <;> simp [decode_loop, istream_get]
  | cons f t ih =>
    intro h fuel c hfuel
    obtain ⟨fuel', hf⟩ : ∃ fuel', fuel = fuel' + 1 := ⟨fuel - 1, by
      simp only [List.length_cons] at hfuel
      omega⟩
    subst hf
    rw [List.flatMap_cons, decode_loop_round CODE_BITS debug fuel' f (h f (by simp)).1
      (h f (by simp)).2, ih (fun x hx => h x (by simp [hx])) fuel' 41 (by
        simp only [List.length_cons] at hfuel
        omega)]
    rfl

theorem length_le_encoding (facts : List Factor) :
    facts.length ≤ (facts.flatMap
      (fun f => [40] ++ decimal f.index ++ [44] ++ [f.chr % 256] ++ [41])).length := by
  induction facts with
  | nil => simp
  | cons f t ih =>
    rw [List.flatMap_cons, List.length_append, List.length_cons]
    simp only [List.length_append, List.length_cons, List.length_nil] at ih ⊢
    omega


theorem decimal_spec (n : Nat) :
    (∀ b ∈ decimal n, 48 ≤ b ∧ b ≤ 57) ∧
    (decimal n).foldl (fun a b => a * 10 + (b - 48)) 0 = n := by
  obtain ⟨h1, h2⟩ := decimal_digits_spec (n + 1) n (by omega)
  unfold decimal
  refine ⟨fun b hb => ?_, ?_⟩
  · simp only [List.mem_map] at hb
    obtain ⟨d, hd, hdb⟩ := hb
    have := h1 d hd
    omega
  · rw [List.foldl_map]
    simpa using h2

/-- C28: `encode_fact` appends `'('`, the decimal digits of the index, `','`,
the byte `chr` and `')'` to the output. For every sequence of factors whose
index is in the range of `CodeType` and whose `chr` is a byte, `decode` applied
to what `encode_fact` has written for them, one after the other, hands the
same factors in the same order to the decode buffer, in a debug build (no
`DCHECK` fails) as in a release build; as many rounds of the loop as the input
has bytes, or more, give this result. -/
theorem C28_debug_coder_round_trip (CODE_BITS : Nat) (debug : Bool) (facts : List Factor)
    (hfacts : ∀ f ∈ facts, f.index < 2 ^ CODE_BITS ∧ f.chr < 256) :
    (∀ (self : Lz78DebugCoder) (f : Factor), f.chr < 256 →
      (self.encode_fact f).m_out =
        self.m_out ++ ([40] ++ decimal f.index ++ [44, f.chr, 41]) ∧
      (∀ b ∈ decimal f.index, 48 ≤ b ∧ b ≤ 57) ∧
      (decimal f.index).foldl (fun a b => a * 10 + (b - 48)) 0 = f.index) ∧
    Lz78DebugCoder.decode CODE_BITS debug
      (facts.foldl Lz78DebugCoder.encode_fact ⟨[]⟩).m_out = some facts ∧
    (∀ fuel c, (facts.foldl Lz78DebugCoder.encode_fact ⟨[]⟩).m_out.length ≤ fuel →
      decode_loop CODE_BITS debug fuel
        (facts.foldl Lz78DebugCoder.encode_fact ⟨[]⟩).m_out c = some facts) := by
  have hlen := length_le_encoding facts
  have hout := encode_fact_foldl facts ⟨[]⟩
  rw [List.nil_append] at hout
  refine ⟨fun self f hf => ⟨?_, (decimal_spec f.index).1, (decimal_spec f.index).2⟩, ?_,
    fun fuel c hfuel => ?_⟩
  · unfold Lz78DebugCoder.encode_fact
    rw [Nat.mod_eq_of_lt hf]
    simp
  · unfold Lz78DebugCoder.decode
    rw [hout]
    exact decode_loop_facts CODE_BITS debug facts hfacts _ 0 hlen
  · rw [hout] at hfuel ⊢
    exact decode_loop_facts CODE_BITS debug facts hfacts fuel c (by omega)

/-- C28, at four factors whose `chr` is a digit, `','`, `'('` and `')'`. -/
theorem C28_debug_coder_round_trip_witness :
    (([⟨0, 53⟩, ⟨12, 44⟩, ⟨305, 40⟩, ⟨7, 41⟩] : List Factor).foldl
        Lz78DebugCoder.encode_fact ⟨[]⟩).m_out =
      [40, 48, 44, 53, 41, 40, 49, 50, 44, 44, 41, 40, 51, 48, 53, 44, 40, 41,
        40, 55, 44, 41, 41] ∧
    ((∀ (self : Lz78DebugCoder) (f : Factor), f.chr < 256 →
      (self.encode_fact f).m_out =
        self.m_out ++ ([40] ++ decimal f.index ++ [44, f.chr, 41]) ∧
      (∀ b ∈ decimal f.index, 48 ≤ b ∧ b ≤ 57) ∧
      (decimal f.index).foldl (fun a b => a * 10 + (b - 48)) 0 = f.index) ∧
    Lz78DebugCoder.decode 32 true
      (([⟨0, 53⟩, ⟨12, 44⟩, ⟨305, 40⟩, ⟨7, 41⟩] : List Factor).foldl
        Lz78DebugCoder.encode_fact ⟨[]⟩).m_out =
      some [⟨0, 53⟩, ⟨12, 44⟩, ⟨305, 40⟩, ⟨7, 41⟩] ∧
    (∀ fuel c,
      (([⟨0, 53⟩, ⟨12, 44⟩, ⟨305, 40⟩, ⟨7, 41⟩] : List Factor).foldl
        Lz78DebugCoder.encode_fact ⟨[]⟩).m_out.length ≤ fuel →
      decode_loop 32 true fuel
        (([⟨0, 53⟩, ⟨12, 44⟩, ⟨305, 40⟩, ⟨7, 41⟩] : List Factor).foldl
          Lz78DebugCoder.encode_fact ⟨[]⟩).m_out c =
        some [⟨0, 53⟩, ⟨12, 44⟩, ⟨305, 40⟩, ⟨7, 41⟩])) :=
  ⟨by decide,
    C28_debug_coder_round_trip 32 true [⟨0, 53⟩, ⟨12, 44⟩, ⟨305, 40⟩, ⟨7, 41⟩]
      (fun f hf => by
        simp only [List.mem_cons, List.mem_singleton, List.not_mem_nil, or_false] at hf
        rcases hf with h | h | h | h <;> subst h <;> exact ⟨by norm_num, by norm_num⟩)⟩


theorem parse_number_until_other_length : ∀ (inp : List Nat) (c index : Nat),
    (parse_number_until_other inp c index).2.2.2.length ≤ inp.length := by
  intro inp
  induction inp with
  | nil => intro c index; simp [parse_number_until_other]
  | cons b rest ih =>
    intro c index
    rw [parse_number_until_other]
    split
    · have := ih b (index * 10 + (b - 48))
      simp only [List.length_cons]
      omega
    · simp

theorem istream_get_length (inp : List Nat) (c : Nat) :
    (istream_get inp c).2.2.length ≤ inp.length := by
  cases inp <;> simp [istream_get]

theorem decode_loop_fuel (CODE_BITS : Nat) (debug : Bool) :
    ∀ (fuel1 fuel2 : Nat) (inp : List Nat) (c : Nat), inp.length ≤ fuel1 →
      inp.length ≤ fuel2 →
      decode_loop CODE_BITS debug fuel1 inp c = decode_loop CODE_BITS debug fuel2 inp c := by
  intro fuel1
  induction fuel1 with
  | zero =>
    intro fuel2 inp c h1 _
    have hnil : inp = [] := List.length_eq_zero.1 (by omega)
    subst hnil
    cases fuel2 <;> simp [decode_loop, istream_get]
  | succ f1 ih =>
    intro fuel2 inp c h1 h2
    cases inp with
    | nil => cases fuel2 <;> simp [decode_loop, istream_get]
    | cons b inp1 =>
      obtain ⟨f2, hf2⟩ : ∃ f2, fuel2 = f2 + 1 := ⟨fuel2 - 1, by
        simp only [List.length_cons] at h2
        omega⟩
      subst hf2
      simp only [List.length_cons] at h1 h2
      have hp := parse_number_until_other_length inp1 b 0
      rcases hparse : parse_number_until_other inp1 b 0 with ⟨ok, c2, index, inp2⟩
      rw [hparse] at hp
      have hg3 := istream_get_length inp2 c2
      rcases hget3 : istream_get inp2 c2 with ⟨ok3, c3, inp3⟩
      rw [hget3] at hg3
      have hg4 := istream_get_length inp3 c3
      rcases hget4 : istream_get inp3 c3 with ⟨ok4, c4, inp4⟩
      rw [hget4] at hg4
      simp only at hp hg3 hg4
      have hrec := ih f2 inp4 c4 (by omega) (by omega)
      have hget1 : istream_get (b :: inp1) c = (true, b, inp1) := rfl
      cases ok <;> simp only [decode_loop, hget1, hparse, hget3, hget4, hrec]


/-! ## Where the `size_t` sums of the cost wrap -/

theorem regDouble_ranked : regDouble.RankedBy (fun ds => ds) := by
  intro k r hmem
  simp only [regDouble] at hmem
  split at hmem
  · simp at hmem
  · rename_i hk
    simp only [List.mem_cons, List.mem_singleton, List.not_mem_nil, or_false, or_self] at hmem
    show r < k
    rw [hmem]
    exact Nat.sub_lt (Nat.pos_of_ne_zero hk) Nat.one_pos

theorem nonempty_paths_regDouble :
    ∀ k, nonempty_paths regDouble (k + 1) k + 2 = 2 ^ (k + 1) := by
  intro k
  induction k with
  | zero => decide
  | succ k ih =>
    rw [nonempty_paths_succ]
    have hreq : regDouble.requirements (k + 1) = [k, k] := by
      simp [regDouble]
    have hin : in_degree regDouble (k + 1) = 2 := by
      simp [in_degree, hreq]
    rw [hin, hreq]
    simp only [List.map_cons, List.map_nil, List.sum_cons, List.sum_nil]
    rw [Nat.pow_succ]
    omega

theorem nonempty_paths_regDouble_63 :
    nonempty_paths regDouble 64 63 = 18446744073709551614 := by
  have h63 := nonempty_paths_regDouble 63
  norm_num at h63
  omega

theorem nonempty_paths_regDouble_64 :
    nonempty_paths regDouble 65 64 = 36893488147419103230 := by
  have h64 := nonempty_paths_regDouble 64
  norm_num at h64
  omega

theorem cost_regDouble : cost regDouble 65 63 = some (2 ^ 64 - 2) ∧
    cost regDouble 65 64 = some (2 ^ 64 - 2) ∧
    nonempty_paths regDouble 65 64 = 2 ^ 65 - 2 := by
  have hf := nonempty_paths_fuel regDouble (fun ds => ds) regDouble_ranked 65 64 63
    (by norm_num) (by norm_num)
  have c63 := cost_eq_nonempty_paths regDouble (fun ds => ds) regDouble_ranked 65 63
    (by norm_num)
  have c64 := cost_eq_nonempty_paths regDouble (fun ds => ds) regDouble_ranked 65 64
    (by norm_num)
  refine ⟨c63.trans ?_, c64.trans ?_, nonempty_paths_regDouble_64.trans (by norm_num)⟩
  · exact congrArg (fun n => some (n % 2 ^ SIZE_BITS))
      (hf.trans nonempty_paths_regDouble_63) |>.trans (by norm_num [SIZE_BITS])
  · exact congrArg (fun n => some (n % 2 ^ SIZE_BITS))
      nonempty_paths_regDouble_64 |>.trans (by norm_num [SIZE_BITS])

/-- C7 (counterexample): in `regDouble` the data structure 64 requires 63 twice,
the cost of 63 is `2 ^ 64 - 2`, and the cost of 64 is `2 ^ 64 - 2` as well, not
`in_degree(64)` plus the sum of the costs of its requirements. -/
theorem C7_counterexample :
    regDouble.RankedBy (fun ds => ds) ∧ regDouble.requirements 64 = [63, 63] ∧
    in_degree regDouble 64 = 2 ∧ cost regDouble 65 63 = some (2 ^ 64 - 2) ∧
    cost regDouble 65 64 = some (2 ^ 64 - 2) ∧
    ¬ ∃ cs, List.Forall₂ (fun r c => cost regDouble 65 r = some c)
        (regDouble.requirements 64) cs ∧
      cost regDouble 65 64 = some (in_degree regDouble 64 + cs.sum) := by
  obtain ⟨h63, h64, _⟩ := cost_regDouble
  have hreq : regDouble.requirements 64 = [63, 63] := by decide
  refine ⟨regDouble_ranked, hreq, by decide, h63, h64, ?_⟩
  rintro ⟨cs, hall, hc⟩
  rw [hreq] at hall
  have hin : in_degree regDouble 64 = 2 := by decide
  rw [h64, hin] at hc
  cases hall with
  | cons h1 hrest =>
    cases hrest with
    | cons h2 hnil =>
      cases hnil
      rw [h63] at h1 h2
      simp only [Option.some.injEq] at h1 h2 hc
      rw [← h1, ← h2] at hc
      norm_num at hc

/-- C24 (counterexample): in `regDouble` the data structure 64 requires 63, and
both have the cost `2 ^ 64 - 2`; the construction order of `63, 64` is `63, 64`,
with 63 in front of 64, which requires it. -/
theorem C24_counterexample :
    regDouble.RankedBy (fun ds => ds) ∧ 63 ∈ regDouble.requirements 64 ∧
    cost regDouble 65 64 = some (2 ^ 64 - 2) ∧ cost regDouble 65 63 = some (2 ^ 64 - 2) ∧
    (¬ ∃ ck cr, cost regDouble 65 64 = some ck ∧ cost regDouble 65 63 = some cr ∧
      ck ≥ cr + 1) ∧
    construction_order regDouble 65 [63, 64] = some [63, 64] := by
  obtain ⟨h63, h64, _⟩ := cost_regDouble
  refine ⟨regDouble_ranked, by decide, h64, h63, ?_, ?_⟩
  · rintro ⟨ck, cr, hk, hr, hge⟩
    rw [h64] at hk
    rw [h63] at hr
    simp only [Option.some.injEq] at hk hr
    omega
  · simp [construction_order, _construction_order, sort_idx, _insert, _cost_compare, h63, h64]

/-- C25 (counterexample): in `regDouble` there are `2 ^ 65 - 2` requirement
paths with at least one edge that start at 64, and the cost of 64 is
`2 ^ 64 - 2`. -/
theorem C25_counterexample :
    regDouble.RankedBy (fun ds => ds) ∧
    nonempty_paths regDouble 65 64 = 2 ^ 65 - 2 ∧
    cost regDouble 65 64 = some (2 ^ 64 - 2) ∧
    cost regDouble 65 64 ≠ some (nonempty_paths regDouble 65 64) := by
  obtain ⟨_, h64, hnp⟩ := cost_regDouble
  refine ⟨regDouble_ranked, hnp, h64, ?_⟩
  rw [h64, hnp]
  norm_num

/-! ## The history of a run and the states it went through -/

theorem State.apply_events (s : State) (e : Event) : (s.apply e).events = s.events ++ [e] := by
  cases e <;> rfl

theorem State.extend_nil (s : State) : s.extend [] = s := rfl

theorem State.extend_cons (s : State) (e : Event) (t : List Event) :
    s.extend (e :: t) = (s.apply e).extend t := rfl

theorem State.extend_append (s : State) (t u : List Event) :
    s.extend (t ++ u) = (s.extend t).extend u := by
  unfold State.extend
  rw [List.foldl_append]

theorem State.extend_events (s : State) (t : List Event) :
    (s.extend t).events = s.events ++ t := by
  induction t generalizing s with
  | nil => simp [State.extend_nil]
  | cons e t ih => rw [State.extend_cons, ih, State.apply_events]; simp

theorem State.extend_calls (s : State) (t : List Event) :
    (s.extend t).calls = s.calls ++ t.filterMap Event.as_call := by
  induction t generalizing s with
  | nil => simp [State.extend_nil]
  | cons e t ih =>
    rw [State.extend_cons, ih]
    cases e <;> simp [State.apply, State.call, State.store, Event.as_call]

theorem State.replay_events (es : List Event) : (State.replay es).events = es := by
  unfold State.replay
  rw [State.extend_events]
  rfl

theorem State.replay_calls (es : List Event) :
    (State.replay es).calls = es.filterMap Event.as_call := by
  unfold State.replay
  rw [State.extend_calls]
  rfl

theorem State.replay_append (es t : List Event) :
    State.replay (es ++ t) = (State.replay es).extend t := by
  unfold State.replay
  rw [State.extend_append]

theorem State.Recorded.recorded_init : State.init.Recorded := rfl

theorem State.Recorded.replay_extend {s : State} (h : s.Recorded) (t : List Event) :
    State.replay (s.events ++ t) = s.extend t := by
  rw [State.replay_append, h]

theorem State.Recorded.recorded_extend {s : State} (h : s.Recorded) (t : List Event) :
    (s.extend t).Recorded := by
  unfold State.Recorded
  rw [State.extend_events, h.replay_extend]

theorem State.Recorded.recorded_call {s : State} (h : s.Recorded) (c : Call) :
    (s.call c).Recorded :=
  h.recorded_extend [Event.call c]

theorem State.Recorded.recorded_store {s : State} (h : s.Recorded) (ds : dsid_t) (d : Nat) :
    (s.store ds d).Recorded :=
  h.recorded_extend [Event.store ds d]

theorem State.Recorded.calls_eq {s : State} (h : s.Recorded) :
    s.calls = s.events.filterMap Event.as_call := by
  rw [← State.replay_calls, h]

/-- Every earlier part `p` of the history of a recorded state leads to a recorded
state, from which the rest of the history leads on to the state itself. -/
theorem State.Recorded.replay_split {s : State} (h : s.Recorded) (p rest : List Event)
    (hp : s.events = p ++ rest) :
    (State.replay p).extend rest = s ∧ (State.replay p).Recorded ∧
      (State.replay p).events = p := by
  refine ⟨?_, ?_, State.replay_events p⟩
  · rw [← State.replay_append, ← hp]
    exact h
  · unfold State.Recorded
    rw [State.replay_events]

theorem dec_step_extend (cm : CompressMode) (mc : List dsid_t) (r : dsid_t) (d : Nat)
    (s : State) : dec_step cm mc r d s = s.extend (dec_events cm mc r d) := by
  unfold dec_step dec_events dec_call possibly_compress
  by_cases h0 : d = 0
  · subst h0
    simp [State.extend, State.apply]
  · by_cases h1 : d = 1
    · subst h1
      by_cases hq : is_requested mc r = true
      · by_cases hcm : cm = CompressMode.delayed
        · simp [State.extend, State.apply, hq, hcm, degree_store]
        · simp [State.extend, State.apply, hq, hcm]
      · have hq' : is_requested mc r = false := by simpa using hq
        by_cases hcm : cm = CompressMode.delayed
        · simp [State.extend, State.apply, hq', hcm]
        · simp [State.extend, State.apply, hq', hcm]
    · by_cases hcm : cm = CompressMode.delayed
      · simp [State.extend, State.apply, h0, h1, hcm, degree_store]
      · simp [State.extend, State.apply, h0, h1, hcm]

theorem discard_byproducts_extend (L : List dsid_t) (s : State) :
    discard_byproducts L s = s.extend ((byproduct_calls L s).map Event.call) := by
  induction L generalizing s with
  | nil => rfl
  | cons b L ih =>
    unfold discard_byproducts
    rw [ih]
    by_cases hb : degree s b = 0
    · have hcalls : byproduct_calls L (s.call (.discard b true)) = byproduct_calls L s := by
        unfold byproduct_calls
        simp only [degree_call]
      simp only [hb, if_true, hcalls]
      unfold byproduct_calls
      simp [hb, State.extend, State.apply]
    · simp only [hb, if_false]
      unfold byproduct_calls
      simp [hb]

theorem forSeq_recorded (f : dsid_t → State → Run)
    (hf : ∀ h s s', f h s = .ok s' → s.Recorded → s'.Recorded) :
    ∀ (L : List dsid_t) (s s' : State), forSeq f L s = .ok s' → s.Recorded → s'.Recorded := by
  intro L
  induction L with
  | nil =>
    intro s s' h hs
    simp only [forSeq, Except.ok.injEq] at h
    rwa [← h]
  | cons a L ih =>
    intro s s' h hs
    unfold forSeq at h
    cases ha : f a s with
    | error e => simp [ha] at h
    | ok s1 =>
      simp only [ha] at h
      exact ih s1 s' h (hf a s s1 ha hs)

theorem init_degree_head_recorded (reg : Registry) :
    ∀ (fuel : Nat) (h : dsid_t) (s s' : State),
      init_degree_head reg fuel h s = .ok s' → s.Recorded → s'.Recorded := by
  intro fuel
  induction fuel with
  | zero =>
    intro h s s' hrun
    simp [init_degree_head] at hrun
  | succ fuel ih =>
    intro h s s' hrun hs
    unfold init_degree_head at hrun
    cases h1 : forSeq (init_degree_head reg fuel) (reg.requirements h)
        (s.call (.ensure_provider h)) with
    | error e => simp [h1] at hrun
    | ok s1 =>
      have hs1 : s1.Recorded :=
        forSeq_recorded _ ih _ _ _ h1 (hs.recorded_call _)
      simp only [h1] at hrun
      cases hm : s1.m_degree h with
      | none =>
        simp only [hm, Except.ok.injEq] at hrun
        rw [← hrun]
        exact hs1.recorded_store _ _
      | some d =>
        simp only [hm, Except.ok.injEq] at hrun
        rw [← hrun]
        exact (hs1.recorded_store _ _).recorded_call _

theorem init_degree_recorded (reg : Registry) (fuel : Nat) (seq : List dsid_t) (s s' : State)
    (hrun : init_degree reg fuel seq s = .ok s') (hs : s.Recorded) : s'.Recorded :=
  forSeq_recorded _ (init_degree_head_recorded reg fuel) seq s s' hrun hs

theorem forall_split_nil {α : Type} (P : List α → α → Prop) :
    ∀ q e r, ([] : List α) = q ++ e :: r → P q e := by
  intro q e r h
  simp at h

theorem forall_split_cons {α : Type} (P : List α → α → Prop) (x : α) (t : List α)
    (h0 : P [] x) (ht : ∀ q e r, t = q ++ e :: r → P (x :: q) e) :
    ∀ q e r, x :: t = q ++ e :: r → P q e := by
  intro q e r h
  rcases List.cons_eq_append_iff.1 h with ⟨hq, he⟩ | ⟨q', hq, hr⟩
  · simp only [List.cons.injEq] at he
    rw [hq, he.1]
    exact h0
  · rw [hq]
    exact ht q' e r hr

theorem dec_call_eq_some {cm : CompressMode} {mc : List dsid_t} {r : dsid_t} {d : Nat}
    {c : Call} (h : dec_call cm mc r d = some c) :
    (d = 0 ∧ c = Call.discard r true) ∨
    (d = 1 ∧ cm = CompressMode.delayed ∧ r ∈ mc ∧ c = Call.compress r) ∨
    (d = 1 ∧ r ∉ mc ∧ c = Call.unprotect r) := by
  unfold dec_call at h
  simp only [is_requested, contains_idx, decide_eq_true_eq, decide_eq_false_iff_not] at h
  split at h
  · rename_i h0
    exact Or.inl ⟨h0, by simpa using h.symm⟩
  · split at h
    · rename_i h1
      exact Or.inr (Or.inl ⟨h1.2.2, h1.1, h1.2.1, by simpa using h.symm⟩)
    · split at h
      · rename_i h2
        exact Or.inr (Or.inr ⟨h2.1, h2.2, by simpa using h.symm⟩)
      · simp at h

theorem dec_call_eq_none {cm : CompressMode} {mc : List dsid_t} {r : dsid_t} {d : Nat}
    (h : dec_call cm mc r d = none) : d ≠ 0 ∧ (d = 1 → r ∈ mc) := by
  unfold dec_call at h
  simp only [is_requested, contains_idx, decide_eq_true_eq, decide_eq_false_iff_not] at h
  split at h
  · simp at h
  · rename_i h0
    split at h
    · simp at h
    · split at h
      · simp at h
      · rename_i h2
        refine ⟨h0, fun h1 => ?_⟩
        by_contra hr
        exact h2 ⟨h1, hr⟩

theorem dec_call_unprotect {cm : CompressMode} {mc : List dsid_t} {r : dsid_t}
    (hr : r ∉ mc) : dec_call cm mc r 1 = some (Call.unprotect r) := by
  unfold dec_call
  simp [is_requested, contains_idx, hr]

/-- The evaluation is a sequence of steps, and a step writes to the history:
whatever holds of every entry a step adds, given what holds of the states
between the steps, holds of every entry the evaluation adds. `M q st e` is
about the entry `e`, added in the state `st`, after the evaluation has added the
entries `q`. -/
theorem steps_history {cm : CompressMode} {mc : List dsid_t} (a : State)
    (I : List Event → State → Prop) (M : List Event → State → Event → Prop)
    (h0 : I [] a)
    (hstep : ∀ t1 b c, b = a.extend t1 → I t1 b → SchedStep cm mc b c →
      ∃ t, c = b.extend t ∧ I (t1 ++ t) c ∧
        ∀ q e r, t = q ++ e :: r → M (t1 ++ q) (b.extend q) e)
    {s : State} (h : SchedSteps cm mc a s) :
    ∃ t, s = a.extend t ∧ I t s ∧ ∀ q e r, t = q ++ e :: r → M q (a.extend q) e := by
  induction h with
  | refl => exact ⟨[], rfl, h0, forall_split_nil _⟩
  | tail _ hlast ih =>
    obtain ⟨t1, hb, hI, hM⟩ := ih
    obtain ⟨t, hc, hI', hM'⟩ := hstep t1 _ _ hb hI hlast
    refine ⟨t1 ++ t, by rw [hc, hb, State.extend_append], hI', ?_⟩
    intro q e r hsplit
    rcases split_append hsplit with ⟨post1, h1, _⟩ | ⟨pre2, h1, h2⟩
    · exact hM q e post1 h1
    · have := hM' pre2 e r h2
      rw [hb, ← State.extend_append, ← h1] at this
      exact this

/-! ## Compression happens only when eligible -/

theorem steps_compress_eligible {cm : CompressMode} {mc : List dsid_t} (a : State)
    {s : State} (h : SchedSteps cm mc a s) :
    ∃ t, s = a.extend t ∧ ∀ q e r, t = q ++ e :: r → ∀ x, e = Event.call (Call.compress x) →
      cm = CompressMode.delayed ∧ x ∈ mc ∧ degree (a.extend q) x = 1 := by
  refine (steps_history a (fun _ _ => True)
    (fun _ st e => ∀ x, e = Event.call (Call.compress x) →
      cm = CompressMode.delayed ∧ x ∈ mc ∧ degree st x = 1) trivial ?_ h).imp
    fun t ht => ⟨ht.1, ht.2.2⟩
  intro t1 b c _ _ hbc
  cases hbc with
  | construct k hd =>
    refine ⟨[Event.call _], rfl, trivial, forall_split_cons _ _ _ ?_ (forall_split_nil _)⟩
    intro x hx
    simp at hx
  | byproduct k hd =>
    refine ⟨[Event.call _], rfl, trivial, forall_split_cons _ _ _ ?_ (forall_split_nil _)⟩
    intro x hx
    simp at hx
  | compress k hcm hk hd =>
    refine ⟨[Event.call _], rfl, trivial, forall_split_cons _ _ _ ?_ (forall_split_nil _)⟩
    intro x hx
    simp only [Event.call.injEq, Call.compress.injEq] at hx
    subst hx
    exact ⟨hcm, hk, hd⟩
  | decrement r d hm =>
    refine ⟨dec_events cm mc r d, dec_step_extend cm mc r d b, trivial, ?_⟩
    unfold dec_events
    refine forall_split_cons _ _ _ (fun x hx => by simp at hx) ?_
    cases hdc : dec_call cm mc r d with
    | none => exact forall_split_nil _
    | some c0 =>
      refine forall_split_cons _ _ _ ?_ (forall_split_nil _)
      intro x hx
      simp only [Event.call.injEq] at hx
      subst hx
      rcases dec_call_eq_some hdc with ⟨_, h2⟩ | ⟨h1, h2, h3, h4⟩ | ⟨_, _, h2⟩
      · simp at h2
      · simp only [Call.compress.injEq] at h4
        subst h4
        refine ⟨h2, h3, ?_⟩
        show degree (b.store x d) x = 1
        rw [degree_store, if_pos rfl, h1]
      · simp at h2

theorem filterMap_split {α β : Type} (f : α → Option β) :
    ∀ (es : List α) (pre : List β) (x : β) (post : List β),
      es.filterMap f = pre ++ x :: post →
      ∃ p e r, es = p ++ e :: r ∧ f e = some x ∧ p.filterMap f = pre ∧
        r.filterMap f = post := by
  intro es
  induction es with
  | nil =>
    intro pre x post h
    simp at h
  | cons e0 es ih =>
    intro pre x post h
    cases hf : f e0 with
    | none =>
      rw [List.filterMap_cons_none hf] at h
      obtain ⟨p, e, r, h1, h2, h3, h4⟩ := ih pre x post h
      exact ⟨e0 :: p, e, r, by rw [h1]; rfl, h2, by rw [List.filterMap_cons_none hf, h3], h4⟩
    | some y =>
      rw [List.filterMap_cons_some hf] at h
      cases pre with
      | nil =>
        simp only [List.nil_append, List.cons.injEq] at h
        exact ⟨[], e0, es, rfl, by rw [hf, h.1], rfl, h.2⟩
      | cons y0 pre =>
        simp only [List.cons_append, List.cons.injEq] at h
        obtain ⟨p, e, r, h1, h2, h3, h4⟩ := ih pre x post h.2
        exact ⟨e0 :: p, e, r, by rw [h1]; rfl, h2,
          by rw [List.filterMap_cons_some hf, h3, h.1], h4⟩

theorem Event.as_call_eq_some {e : Event} {c : Call} (h : e.as_call = some c) :
    e = Event.call c := by
  cases e with
  | call c0 => simp only [Event.as_call, Option.some.injEq] at h; rw [h]
  | store ds d => simp [Event.as_call] at h

theorem State.Recorded.call_mem {s : State} (h : s.Recorded) (c : Call) :
    c ∈ s.calls ↔ Event.call c ∈ s.events := by
  rw [h.calls_eq, List.mem_filterMap]
  constructor
  · rintro ⟨e, he, hc⟩
    rwa [← Event.as_call_eq_some hc]
  · intro he
    exact ⟨_, he, rfl⟩

/-- The manager call at a place of the log is an entry of the history, and the
calls before it are the calls of the state the object was in. -/
theorem State.Recorded.call_split {s : State} (h : s.Recorded) {pre post : List Call}
    {c : Call} (hsplit : s.calls = pre ++ c :: post) :
    ∃ p rest, s.events = p ++ Event.call c :: rest ∧ (State.replay p).calls = pre ∧
      rest.filterMap Event.as_call = post := by
  rw [h.calls_eq] at hsplit
  obtain ⟨p, e, r, h1, h2, h3, h4⟩ := filterMap_split _ _ _ _ _ hsplit
  refine ⟨p, r, ?_, ?_, h4⟩
  · rw [h1, Event.as_call_eq_some h2]
  · rw [State.replay_calls, h3]

theorem run_history (reg : Registry) (rank : dsid_t → Nat) (hr : reg.RankedBy rank)
    (mc : List dsid_t) (cm : CompressMode) (fuel : Nat) (hfuel : ∀ k ∈ mc, rank k < fuel) :
    ∃ s0 s, init_degree reg fuel mc State.init = .ok s0 ∧
      InitRel (paths_from reg fuel mc) State.init s0 ∧
      DSDependencyGraph reg mc cm fuel = .ok s ∧
      (∀ x, degree s x = mc.count x) ∧
      SchedSteps cm mc s0 s ∧ s0.Recorded ∧
      (∀ e ∈ s0.events, ∀ c, e = Event.call c →
        (∃ x, c = Call.ensure_provider x) ∨ (∃ x, c = Call.protect x)) := by
  obtain ⟨s0, s, hs0, hrel0, hrun, hfin, hsteps⟩ := run_steps reg rank hr mc cm fuel hfuel
  have hrec0 : s0.Recorded :=
    init_degree_recorded reg fuel mc State.init s0 hs0 State.Recorded.recorded_init
  refine ⟨s0, s, hs0, hrel0, hrun, hfin, hsteps, hrec0, ?_⟩
  intro e he c hc
  rw [hc] at he
  exact init_calls_kind hrel0 ((hrec0.call_mem c).2 he)

/-- C22: a run over an acyclic registry returns, and every `compress(x)` in its
history was called in delayed mode, for a requested `x`, and in a state of the
run in which `degree(x) = 1`: the state the history up to the call leads to
(the same holds for the calls before a `compress(x)` in the log of manager
calls). So no `compress` is called in the other modes, nor for a data structure
that is not requested. -/
theorem C22_compress_only_when_eligible (reg : Registry) (rank : dsid_t → Nat)
    (hr : reg.RankedBy rank) (m_construct : List dsid_t) (cm : CompressMode) (fuel : Nat)
    (hfuel : ∀ k ∈ m_construct, rank k < fuel) :
    ∃ s, DSDependencyGraph reg m_construct cm fuel = .ok s ∧ s.Recorded ∧
      (∀ p x rest, s.events = p ++ Event.call (Call.compress x) :: rest →
        cm = CompressMode.delayed ∧ x ∈ m_construct ∧ degree (State.replay p) x = 1) ∧
      (∀ pre x post, s.calls = pre ++ Call.compress x :: post →
        ∃ p rest, s.events = p ++ Event.call (Call.compress x) :: rest ∧
          (State.replay p).calls = pre ∧
          cm = CompressMode.delayed ∧ x ∈ m_construct ∧ degree (State.replay p) x = 1) ∧
      (∀ x, Call.compress x ∈ s.calls → cm = CompressMode.delayed ∧ x ∈ m_construct) ∧
      (cm ≠ CompressMode.delayed → ∀ x, Call.compress x ∉ s.calls) ∧
      (∀ x, x ∉ m_construct → Call.compress x ∉ s.calls) := by
  obtain ⟨s0, s, hs0, hrel0, hrun, _, hsteps, hrec0, hkind0⟩ :=
    run_history reg rank hr m_construct cm fuel hfuel
  obtain ⟨t, ht, hM⟩ := steps_compress_eligible s0 hsteps
  have hrec : s.Recorded := by rw [ht]; exact hrec0.recorded_extend t
  have hev : s.events = s0.events ++ t := by rw [ht, State.extend_events]
  have hmoment : ∀ p x rest, s.events = p ++ Event.call (Call.compress x) :: rest →
      cm = CompressMode.delayed ∧ x ∈ m_construct ∧ degree (State.replay p) x = 1 := by
    intro p x rest hsplit
    rw [hev] at hsplit
    rcases split_append hsplit with ⟨post1, h1, _⟩ | ⟨pre2, h1, h2⟩
    · have hin : Event.call (Call.compress x) ∈ s0.events := by rw [h1]; simp
      rcases hkind0 _ hin _ rfl with ⟨y, hy⟩ | ⟨y, hy⟩ <;> simp at hy
    · rw [h1, hrec0.replay_extend]
      exact hM pre2 _ rest h2 x rfl
  have hall : ∀ x, Call.compress x ∈ s.calls →
      cm = CompressMode.delayed ∧ x ∈ m_construct := by
    intro x hx
    obtain ⟨p, rest, hsplit⟩ := List.append_of_mem ((hrec.call_mem _).1 hx)
    have := hmoment p x rest hsplit
    exact ⟨this.1, this.2.1⟩
  refine ⟨s, hrun, hrec, hmoment, ?_, hall, fun hne x hx => hne (hall x hx).1,
    fun x hx hc => hx (hall x hc).2⟩
  intro pre x post hsplit
  obtain ⟨p, rest, h1, h2, _⟩ := hrec.call_split hsplit
  exact ⟨p, rest, h1, h2, hmoment p x rest h1⟩

/-- C22, in delayed mode with `B` requested, which requires `A`: `A` is
discarded when its degree has reached zero and is never compressed, `B` is
compressed, with degree one. -/
theorem C22_compress_only_when_eligible_witness :
    (∃ s, DSDependencyGraph regABC [1] CompressMode.delayed 2 = .ok s ∧
      s.calls = [Call.ensure_provider 1, Call.ensure_provider 0, Call.construct 0 false,
        Call.construct 1 false, Call.discard 0 true, Call.compress 1] ∧
      s.events = [Event.call (.ensure_provider 1), Event.call (.ensure_provider 0),
        Event.store 0 1, Event.store 1 1, Event.call (.construct 0 false),
        Event.call (.construct 1 false), Event.store 0 0, Event.call (.discard 0 true),
        Event.call (.compress 1)] ∧
      degree (State.replay (s.events.take 7)) 0 = 0 ∧
      degree (State.replay (s.events.take 8)) 1 = 1) ∧
    ∃ s, DSDependencyGraph regABC [1] CompressMode.delayed 2 = .ok s ∧ s.Recorded ∧
      (∀ p x rest, s.events = p ++ Event.call (Call.compress x) :: rest →
        CompressMode.delayed = CompressMode.delayed ∧ x ∈ [1] ∧
          degree (State.replay p) x = 1) ∧
      (∀ pre x post, s.calls = pre ++ Call.compress x :: post →
        ∃ p rest, s.events = p ++ Event.call (Call.compress x) :: rest ∧
          (State.replay p).calls = pre ∧
          CompressMode.delayed = CompressMode.delayed ∧ x ∈ [1] ∧
            degree (State.replay p) x = 1) ∧
      (∀ x, Call.compress x ∈ s.calls →
        CompressMode.delayed = CompressMode.delayed ∧ x ∈ [1]) ∧
      (CompressMode.delayed ≠ CompressMode.delayed → ∀ x, Call.compress x ∉ s.calls) ∧
      (∀ x, x ∉ [1] → Call.compress x ∉ s.calls) :=
  ⟨⟨_, rfl, by decide, by decide, by decide, by decide⟩,
    C22_compress_only_when_eligible regABC rankABC regABC_ranked [1] CompressMode.delayed 2
      (by decide)⟩

/-! ## When `unprotect` is called, in the history of the run -/

theorem last_of_append_singleton {α : Type} {t q : List α} {x y : α}
    (h : t ++ [x] = q ++ [y]) : t = q ∧ x = y := by
  have h1 := List.append_inj_right' h rfl
  have h2 := List.append_inj_left' h rfl
  exact ⟨h2, by simpa using h1⟩

theorem steps_unprotect_timed {cm : CompressMode} {mc : List dsid_t} (a : State)
    (ha : ProtectedIffShared mc a) {s : State} (h : SchedSteps cm mc a s) :
    ∃ t, s = a.extend t ∧ ProtectedIffShared mc s ∧
      (∀ q' k, t = q' ++ [Event.store k 1] → k ∈ mc) ∧
      ∀ q e r, t = q ++ e :: r → UnprotectTimed mc a q (a.extend q) e := by
  refine (steps_history a
    (fun t st => ProtectedIffShared mc st ∧ ∀ q' k, t = q' ++ [Event.store k 1] → k ∈ mc)
    (UnprotectTimed mc a) ⟨ha, fun q' k hq => by simp at hq⟩ ?_ h).imp
    fun t ht => ⟨ht.1, ht.2.1.1, ht.2.1.2, ht.2.2⟩
  intro t1 b c hb hI hbc
  have hprot := step_protected cm mc b c hbc hI.1
  have hcall : ∀ c0 : Call, (∀ k, c0 ≠ Call.unprotect k) →
      (∀ q' k, t1 ++ [Event.call c0] = q' ++ [Event.store k 1] → k ∈ mc) ∧
      ∀ q e r, [Event.call c0] = q ++ e :: r → UnprotectTimed mc a (t1 ++ q) (b.extend q) e := by
    intro c0 hc0
    refine ⟨fun q' k hq => ?_,
      forall_split_cons _ _ _ ⟨?_, ?_, ?_, ?_⟩ (forall_split_nil _)⟩
    · have := (last_of_append_singleton hq).2
      simp at this
    · intro k hk
      simp only [Event.call.injEq] at hk
      exact absurd hk (hc0 k)
    · intro q' k hq hk
      rw [List.append_nil] at hq
      exact absurd (hI.2 q' k hq) hk
    · intro k d hk
      simp at hk
    · intro _
      exact hI.1
  cases hbc with
  | construct k hd =>
    have := hcall (.construct k (decide (cm = CompressMode.compressed)))
      (by intro x hx; cases hx)
    exact ⟨[Event.call _], rfl, ⟨hprot, this.1⟩, this.2⟩
  | byproduct k hd =>
    have := hcall (.discard k true) (by intro x hx; cases hx)
    exact ⟨[Event.call _], rfl, ⟨hprot, this.1⟩, this.2⟩
  | compress k hcm hk hd =>
    have := hcall (.compress k) (by intro x hx; cases hx)
    exact ⟨[Event.call _], rfl, ⟨hprot, this.1⟩, this.2⟩
  | decrement r d hm =>
    refine ⟨dec_events cm mc r d, dec_step_extend cm mc r d b, ⟨hprot, ?_⟩, ?_⟩
    · intro q' k hq
      unfold dec_events at hq
      cases hdc : dec_call cm mc r d with
      | none =>
        rw [hdc] at hq
        have := (last_of_append_singleton hq).2
        simp only [Event.store.injEq] at this
        rw [← this.1]
        exact (dec_call_eq_none hdc).2 this.2
      | some c0 =>
        rw [hdc] at hq
        have hq' : (t1 ++ [Event.store r d]) ++ [Event.call c0] = q' ++ [Event.store k 1] := by
          simpa using hq
        have := (last_of_append_singleton hq').2
        simp at this
    · unfold dec_events
      refine forall_split_cons _ _ _ ⟨?_, ?_, ?_, ?_⟩ ?_
      · intro k hk
        simp at hk
      · intro q' k hq hk
        rw [List.append_nil] at hq
        exact absurd (hI.2 q' k hq) hk
      · intro k d' hk
        simp only [Event.store.injEq] at hk
        rw [← hk.1, ← hk.2]
        exact hm
      · intro _
        exact hI.1
      · cases hdc : dec_call cm mc r d with
        | none => exact forall_split_nil _
        | some c0 =>
          refine forall_split_cons _ _ _ ⟨?_, ?_, ?_, ?_⟩ (forall_split_nil _)
          · intro k hk
            simp only [Event.call.injEq] at hk
            subst hk
            rcases dec_call_eq_some hdc with ⟨_, h2⟩ | ⟨_, _, _, h2⟩ | ⟨h1, h2, h3⟩
            · simp at h2
            · simp at h2
            · simp only [Call.unprotect.injEq] at h3
              subst h3
              subst h1
              refine ⟨h2, t1, rfl, ?_⟩
              rw [← hb]
              exact degree_of_some hm
          · intro q' k hq hk
            have := last_of_append_singleton hq
            simp only [Event.store.injEq] at this
            obtain ⟨_, hrk, hd1⟩ := this
            subst hrk
            subst hd1
            rw [dec_call_unprotect hk] at hdc
            simp only [Option.some.injEq] at hdc
            rw [hdc]
          · intro k d' hk
            simp at hk
          · intro hnot k hk
            show protected_after k (b.store r d).calls = true ↔ 2 ≤ degree (b.store r d) k
            rw [State.store_calls, degree_store]
            have hIk := hI.1 k hk
            by_cases hkr : k = r
            · subst hkr
              rw [if_pos rfl]
              have hdeg : degree b k = d + 1 := degree_of_some hm
              rcases dec_call_eq_some hdc with ⟨h1, _⟩ | ⟨_, _, h2, _⟩ | ⟨_, _, h2⟩
              · rw [hIk, hdeg, h1]
                omega
              · exact absurd h2 hk
              · exact absurd (by rw [h2]) (hnot k)
            · rw [if_neg hkr]
              exact hIk

/-- C11: a run over an acyclic registry returns, and in its history
every `unprotect(k)` is for a `k` that is not requested and directly follows
the write of one to the degree of `k`, made in the evaluation phase when that
degree was two; every write to a degree in the evaluation phase is a decrement
by one, and when it writes one to the degree of a `k` that is not requested,
`unprotect(k)` is the next entry. In the whole run `unprotect(k)` is called once
if `k` is not requested and left the request phase with a degree of at least
two, and never otherwise; every `k` it is called for was protected in the
request phase. At every moment of the evaluation phase but the one between such
a write and its `unprotect`, a data structure that is not requested is protected
exactly if its degree is at least two. -/
theorem C11_unprotect_timing (reg : Registry) (rank : dsid_t → Nat)
    (hr : reg.RankedBy rank) (m_construct : List dsid_t) (cm : CompressMode) (fuel : Nat)
    (hfuel : ∀ k ∈ m_construct, rank k < fuel) :
    ∃ s0 s t, init_degree reg fuel m_construct State.init = .ok s0 ∧
      DSDependencyGraph reg m_construct cm fuel = .ok s ∧
      s0.Recorded ∧ s.Recorded ∧ s.events = s0.events ++ t ∧
      (∀ p k rest, s.events = p ++ Event.call (Call.unprotect k) :: rest →
        k ∉ m_construct ∧ ∃ q, p = s0.events ++ q ++ [Event.store k 1] ∧
          degree (State.replay (s0.events ++ q)) k = 2) ∧
      (∀ q k d rest, t = q ++ Event.store k d :: rest →
        (State.replay (s0.events ++ q)).m_degree k = some (d + 1) ∧
        (d = 1 → k ∉ m_construct →
          ∃ rest', rest = Event.call (Call.unprotect k) :: rest')) ∧
      (∀ k, s.calls.count (Call.unprotect k) =
        if k ∉ m_construct ∧ 2 ≤ degree s0 k then 1 else 0) ∧
      (∀ k, Call.unprotect k ∈ s.calls → Call.protect k ∈ s0.calls) ∧
      (∀ q r, t = q ++ r → (∀ k r', r ≠ Event.call (Call.unprotect k) :: r') →
        ∀ k, k ∉ m_construct →
          (protected_after k (State.replay (s0.events ++ q)).calls = true ↔
            2 ≤ degree (State.replay (s0.events ++ q)) k)) := by
  obtain ⟨s0, s, hs0, hrel0, hrun, hfin, hsteps, hrec0, hkind0⟩ :=
    run_history reg rank hr m_construct cm fuel hfuel
  have hinv0 : ProtectedIffShared m_construct s0 := fun k _ => (init_protected hrel0 k).1
  obtain ⟨t, ht, hinv, hlast, hM⟩ := steps_unprotect_timed s0 hinv0 hsteps
  have hrec : s.Recorded := by rw [ht]; exact hrec0.recorded_extend t
  have hev : s.events = s0.events ++ t := by rw [ht, State.extend_events]
  have honce0 : UnprotectedOnce m_construct s0 s0 :=
    ⟨fun _ => Nat.le_refl _, fun k => by
      have : ¬ (k ∉ m_construct ∧ 2 ≤ degree s0 k ∧ degree s0 k ≤ 1) := by omega
      rw [if_neg this, Nat.add_zero]⟩
  have honce := steps_induct (UnprotectedOnce m_construct s0)
    (fun a b hab => step_unprotected_once cm m_construct s0 a b hab) hsteps honce0
  have hcount : ∀ k, s.calls.count (Call.unprotect k) =
      if k ∉ m_construct ∧ 2 ≤ degree s0 k then 1 else 0 := by
    intro k
    rw [honce.2 k, (init_protected hrel0 k).2.2, Nat.zero_add]
    by_cases hk : k ∈ m_construct
    · simp [hk]
    · have h0 : degree s k = 0 := by rw [hfin k, List.count_eq_zero_of_not_mem hk]
      simp [hk, h0]
  refine ⟨s0, s, t, hs0, hrun, hrec0, hrec, hev, ?_, ?_, hcount, fun k hk => ?_, ?_⟩
  · intro p k rest hsplit
    rw [hev] at hsplit
    rcases split_append hsplit with ⟨post1, h1, _⟩ | ⟨pre2, h1, h2⟩
    · have hin : Event.call (Call.unprotect k) ∈ s0.events := by rw [h1]; simp
      rcases hkind0 _ hin _ rfl with ⟨y, hy⟩ | ⟨y, hy⟩ <;> simp at hy
    · obtain ⟨hk, q, hq, hd⟩ := (hM pre2 _ rest h2).1 k rfl
      refine ⟨hk, q, by rw [h1, hq, List.append_assoc], ?_⟩
      rw [hrec0.replay_extend]
      exact hd
  · intro q k d rest hsplit
    refine ⟨?_, fun hd hk => ?_⟩
    · rw [hrec0.replay_extend]
      exact (hM q _ rest hsplit).2.2.1 k d rfl
    · subst hd
      cases rest with
      | nil => exact absurd (hlast q k hsplit) hk
      | cons e rest' =>
        have hsplit' : t = (q ++ [Event.store k 1]) ++ e :: rest' := by
          rw [hsplit, List.append_assoc]
          rfl
        rw [(hM _ e rest' hsplit').2.1 q k rfl hk]
        exact ⟨rest', rfl⟩
  · have hpos : 0 < s.calls.count (Call.unprotect k) := List.count_pos_iff.2 hk
    rw [hcount k] at hpos
    split at hpos
    · rename_i hc
      exact (init_protected hrel0 k).2.1.2 hc.2
    · omega
  · intro q r hsplit hnot
    rw [hrec0.replay_extend]
    cases r with
    | nil =>
      rw [List.append_nil] at hsplit
      rw [← hsplit, ← ht]
      exact hinv
    | cons e r' =>
      refine (hM q e r' hsplit).2.2.2 (fun k hk => ?_)
      exact hnot k r' (by rw [hk])

/-- C11, at `regChain` with `C` and `D` requested: `A` and `B` are unprotected
once each, directly after their degrees have been written from two to one. -/
theorem C11_unprotect_timing_witness :
    (∃ s, DSDependencyGraph regChain [2, 3] CompressMode.plain 3 = .ok s ∧
      s.events = [Event.call (.ensure_provider 2), Event.call (.ensure_provider 1),
        Event.call (.ensure_provider 0), Event.store 0 1, Event.store 1 1, Event.store 2 1,
        Event.call (.ensure_provider 3), Event.call (.ensure_provider 1),
        Event.call (.ensure_provider 0), Event.store 0 2, Event.call (.protect 0),
        Event.store 1 2, Event.call (.protect 1), Event.store 3 1,
        Event.call (.construct 0 false), Event.call (.construct 1 false), Event.store 0 1,
        Event.call (.unprotect 0), Event.call (.construct 2 false), Event.store 1 1,
        Event.call (.unprotect 1), Event.call (.construct 0 false),
        Event.call (.construct 1 false), Event.store 0 0, Event.call (.discard 0 true),
        Event.call (.construct 3 false), Event.store 1 0, Event.call (.discard 1 true)]) ∧
    ∃ s0 s t, init_degree regChain 3 [2, 3] State.init = .ok s0 ∧
      DSDependencyGraph regChain [2, 3] CompressMode.plain 3 = .ok s ∧
      s0.Recorded ∧ s.Recorded ∧ s.events = s0.events ++ t ∧
      (∀ p k rest, s.events = p ++ Event.call (Call.unprotect k) :: rest →
        k ∉ [2, 3] ∧ ∃ q, p = s0.events ++ q ++ [Event.store k 1] ∧
          degree (State.replay (s0.events ++ q)) k = 2) ∧
      (∀ q k d rest, t = q ++ Event.store k d :: rest →
        (State.replay (s0.events ++ q)).m_degree k = some (d + 1) ∧
        (d = 1 → k ∉ [2, 3] →
          ∃ rest', rest = Event.call (Call.unprotect k) :: rest')) ∧
      (∀ k, s.calls.count (Call.unprotect k) =
        if k ∉ [2, 3] ∧ 2 ≤ degree s0 k then 1 else 0) ∧
      (∀ k, Call.unprotect k ∈ s.calls → Call.protect k ∈ s0.calls) ∧
      (∀ q r, t = q ++ r → (∀ k r', r ≠ Event.call (Call.unprotect k) :: r') →
        ∀ k, k ∉ [2, 3] →
          (protected_after k (State.replay (s0.events ++ q)).calls = true ↔
            2 ≤ degree (State.replay (s0.events ++ q)) k)) :=
  ⟨⟨_, rfl, by decide⟩,
    C11_unprotect_timing regChain rankChain regChain_ranked [2, 3] CompressMode.plain 3
      (by decide)⟩

/-! ## The entries of the history that follow a `construct` -/

theorem State.extend_m_degree_of_calls (s : State) (t : List Event)
    (h : ∀ e ∈ t, ∃ c, e = Event.call c) : (s.extend t).m_degree = s.m_degree := by
  induction t generalizing s with
  | nil => rfl
  | cons e t ih =>
    rw [State.extend_cons, ih _ (fun e' he' => h e' (List.mem_cons_of_mem _ he'))]
    obtain ⟨c, hc⟩ := h e (List.mem_cons_self _ _)
    rw [hc]
    rfl

theorem decrease_degree_extend (cm : CompressMode) (mc : List dsid_t) (L : List dsid_t)
    (s s' : State) (h : decrease_degree cm mc L s = .ok s') :
    ∃ t, s' = s.extend t ∧ SameKeys s s' ∧ ∀ e ∈ t, ∀ k c, e ≠ Event.call (Call.construct k c) := by
  refine decrease_degree_induct cm mc
    (fun s s' => ∃ t, s' = s.extend t ∧ SameKeys s s' ∧
      ∀ e ∈ t, ∀ k c, e ≠ Event.call (Call.construct k c)) ?_ ?_ ?_ L s s' h
  · intro s
    exact ⟨[], rfl, fun _ => Iff.rfl, fun e he => by simp at he⟩
  · rintro s1 s2 s3 ⟨t1, h1, k1, n1⟩ ⟨t2, h2, k2, n2⟩
    refine ⟨t1 ++ t2, by rw [h2, h1, State.extend_append], k1.keys_trans k2, ?_⟩
    intro e he
    rcases List.mem_append.1 he with he | he
    · exact n1 e he
    · exact n2 e he
  · intro s r d hm
    refine ⟨dec_events cm mc r d, dec_step_extend cm mc r d s, ?_, ?_⟩
    · intro x
      rw [dec_step_m_degree, State.store_m_degree]
      by_cases hx : x = r
      · rw [if_pos hx, hx, hm]
        simp
      · rw [if_neg hx]
    · intro e he k c hc
      subst hc
      unfold dec_events at he
      simp only [List.mem_cons, reduceCtorEq, List.mem_map, Event.call.injEq, exists_eq_right,
        Option.mem_toList, Option.mem_def, false_or] at he
      rcases dec_call_eq_some he with ⟨_, h2⟩ | ⟨_, _, _, h2⟩ | ⟨_, _, h2⟩ <;> simp at h2

theorem possibly_compress_extend (mc : List dsid_t) (ds : dsid_t) (s : State) :
    ∃ t, possibly_compress mc ds s = s.extend t ∧ (t = [] ∨ t = [Event.call (Call.compress ds)]) := by
  unfold possibly_compress
  split
  · exact ⟨[Event.call (Call.compress ds)], rfl, Or.inr rfl⟩
  · exact ⟨[], rfl, Or.inl rfl⟩

theorem eval_history_byproducts (reg : Registry) (rank : dsid_t → Nat) (hr : reg.RankedBy rank)
    (cm : CompressMode) (mc : List dsid_t) (fuel : Nat) (top : Bool) (L : List dsid_t)
    (s s' : State) (hfuel : ∀ k ∈ L, rank k < fuel)
    (hpre : ∀ x, paths_from reg fuel L x ≤ degree s x)
    (hrun : construct_recursive reg cm mc fuel top L s = .ok s') :
    ∃ t, s' = s.extend t ∧ SameKeys s s' ∧
      ∀ p k c rest, t = p ++ Event.call (Call.construct k c) :: rest →
        SameKeys s (s.extend p) ∧
        ∃ rest', rest =
          (byproduct_calls (reg.provides k) (s.extend p)).map Event.call ++ rest' := by
  refine construct_recursive_induct reg rank hr cm mc
    (fun _ _ s s' => ∃ t, s' = s.extend t ∧ SameKeys s s' ∧
      ∀ p k c rest, t = p ++ Event.call (Call.construct k c) :: rest →
        SameKeys s (s.extend p) ∧
        ∃ rest', rest =
          (byproduct_calls (reg.provides k) (s.extend p)).map Event.call ++ rest')
    ?_ ?_ ?_ fuel top L s s' hfuel hpre hrun
  · intro fuel s
    refine ⟨[], rfl, fun _ => Iff.rfl, ?_⟩
    intro p k c rest h
    simp at h
  · rintro fuel h t s1 s2 s3 ⟨t1, hc1, hk1, hb1⟩ ⟨t2, hc2, hk2, hb2⟩
    refine ⟨t1 ++ t2, by rw [hc2, hc1, State.extend_append], hk1.keys_trans hk2, ?_⟩
    intro p k c rest hsplit
    rcases split_append hsplit with ⟨post1, h1, h2⟩ | ⟨pre2, h1, h2⟩
    · obtain ⟨hkeys, rest', hrest⟩ := hb1 p k c post1 h1
      exact ⟨hkeys, rest' ++ t2, by rw [h2, hrest, List.append_assoc]⟩
    · obtain ⟨hkeys, rest', hrest⟩ := hb2 pre2 k c rest h2
      rw [h1, State.extend_append, ← hc1]
      exact ⟨hk1.keys_trans hkeys, rest', hrest⟩
  · rintro fuel top h order s s1 s4 _ _ _ _ _ _ _ _ ⟨t1, hc1, hk1, hb1⟩ h4
    obtain ⟨tdec, hdec, hkdec, hndec⟩ := decrease_degree_extend cm mc _ _ s4 h4
    have hcomp : ∃ tc, (if cm = CompressMode.delayed ∧ top = true
        then possibly_compress mc h s4 else s4) = s4.extend tc ∧
        (tc = [] ∨ tc = [Event.call (Call.compress h)]) := by
      split
      · exact possibly_compress_extend mc h s4
      · exact ⟨[], rfl, Or.inl rfl⟩
    obtain ⟨tc, hres, htc⟩ := hcomp
    have hbyp : byproduct_calls (reg.provides h)
        (s1.call (.construct h (decide (cm = CompressMode.compressed)))) =
        byproduct_calls (reg.provides h) s1 := by
      unfold byproduct_calls
      simp only [degree_call]
    rw [discard_byproducts_extend, hbyp] at hdec
    have hs4 : s4 = s1.extend (Event.call (.construct h (decide (cm = CompressMode.compressed))) ::
        ((byproduct_calls (reg.provides h) s1).map Event.call ++ tdec)) := by
      rw [hdec, State.extend_cons, State.extend_append]
      rfl
    have hk4 : SameKeys s1 s4 := by
      refine SameKeys.keys_trans ?_ hkdec
      intro x
      rw [discard_byproducts_eq]
      exact Iff.rfl
    have hk5 : SameKeys s1 (s4.extend tc) := by
      refine hk4.keys_trans ?_
      intro x
      rw [State.extend_m_degree_of_calls]
      intro e he
      rcases htc with htc | htc
      · rw [htc] at he
        simp at he
      · rw [htc] at he
        exact ⟨_, by simpa using he⟩
    rw [hres]
    refine ⟨t1 ++ Event.call (.construct h (decide (cm = CompressMode.compressed))) ::
        ((byproduct_calls (reg.provides h) s1).map Event.call ++ tdec ++ tc), ?_,
      hk1.keys_trans hk5, ?_⟩
    · rw [hs4, hc1, ← State.extend_append, ← State.extend_append]
      simp
    · intro p k c rest hsplit
      rcases split_append hsplit with ⟨post1, h1, h2⟩ | ⟨pre2, h1, h2⟩
      · obtain ⟨hkeys, rest', hrest⟩ := hb1 p k c post1 h1
        exact ⟨hkeys, rest' ++ _, by rw [h2, hrest, List.append_assoc]⟩
      · cases pre2 with
        | cons y pre2 =>
          exfalso
          simp only [List.cons_append, List.cons.injEq] at h2
          have hmem : Event.call (Call.construct k c) ∈
              (byproduct_calls (reg.provides h) s1).map Event.call ++ tdec ++ tc := by
            rw [h2.2]
            simp
          rcases List.mem_append.1 hmem with hmem | hmem
          · rcases List.mem_append.1 hmem with hmem | hmem
            · unfold byproduct_calls at hmem
              simp at hmem
            · exact hndec _ hmem k c rfl
          · rcases htc with htc | htc <;> rw [htc] at hmem <;> simp at hmem
        | nil =>
          simp only [List.nil_append, List.cons.injEq, Event.call.injEq,
            Call.construct.injEq] at h2
          obtain ⟨⟨hk, _⟩, hpost⟩ := h2
          subst hk
          rw [h1, List.append_nil, ← hc1]
          exact ⟨hk1, tdec ++ tc, by rw [← hpost, List.append_assoc]⟩

theorem filterMap_map_call (l : List Call) :
    (l.map Event.call).filterMap Event.as_call = l := by
  induction l with
  | nil => rfl
  | cons c l ih =>
    rw [List.map_cons, List.filterMap_cons_some (by rfl : (Event.call c).as_call = some c), ih]

/-- C9 (amended): a run over an acyclic registry returns, and in its history,
which holds the manager calls and the writes to the degree map, every
`construct` of `k` is directly followed by `discard(b, true)` for the members
`b` of `provides(k)` whose degree is zero at that moment, in the state of the
run the history up to the `construct` leads to (no entry in the degree map, or
an entry that has dropped to zero), in the order of `provides(k)`; the
byproducts without an entry are all among them, in that order. No write to a
degree and no other `construct` comes in between; this step changes no degree.
The same holds in the log of manager calls. -/
theorem C9_zero_degree_byproducts_follow (reg : Registry) (rank : dsid_t → Nat)
    (hr : reg.RankedBy rank) (m_construct : List dsid_t) (cm : CompressMode) (fuel : Nat)
    (hfuel : ∀ k ∈ m_construct, rank k < fuel) :
    ∃ s0 s, init_degree reg fuel m_construct State.init = .ok s0 ∧
      DSDependencyGraph reg m_construct cm fuel = .ok s ∧ s.Recorded ∧
      (∀ p k c rest, s.events = p ++ Event.call (Call.construct k c) :: rest →
        SameKeys s0 (State.replay p) ∧
        (∃ rest', rest =
          ((reg.provides k).filter (fun b => decide (degree (State.replay p) b = 0))).map
            (fun b => Event.call (Call.discard b true)) ++ rest') ∧
        List.Sublist (absent_byproduct_calls (reg.provides k) s0)
          (byproduct_calls (reg.provides k) (State.replay p))) ∧
      ∀ pre c post k, s.calls = pre ++ Call.construct k c :: post →
        ∃ p rest sd, s.events = p ++ Event.call (Call.construct k c) :: rest ∧
          sd = State.replay p ∧ sd.calls = pre ∧ SameKeys s0 sd ∧
          (∃ rest', post = byproduct_calls (reg.provides k) sd ++ rest') ∧
          (discard_byproducts (reg.provides k) (sd.call (Call.construct k c))).m_degree =
            sd.m_degree ∧
          List.Sublist (absent_byproduct_calls (reg.provides k) s0)
            (byproduct_calls (reg.provides k) sd) := by
  obtain ⟨s0, order, s, _, hs0, hrel0, _, hrank, hpre, hs, hrun, _, _, _, _⟩ :=
    run_spec reg rank hr m_construct cm fuel hfuel
  have hrec0 : s0.Recorded :=
    init_degree_recorded reg fuel m_construct State.init s0 hs0 State.Recorded.recorded_init
  obtain ⟨t, ht, _, hfollow⟩ :=
    eval_history_byproducts reg rank hr cm m_construct fuel true order s0 s hrank hpre hs
  have hrec : s.Recorded := by rw [ht]; exact hrec0.recorded_extend t
  have hev : s.events = s0.events ++ t := by rw [ht, State.extend_events]
  have hmoment : ∀ p k c rest, s.events = p ++ Event.call (Call.construct k c) :: rest →
      SameKeys s0 (State.replay p) ∧
      ∃ rest', rest =
        (byproduct_calls (reg.provides k) (State.replay p)).map Event.call ++ rest' := by
    intro p k c rest hsplit
    rw [hev] at hsplit
    rcases split_append hsplit with ⟨post1, h1, _⟩ | ⟨pre2, h1, h2⟩
    · have hin : Call.construct k c ∈ s0.calls := by
        rw [hrec0.call_mem, h1]
        simp
      rcases init_calls_kind hrel0 hin with ⟨y, hy⟩ | ⟨y, hy⟩ <;> simp at hy
    · rw [h1, hrec0.replay_extend]
      exact hfollow pre2 k c rest h2
  refine ⟨s0, s, hs0, hrun, hrec, ?_, ?_⟩
  · intro p k c rest hsplit
    obtain ⟨hkeys, rest', hrest⟩ := hmoment p k c rest hsplit
    refine ⟨hkeys, ⟨rest', ?_⟩, absent_sublist_byproduct_calls (reg.provides k) s0 _ hkeys⟩
    rw [hrest]
    unfold byproduct_calls
    rw [List.map_map]
    rfl
  · intro pre c post k hsplit
    obtain ⟨p, rest, h1, h2, h3⟩ := hrec.call_split hsplit
    obtain ⟨hkeys, rest', hrest⟩ := hmoment p k c rest h1
    refine ⟨p, rest, State.replay p, h1, rfl, h2, hkeys, ⟨rest'.filterMap Event.as_call, ?_⟩, ?_,
      absent_sublist_byproduct_calls (reg.provides k) s0 _ hkeys⟩
    · rw [← h3, hrest, List.filterMap_append, filterMap_map_call]
    · rw [discard_byproducts_eq]
      rfl

/-- C9 (amended), at the registry of the counterexample: `construct` of `C` is
directly followed by the discards of `A`, whose entry has dropped to zero, and
of `3`, which has no entry. -/
theorem C9_zero_degree_byproducts_follow_witness :
    (∃ s, DSDependencyGraph regBy [1, 2] CompressMode.plain 2 = .ok s ∧
      s.events = [Event.call (.ensure_provider 1), Event.call (.ensure_provider 0),
        Event.store 0 1, Event.store 1 1, Event.call (.ensure_provider 2), Event.store 2 1,
        Event.call (.construct 0 false), Event.call (.construct 1 false), Event.store 0 0,
        Event.call (.discard 0 true), Event.call (.construct 2 false),
        Event.call (.discard 0 true), Event.call (.discard 3 true)]) ∧
    ∃ s0 s, init_degree regBy 2 [1, 2] State.init = .ok s0 ∧
      DSDependencyGraph regBy [1, 2] CompressMode.plain 2 = .ok s ∧ s.Recorded ∧
      (∀ p k c rest, s.events = p ++ Event.call (Call.construct k c) :: rest →
        SameKeys s0 (State.replay p) ∧
        (∃ rest', rest =
          ((regBy.provides k).filter (fun b => decide (degree (State.replay p) b = 0))).map
            (fun b => Event.call (Call.discard b true)) ++ rest') ∧
        List.Sublist (absent_byproduct_calls (regBy.provides k) s0)
          (byproduct_calls (regBy.provides k) (State.replay p))) ∧
      ∀ pre c post k, s.calls = pre ++ Call.construct k c :: post →
        ∃ p rest sd, s.events = p ++ Event.call (Call.construct k c) :: rest ∧
          sd = State.replay p ∧ sd.calls = pre ∧ SameKeys s0 sd ∧
          (∃ rest', post = byproduct_calls (regBy.provides k) sd ++ rest') ∧
          (discard_byproducts (regBy.provides k) (sd.call (Call.construct k c))).m_degree =
            sd.m_degree ∧
          List.Sublist (absent_byproduct_calls (regBy.provides k) s0)
            (byproduct_calls (regBy.provides k) sd) :=
  ⟨⟨_, rfl, by decide⟩,
    C9_zero_degree_byproducts_follow regBy rankABC regBy_ranked [1, 2] CompressMode.plain 2
      (by decide)⟩

/-! ## The LCP array built from the PLCP array -/

theorem fill_spec (LEN_BITS n : Nat) (sa plcp : List Nat)
    (hsa : ∀ p ∈ sa, p < plcp.length) (hn : n < 2 ^ LEN_BITS) (hsalen : n ≤ sa.length) :
    ∀ (fuel i : Nat) (a : iv_t), i ≤ n → n - i < fuel → n ≤ a.data.length →
      ∃ a', LCPFromPLCP.fill LEN_BITS n sa plcp fuel i a = some a' ∧ a'.width = a.width ∧
        a'.data.length = a.data.length ∧
        ∀ j, a'.data[j]? =
          if i ≤ j ∧ j < n
            then some ((plcp.getD (sa.getD j 0) 0 % 2 ^ LEN_BITS) % 2 ^ a.width)
          else a.data[j]? := by
  intro fuel
  induction fuel with
  | zero =>
    intro i a _ hf
    omega
  | succ fuel ih =>
    intro i a hi hf ha
    by_cases hlt : i < n
    · have hi2 : i < sa.length := by omega
      have hi1 : i < a.data.length := by omega
      have hp : sa[i] < plcp.length := hsa _ (List.getElem_mem hi2)
      let a1 : iv_t := ⟨a.width, a.data.set i ((plcp[sa[i]] % 2 ^ LEN_BITS) % 2 ^ a.width)⟩
      have hset : a.set i (plcp[sa[i]] % 2 ^ LEN_BITS) = some a1 := by
        simp [iv_t.set, hi1, a1]
      have hnext : (i + 1) % 2 ^ LEN_BITS = i + 1 := Nat.mod_eq_of_lt (by omega)
      obtain ⟨a', ha', hw, hlen, hget⟩ := ih (i + 1) a1 (by omega) (by omega)
        (by simpa [a1] using ha)
      refine ⟨a', ?_, hw, by simpa [a1] using hlen, fun j => ?_⟩
      · simp only [LCPFromPLCP.fill, hlt, if_true, List.getElem?_eq_getElem hi2,
          List.getElem?_eq_getElem hp, hset, hnext]
        exact ha'
      · rw [hget j]
        by_cases hj : i + 1 ≤ j ∧ j < n
        · have hj' : i ≤ j ∧ j < n := ⟨by omega, hj.2⟩
          simp [hj, hj', a1]
        · by_cases hji : j = i
          · subst hji
            simp [hlt, a1, List.getElem?_set, hi1, List.getD_eq_getElem?_getD,
              List.getElem?_eq_getElem hi2, List.getElem?_eq_getElem hp]
          · have hij : ¬ i = j := fun e => hji e.symm
            have hj' : ¬ (i ≤ j ∧ j < n) := by omega
            simp [hj, hj', a1, List.getElem?_set, hij]
    · have hin : i = n := by omega
      refine ⟨a, by simp [LCPFromPLCP.fill, hlt], rfl, rfl, fun j => ?_⟩
      have hj' : ¬ (i ≤ j ∧ j < n) := by omega
      simp [hj']

theorem fill_never_ends (LEN_BITS n : Nat) (sa plcp : List Nat) (hn : 2 ^ LEN_BITS ≤ n) :
    ∀ (fuel i : Nat) (a : iv_t), i < 2 ^ LEN_BITS →
      LCPFromPLCP.fill LEN_BITS n sa plcp fuel i a = none := by
  intro fuel
  induction fuel with
  | zero =>
    intro i a _
    rfl
  | succ fuel ih =>
    intro i a hi
    have hlt : i < n := by omega
    have hnext : (i + 1) % 2 ^ LEN_BITS < 2 ^ LEN_BITS := Nat.mod_lt _ (by omega)
    simp only [LCPFromPLCP.fill, hlt, if_true]
    split
    · rfl
    · split
      · rfl
      · split
        · rfl
        · exact ih _ _ hnext

theorem construct_never_returns (bits_for : Nat → Nat) (LEN_BITS n : Nat) (sa : List Nat)
    (plcp : PLCP) (cm : CompressMode) (hn : 2 ^ LEN_BITS ≤ n) (fuel : Nat) :
    LCPFromPLCP.construct bits_for LEN_BITS fuel n sa plcp cm = none := by
  unfold LCPFromPLCP.construct
  simp only
  cases (iv_t.with_width n 0 (if cm = CompressMode.compressed
      then bits_for (plcp.max_lcp % 2 ^ LEN_BITS) else LEN_BITS)).set 0 0 with
  | none => rfl
  | some a1 =>
    simp only
    rw [fill_never_ends LEN_BITS n sa plcp.data hn fuel _ a1
      (Nat.mod_lt _ (Nat.pos_of_ne_zero (by positivity)))]

/-- C18 (counterexample): with a `len_t` of two bits and the text `0, 1, 2, 3` of
length four, whose suffix array is `0, 1, 2, 3` and whose PLCP array is
`0, 0, 0, 0`, every value of the counter is an index of both arrays, the counter
wraps from three to zero, and the constructor does not return, however many
rounds the loop is given. -/
theorem C18_counterexample :
    [0, 1, 2, 3].Perm (List.range 4) ∧
    (∀ i, 1 ≤ i → i < 4 → ([0, 0, 0, 0] : List Nat).getD (([0, 1, 2, 3] : List Nat).getD i 0) 0 =
      lcp_len (([0, 1, 2, 3] : List Nat).drop (([0, 1, 2, 3] : List Nat).getD (i - 1) 0))
        (([0, 1, 2, 3] : List Nat).drop (([0, 1, 2, 3] : List Nat).getD i 0))) ∧
    (∀ v ∈ ([0, 0, 0, 0] : List Nat), v ≤ 0) ∧ (0 : Nat) < 2 ^ 2 ∧
    (∀ p ∈ ([0, 1, 2, 3] : List Nat), p < 2 ^ 2) ∧
    (∀ i, i < 2 ^ 2 → ∃ p x, ([0, 1, 2, 3] : List Nat)[i]? = some p ∧
      ([0, 0, 0, 0] : List Nat)[p]? = some x ∧ i < 4) ∧
    (3 + 1) % 2 ^ 2 = 0 ∧
    ∀ fuel cm, LCPFromPLCP.construct bits_for_example 2 fuel 4 [0, 1, 2, 3]
      ⟨[0, 0, 0, 0], 0⟩ cm = none :=
  ⟨by decide, fun i h1 h2 => by interval_cases i <;> rfl, by decide, by decide, by decide,
    fun i hi => by
      have hi4 : i < 4 := by norm_num at hi; exact hi
      interval_cases i <;> exact ⟨_, _, rfl, rfl, by decide⟩,
    by decide,
    fun fuel cm => construct_never_returns bits_for_example 2 4 [0, 1, 2, 3] ⟨[0, 0, 0, 0], 0⟩ cm
      (by decide) fuel⟩

/-- C18 (amended): for a text of length `n` with `1 <= n < 2 ^ LEN_BITS` whose
suffix array `sa` is a permutation of `0 .. n-1` and whose PLCP array holds at
`sa[i]` the length of the longest common prefix of the suffixes at `sa[i-1]` and
`sa[i]`, the constructor returns (`n` rounds of the loop are enough) an array of
length `n` with entry zero at 0 and entry `plcp[sa[i]]`, that length, at every
`i` from 1 to `n-1`, and `max_lcp()` is `plcp.max_lcp()`. Used of the parts that
are not at hand: `plcp.max_lcp()` bounds the elements of `plcp`, `bits_for(m)`
bits hold `m`, and `len_t` holds `plcp.max_lcp()`. -/
theorem C18_lcp_from_plcp (bits_for : Nat → Nat) (LEN_BITS : Nat) (text : List Nat)
    (n : Nat) (sa : List Nat) (plcp : PLCP) (cm : CompressMode) (fuel : Nat)
    (hn : 1 ≤ n) (hsize : n < 2 ^ LEN_BITS) (hfuel : n ≤ fuel)
    (htext : text.length = n) (hsa : sa.Perm (List.range n))
    (hplcp : plcp.data.length = n)
    (hlcp : ∀ i, 1 ≤ i → i < n → plcp.data.getD (sa.getD i 0) 0 =
      lcp_len (text.drop (sa.getD (i - 1) 0)) (text.drop (sa.getD i 0)))
    (hmax : ∀ v ∈ plcp.data, v ≤ plcp.max_lcp)
    (hbits : ∀ m, m < 2 ^ bits_for m)
    (hlen : plcp.max_lcp < 2 ^ LEN_BITS) :
    ∃ r, LCPFromPLCP.construct bits_for LEN_BITS fuel n sa plcp cm = some r ∧
      r.array.data.length = n ∧ r.array.data[0]? = some 0 ∧
      (∀ i, 1 ≤ i → i < n →
        r.array.data[i]? = some (plcp.data.getD (sa.getD i 0) 0) ∧
        r.array.data[i]? =
          some (lcp_len (text.drop (sa.getD (i - 1) 0)) (text.drop (sa.getD i 0)))) ∧
      r.max_lcp = plcp.max_lcp := by
  have hsalen : sa.length = n := by rw [hsa.length_eq, List.length_range]
  have hsamem : ∀ p ∈ sa, p < plcp.data.length := by
    intro p hp
    rw [hplcp]
    exact List.mem_range.1 (hsa.mem_iff.1 hp)
  have hval : ∀ i, i < n → plcp.data.getD (sa.getD i 0) 0 ≤ plcp.max_lcp := by
    intro i hi
    have h1 : i < sa.length := by omega
    have h2 : sa[i] < plcp.data.length := hsamem _ (List.getElem_mem h1)
    rw [List.getD_eq_getElem?_getD, List.getD_eq_getElem?_getD, List.getElem?_eq_getElem h1,
      Option.getD_some, List.getElem?_eq_getElem h2, Option.getD_some]
    exact hmax _ (List.getElem_mem h2)
  have hmod : ∀ v w, v < 2 ^ w → v % 2 ^ w = v := fun v w h => Nat.mod_eq_of_lt h
  have hpow0 : ∀ w, 0 % 2 ^ w = 0 := fun w => Nat.zero_mod _
  have hmaxmod : plcp.max_lcp % 2 ^ LEN_BITS = plcp.max_lcp := hmod _ _ hlen
  have hone : 1 % 2 ^ LEN_BITS = 1 := hmod _ _ (by omega)
  obtain ⟨w0, hw0⟩ : ∃ w0, w0 = (if cm = CompressMode.compressed then bits_for plcp.max_lcp
      else LEN_BITS) := ⟨_, rfl⟩
  have hfit0 : plcp.max_lcp < 2 ^ w0 := by
    rw [hw0]
    split
    · exact hbits _
    · exact hlen
  let a1 : iv_t := ⟨w0, (List.replicate n 0).set 0 0⟩
  have hset0 : (iv_t.with_width n 0 w0).set 0 0 = some a1 := by
    simp [iv_t.set, iv_t.with_width, a1, hpow0]
    omega
  obtain ⟨a2, ha2, hw2, hlen2, hget2⟩ := fill_spec LEN_BITS n sa plcp.data hsamem hsize
    (by omega) fuel 1 a1 hn (by omega) (by
      simp only [a1, List.length_set, List.length_replicate]
      omega)
  have hlen2' : a2.data.length = n := by
    rw [hlen2]
    simp [a1]
  have hget0 : a2.data[0]? = some 0 := by
    rw [hget2 0]
    have : ¬ (1 ≤ 0 ∧ 0 < n) := by omega
    simp only [this, if_false, a1]
    rw [List.getElem?_set]
    simp
    omega
  have hgeti : ∀ i, 1 ≤ i → i < n → a2.data[i]? = some (plcp.data.getD (sa.getD i 0) 0) := by
    intro i h1 h2
    rw [hget2 i]
    have : 1 ≤ i ∧ i < n := ⟨h1, h2⟩
    simp only [this, and_self, if_true, a1]
    have hv := hval i h2
    rw [hmod _ LEN_BITS (by omega), hmod _ w0 (by omega)]
  have hcons : LCPFromPLCP.construct bits_for LEN_BITS fuel n sa plcp cm =
      some (if cm = CompressMode.delayed
        then (⟨plcp.max_lcp, a2⟩ : LCPFromPLCP).compress bits_for else ⟨plcp.max_lcp, a2⟩) := by
    simp only [LCPFromPLCP.construct, hmaxmod, hone, ← hw0, hset0, ha2]
  refine ⟨_, hcons, ?_⟩
  by_cases hd : cm = CompressMode.delayed
  · simp only [hd, if_true, LCPFromPLCP.compress, iv_t.set_width, LCPFromPLCP.max_lcp,
      List.length_map, List.getElem?_map]
    refine ⟨hlen2', by rw [hget0]; simp [hpow0], fun i h1 h2 => ?_, trivial⟩
    have hv := hval i h2
    have hb := hbits plcp.max_lcp
    have e : a2.data[i]?.map (fun x => x % 2 ^ bits_for plcp.max_lcp) =
        some (plcp.data.getD (sa.getD i 0) 0) := by
      rw [hgeti i h1 h2]
      simp only [Option.map_some']
      rw [hmod _ _ (by omega)]
    exact ⟨e, by rw [e, hlcp i h1 h2]⟩
  · simp only [hd, if_false, LCPFromPLCP.max_lcp]
    exact ⟨hlen2', hget0, fun i h1 h2 => ⟨hgeti i h1 h2, by rw [hgeti i h1 h2, hlcp i h1 h2]⟩,
      trivial⟩

/-- C18 (amended), at the text `1, 2, 1` with a `len_t` of 32 bits, in delayed
mode. -/
theorem C18_lcp_from_plcp_witness :
    [2, 0, 1].Perm (List.range 3) ∧
    ∃ r, LCPFromPLCP.construct bits_for_example 32 3 3 [2, 0, 1] ⟨[1, 0, 0], 1⟩
        CompressMode.delayed = some r ∧
      r.array.data.length = 3 ∧ r.array.data[0]? = some 0 ∧
      (∀ i, 1 ≤ i → i < 3 →
        r.array.data[i]? = some ((⟨[1, 0, 0], 1⟩ : PLCP).data.getD ([2, 0, 1].getD i 0) 0) ∧
        r.array.data[i]? =
          some (lcp_len ([1, 2, 1].drop ([2, 0, 1].getD (i - 1) 0))
            ([1, 2, 1].drop ([2, 0, 1].getD i 0)))) ∧
      r.max_lcp = 1 :=
  ⟨by decide,
    C18_lcp_from_plcp bits_for_example 32 [1, 2, 1] 3 [2, 0, 1] ⟨[1, 0, 0], 1⟩
      CompressMode.delayed 3 (by decide) (by norm_num) (by decide) rfl (by decide) rfl
      (fun i h1 h2 => by interval_cases i <;> rfl)
      (fun v hv => by
        simp only [List.mem_cons, List.mem_singleton, List.not_mem_nil, or_false] at hv
        rcases hv with h | h | h <;> subst h <;> decide)
      (fun m => by
        unfold bits_for_example
        split
        · subst m; decide
        · exact Nat.lt_size_self m)
      (by norm_num)⟩

/-! ## A run is at least as long as the number of paths below a requested data structure -/

end tdc
